import Mathlib

/-!
The split-switches pass: lowering of `switch` terminators to comparison chains.

Shallow embedding of `src/se_mode/split-switches-pass.so.cc`
(`SplitSwitchesTransform::switchConvert`, `::splitSwitches`, `::runOnModule`).

A `BasicBlock*` is modelled by a natural number, the identity of the block
(in signatures such a number is named `BB`, `id`, `OrigBlock`, ...); a module
carries the identity the next `BasicBlock::Create` will hand out.  An LLVM
instruction that is used as an operand is represented by the `Value` it
computes.
-/

set_option linter.unusedVariables false

namespace SplitSwitches

/-! ## Data model -/

/-- An `llvm::ConstantInt`: an integer constant of a given bit width. -/
structure ConstantInt where
  bitWidth : Nat
  value : Int
  deriving DecidableEq, Repr

/-- An `llvm::Value` used as an operand: either a value that exists before
the pass (argument, result of some instruction), or the result of an
`ICmpInst(ICMP_EQ, lhs, rhs)` against a constant. -/
inductive Value where
  | reg (n : Nat)
  | icmpEq (lhs : Value) (rhs : ConstantInt)
  deriving DecidableEq, Repr

/-- The `CaseExpr` struct of the source: a case constant and its successor. -/
structure CaseExpr where
  Val : ConstantInt
  BB : Nat
  deriving DecidableEq, Repr

/-- Instructions as far as the pass distinguishes them.  A `phi` lists its
incoming `(value, block)` pairs by index; `icmp` is `ICmpInst(ICMP_EQ, ..)`;
`other` is any other non-terminator instruction. -/
inductive Inst where
  | phi (incoming : List (Value × Nat))
  | icmp (lhs : Value) (rhs : ConstantInt)
  | other (tag : Nat)
  | br (dest : Nat)
  | condBr (ifTrue ifFalse : Nat) (cond : Value)
  | switch (cond : Value) (defaultDest : Nat) (cases : List CaseExpr)
  | ret
  | unreachable
  deriving DecidableEq, Repr

/-- A basic block: its identity and its instruction list. -/
structure BasicBlock where
  id : Nat
  insts : List Inst
  deriving DecidableEq, Repr

/-- A function: its basic blocks in block-list order. -/
structure Function where
  blocks : List BasicBlock
  deriving DecidableEq, Repr

/-- A module: its functions in order, and the identity that the next
created basic block receives. -/
structure Module where
  functions : List Function
  nextBlock : Nat
  deriving DecidableEq, Repr

/-- What the pass writes to `errs()`. `banner` is the line
"Running split-switches-pass by laf.intel@gmail.com"; `rewriting n` is the
line "Rewriting n switch statements ". -/
inductive Msg where
  | banner
  | rewriting (count : Nat)
  deriving DecidableEq, Repr

/-- A collected `SwitchInst*`: the function and block that own the
instruction (`getParent`), and its operands (`getCondition`,
`getDefaultDest`, the case list). -/
structure SwitchInst where
  parentFn : Nat
  parent : Nat
  cond : Value
  defaultDest : Nat
  cases : List CaseExpr
  deriving DecidableEq, Repr

/-- Result of a run of the pass: the returned flag, the module as mutated in
place, and the diagnostic lines written. -/
structure PassResult where
  ret : Bool
  M : Module
  errs : List Msg
  deriving DecidableEq, Repr

/-! ## Helpers of the IR used by the pass -/

/-- The predicate `Instruction::isTerminator`. -/
def Inst.isTerminator : Inst → Bool
  | .br _ => true
  | .condBr _ _ _ => true
  | .switch _ _ _ => true
  | .ret => true
  | .unreachable => true
  | _ => false

/-- The method `BasicBlock::getTerminator`: the last instruction when it is a
terminator. -/
def BasicBlock.getTerminator (BB : BasicBlock) : Option Inst :=
  match BB.insts.getLast? with
  | some I => if I.isTerminator then some I else none
  | none => none

/-- Successor operands of an instruction (with multiplicity). -/
def Inst.successors : Inst → List Nat
  | .br d => [d]
  | .condBr t f _ => [t, f]
  | .switch _ d cases => d :: cases.map (fun c => c.BB)
  | _ => []

/-- All blocks of a module, in function order then block order. -/
def Module.allBlocks (M : Module) : List BasicBlock :=
  M.functions.flatMap (fun F => F.blocks)

/-- Apply `g` to the instruction list of `b` when `b` is the block
identified by `BB`. -/
def BasicBlock.mapIf (BB : Nat) (g : List Inst → List Inst) (b : BasicBlock) : BasicBlock :=
  if b.id = BB then { b with insts := g b.insts } else b

/-- Apply `g` to every block of a function. -/
def Function.mapBlocks (g : BasicBlock → BasicBlock) (F : Function) : Function :=
  { blocks := F.blocks.map g }

/-- Apply `g` to the instruction list of the block(s) identified by `BB`. -/
def Module.mapInsts (M : Module) (BB : Nat) (g : List Inst → List Inst) : Module :=
  { M with functions := M.functions.map (Function.mapBlocks (BasicBlock.mapIf BB g)) }

/-- The call `BasicBlock::Create(ctx, name, F)`: a new block appended to the block
list of function number `F`. -/
def Module.appendBlock (M : Module) (F : Nat) (insts : List Inst) : Module :=
  { functions := M.functions.modify (fun f => { blocks := f.blocks ++ [⟨M.nextBlock, insts⟩] }) F
    nextBlock := M.nextBlock + 1 }

/-- Insert `New` in front of the first block identified by `Before`
(at the end when there is none). -/
def insertBefore (Before : Nat) (New : BasicBlock) : List BasicBlock → List BasicBlock
  | [] => [New]
  | b :: bs => if b.id = Before then New :: b :: bs else b :: insertBefore Before New bs

/-- The call `BasicBlock::Create(ctx, name)` followed by `insertInto(F, Before)`. -/
def Module.insertInto (M : Module) (F : Nat) (Before : Nat) (insts : List Inst) : Module :=
  { functions := M.functions.modify
      (fun f => { blocks := insertBefore Before ⟨M.nextBlock, insts⟩ f.blocks }) F
    nextBlock := M.nextBlock + 1 }

/-- The inner loop over a phi's incoming blocks: the first entry whose
block is `OrigBlock` gets `New` (`setIncomingBlock`), then `break`. -/
def setFirstIncoming (OrigBlock New : Nat) :
    List (Value × Nat) → List (Value × Nat)
  | [] => []
  | (v, b) :: rest =>
    if b = OrigBlock then (v, New) :: rest
    else (v, b) :: setFirstIncoming OrigBlock New rest

/-- The loop over the instructions of a block that updates every phi. -/
def updatePhis (OrigBlock New : Nat) (insts : List Inst) : List Inst :=
  insts.map (fun I =>
    match I with
    | .phi incoming => .phi (setFirstIncoming OrigBlock New incoming)
    | I => I)

/-- The call `BranchInst::Create(SwitchBlock, OrigBlock)` (append at the end) followed
by erasing the switch, which was the last instruction before the append. -/
def spliceIn (SwitchBlock : Nat) (insts : List Inst) : List Inst :=
  (insts ++ [Inst.br SwitchBlock]).eraseIdx (insts.length - 1)

/-! ## The pass -/

/-- One iteration of the loop of `switchConvert` (for one `Case`). -/
def switchConvertStep (F : Nat) (OrigBlock : Nat) (Val : Value)
    (st : Nat × Module) (Case : CaseExpr) : Nat × Module :=
  let NextNode := st.1
  let NewNode := st.2.nextBlock
  let M1 := st.2.appendBlock F
    [Inst.icmp Val Case.Val, Inst.condBr Case.BB NextNode (Value.icmpEq Val Case.Val)]
  (NewNode, M1.mapInsts Case.BB (updatePhis OrigBlock NewNode))

/-- The function `SplitSwitchesTransform::switchConvert`: the cases are visited from the
last to the first; `F` is `OrigBlock->getParent()`. Returns `NextNode`. -/
def switchConvert (Cases : List CaseExpr) (bytesChecked : List Bool) (F : Nat)
    (OrigBlock NewDefault : Nat) (Val : Value) (level : Nat) (M : Module) :
    Nat × Module :=
  Cases.reverse.foldl (switchConvertStep F OrigBlock Val) (NewDefault, M)

/-- The body of the block loop of the collection scan. -/
def collectBlock (fi : Nat) (BB : BasicBlock) (switches : List SwitchInst) : List SwitchInst :=
  match BB.getTerminator with
  | some (.switch c d cases) =>
    if cases.length < 1 then switches else switches ++ [⟨fi, BB.id, c, d, cases⟩]
  | _ => switches

/-- The function loop of the collection scan, `fi` being the number of the
first function of the list. -/
def collectFrom : Nat → List Function → List SwitchInst → List SwitchInst
  | _, [], switches => switches
  | fi, F :: Fs, switches =>
    collectFrom (fi + 1) Fs (F.blocks.foldl (fun sw BB => collectBlock fi BB sw) switches)

/-- The collection scan of `splitSwitches`: the `switches` vector. -/
def collectSwitches (M : Module) : List SwitchInst :=
  collectFrom 0 M.functions []

/-- The body of the rewriting loop of `splitSwitches` for one `SI`. -/
def splitSwitch (M : Module) (SI : SwitchInst) : Module :=
  if SI.cases.length = 0 then M
  else
    let NewDefault := M.nextBlock
    let M1 := M.insertInto SI.parentFn SI.defaultDest [Inst.br SI.defaultDest]
    let bytesChecked :=
      List.replicate ((SI.cases.head?.map (fun c => c.Val.bitWidth)).getD 0 / 8) false
    let r := switchConvert SI.cases bytesChecked SI.parentFn SI.parent NewDefault SI.cond 0 M1
    let M3 := r.2.mapInsts SI.parent (spliceIn r.1)
    M3.mapInsts SI.defaultDest (updatePhis SI.parent NewDefault)

/-- The function `SplitSwitchesTransform::splitSwitches`. `verifyModule` is LLVM's
verifier (true when the module is broken); its result is not used. -/
def splitSwitches (verifyModule : Module → Bool) (M : Module) : PassResult :=
  let switches := collectSwitches M
  if switches.length = 0 then ⟨false, M, []⟩
  else
    let M1 := switches.foldl splitSwitch M
    let _broken := verifyModule M1
    ⟨true, M1, [Msg.rewriting switches.length]⟩

/-- The function `SplitSwitchesTransform::runOnModule`. -/
def runOnModule (verifyModule : Module → Bool) (M : Module) : PassResult :=
  let r := splitSwitches verifyModule M
  let _broken := verifyModule r.M
  ⟨true, r.M, Msg.banner :: r.errs⟩

/-! ## Control flow and predecessors -/

/-- The first block of the module identified by `id`. -/
def Module.findBlock (M : Module) (id : Nat) : Option BasicBlock :=
  M.allBlocks.find? (fun b => b.id = id)

/-- The integer an operand evaluates to, given the values of the
pre-existing registers; a comparison yields 1 or 0. -/
def Value.eval (env : Nat → Int) : Value → Int
  | .reg n => env n
  | .icmpEq lhs rhs => if lhs.eval env = rhs.value then 1 else 0

/-- The successor a switch selects for the selector value `sel`: the target
of the first case whose constant equals `sel`, the default destination when
there is none. -/
def switchTarget (sel : Int) (defaultDest : Nat) (cases : List CaseExpr) : Nat :=
  match cases.find? (fun cs => cs.Val.value = sel) with
  | some cs => cs.BB
  | none => defaultDest

/-- The block a terminator transfers control to. -/
def Inst.target (env : Nat → Int) : Inst → Option Nat
  | .br d => some d
  | .condBr t f c => if c.eval env ≠ 0 then some t else some f
  | .switch c d cases => some (switchTarget (c.eval env) d cases)
  | _ => none

/-- One control transfer: from block `id` to the block its terminator
selects. -/
def Module.step (M : Module) (env : Nat → Int) (id : Nat) : Option Nat :=
  match M.findBlock id with
  | some b =>
    match b.getTerminator with
    | some I => I.target env
    | none => none
  | none => none

/-- Follow control flow from `id` while the current block is one created
after `bound` was the next identity (at most `fuel` such blocks are passed).
Returns the first block reached whose identity is below `bound`. -/
def Module.runToOld (M : Module) (env : Nat → Int) (bound : Nat) :
    Nat → Nat → Option Nat
  | 0, _ => none
  | fuel + 1, id =>
    match M.step env id with
    | some next => if next < bound then some next else M.runToOld env bound fuel next
    | none => none

/-- Successor operands of all terminators of a block (with multiplicity). -/
def BasicBlock.successors (BB : BasicBlock) : List Nat :=
  BB.insts.flatMap Inst.successors

/-- The predecessors of `T`, one entry per edge, in module order. -/
def Module.predecessors (M : Module) (T : Nat) : List Nat :=
  M.allBlocks.flatMap (fun b => List.replicate (b.successors.count T) b.id)

/-- The incoming blocks (keys) of the phi nodes of an instruction list. -/
def phiKeys : List Inst → List (List Nat)
  | [] => []
  | .phi incoming :: rest => incoming.map (fun e => e.2) :: phiKeys rest
  | _ :: rest => phiKeys rest

/-! ## Closed forms used in the proofs -/

/-- The phi updates the chain loop performs on the instructions of block
`id`, when the loop visits the cases `rc` and the first created block has
identity `n`. -/
def chainPhis (OrigBlock : Nat) : Nat → List CaseExpr → Nat → List Inst → List Inst
  | _, [], _, insts => insts
  | n, c :: rc, id, insts =>
    chainPhis OrigBlock (n + 1) rc id (if id = c.BB then updatePhis OrigBlock n insts else insts)

/-- The comparison blocks the chain loop creates, in creation order, when it
visits the cases `rc`, the first created block has identity `n` and its false
successor is `next`. -/
def chainBlocks (Val : Value) : Nat → Nat → List CaseExpr → List BasicBlock
  | _, _, [] => []
  | n, next, c :: rc =>
    ⟨n, [Inst.icmp Val c.Val, Inst.condBr c.BB next (Value.icmpEq Val c.Val)]⟩
      :: chainBlocks Val (n + 1) n rc

/-- The block the chain loop returns. -/
def chainHead : Nat → Nat → List CaseExpr → Nat
  | _, next, [] => next
  | n, _, _ :: rc => chainHead (n + 1) n rc

/-- What one rewrite does to the instructions of a pre-existing block `id`,
`n` being the identity of `NewDefault`. -/
def rewriteInsts (SI : SwitchInst) (n : Nat) (id : Nat) (insts : List Inst) : List Inst :=
  let i1 := chainPhis SI.parent (n + 1) SI.cases.reverse id insts
  let i2 := if id = SI.parent then spliceIn (chainHead (n + 1) n SI.cases.reverse) i1 else i1
  if id = SI.defaultDest then updatePhis SI.parent n i2 else i2

/-- What one rewrite does to a pre-existing block. -/
def rewriteBlock (SI : SwitchInst) (n : Nat) (b : BasicBlock) : BasicBlock :=
  { b with insts := rewriteInsts SI n b.id b.insts }


/-! ## Specification-side definitions -/

/-- The worklist entry for block `BB` of function number `fi`: there is one
exactly when the terminator of `BB` is a switch with at least one case. -/
def switchEntry (fi : Nat) (BB : BasicBlock) : Option SwitchInst :=
  match BB.getTerminator with
  | some (.switch c d cases) => if 1 ≤ cases.length then some ⟨fi, BB.id, c, d, cases⟩ else none
  | _ => none

/-- The worklist as the collector contract words it: one entry per block whose
terminator is a switch with at least one case, in function order and, within
a function, in block order. -/
def collectorSpec (M : Module) : List SwitchInst :=
  M.functions.enum.flatMap (fun p => p.2.blocks.filterMap (switchEntry p.1))

/-- The terminator of the block is a switch with at least one case. -/
def BasicBlock.hasCaseSwitch (BB : BasicBlock) : Bool :=
  match BB.getTerminator with
  | some (.switch _ _ cases) => decide (1 ≤ cases.length)
  | _ => false

/-- Every block of `M2` that ends in a switch with cases has the identity of
a block of `M1` that does. -/
def CaseSwitchesFrom (M1 M2 : Module) : Prop :=
  ∀ b2 ∈ M2.allBlocks, b2.hasCaseSwitch = true →
    ∃ b1 ∈ M1.allBlocks, b1.hasCaseSwitch = true ∧ b1.id = b2.id

/-! ## Concrete modules -/

/-- A 32-bit constant. -/
def i32 (v : Int) : ConstantInt := ⟨32, v⟩

/-- The scenario of the specification: block 0 (`O`) switches on register 0
with cases 1 -> block 1 (`BlockA`), 2 -> block 2 (`BlockB`), 3 -> block 3
(`BlockC`) and default block 4 (`BlockD`); each target holds a phi with an
entry keyed by block 0. -/
def scenarioModule : Module :=
  { functions := [⟨[
      ⟨0, [Inst.other 0, Inst.switch (Value.reg 0) 4 [⟨i32 1, 1⟩, ⟨i32 2, 2⟩, ⟨i32 3, 3⟩]]⟩,
      ⟨1, [Inst.phi [(Value.reg 1, 0)], Inst.ret]⟩,
      ⟨2, [Inst.phi [(Value.reg 2, 0)], Inst.ret]⟩,
      ⟨3, [Inst.phi [(Value.reg 3, 0)], Inst.ret]⟩,
      ⟨4, [Inst.phi [(Value.reg 4, 0)], Inst.ret]⟩]⟩]
    nextBlock := 5 }

/-- The comparison block the pass creates for a case of the scenario. -/
def scenarioLink (id : Nat) (c : Int) (target next : Nat) : BasicBlock :=
  ⟨id, [Inst.icmp (Value.reg 0) (i32 c),
        Inst.condBr target next (Value.icmpEq (Value.reg 0) (i32 c))]⟩

/-- The switch of block 0 of the scenario, as the scan collects it. -/
def scenarioSwitch : SwitchInst :=
  ⟨0, 0, Value.reg 0, 4, [⟨i32 1, 1⟩, ⟨i32 2, 2⟩, ⟨i32 3, 3⟩]⟩

/-! ## Well-formedness and the phi invariant -/

/-- Block identities are unique in the module and were all handed out
before: they are below the allocation counter. -/
def Module.WF (M : Module) : Prop :=
  (M.allBlocks.map (fun b => b.id)).Nodup ∧ ∀ b ∈ M.allBlocks, b.id < M.nextBlock

instance (M : Module) : Decidable M.WF := by
  unfold Module.WF
  infer_instance

/-- A worklist entry that is still to be rewritten: its function exists, it
has a case, and its block is in the module and still ends in the switch. -/
def Pending (M : Module) (SI : SwitchInst) : Prop :=
  SI.parentFn < M.functions.length ∧ SI.cases ≠ [] ∧
    ∃ b ∈ M.allBlocks, b.id = SI.parent ∧
      b.insts.getLast? = some (Inst.switch SI.cond SI.defaultDest SI.cases)

/-- Number of control-flow edges from the blocks of `bs` identified by `P`
to block `T`. -/
def predCount (bs : List BasicBlock) (P T : Nat) : Nat :=
  (bs.map (fun b => if b.id = P then b.successors.count T else 0)).sum

/-- Every phi of the module lists each predecessor of its block once per
incoming edge: its key list is a permutation of the predecessor list. -/
def PhiInv (M : Module) : Prop :=
  ∀ b ∈ M.allBlocks, ∀ ks ∈ phiKeys b.insts, List.Perm ks (M.predecessors b.id)

/-- Every phi of the module has a key set equal to the predecessor set of its
block (multiplicities are not compared). -/
def PhiSetInv (M : Module) : Prop :=
  ∀ b ∈ M.allBlocks, ∀ ks ∈ phiKeys b.insts,
    (∀ P ∈ ks, P ∈ M.predecessors b.id) ∧ (∀ P ∈ M.predecessors b.id, P ∈ ks)

instance (M : Module) : Decidable (PhiSetInv M) := by
  unfold PhiSetInv
  infer_instance

/-- The action of `setFirstIncoming` on the key list of a phi. -/
def setFirstKey (OrigBlock New : Nat) : List Nat → List Nat
  | [] => []
  | k :: ks => if k = OrigBlock then New :: ks else k :: setFirstKey OrigBlock New ks

/-- The action of `chainPhis` on the key list of a phi of block `id`. -/
def chainKeys (OrigBlock : Nat) : Nat → List CaseExpr → Nat → List Nat → List Nat
  | _, [], _, ks => ks
  | n, c :: rc, id, ks =>
    chainKeys OrigBlock (n + 1) rc id (if id = c.BB then setFirstKey OrigBlock n ks else ks)

/-- The action of `rewriteInsts` on the key list of a phi of block `id`. -/
def rewriteKeys (SI : SwitchInst) (n : Nat) (id : Nat) (ks : List Nat) : List Nat :=
  let k1 := chainKeys SI.parent (n + 1) SI.cases.reverse id ks
  if id = SI.defaultDest then setFirstKey SI.parent n k1 else k1

/-- Number of chain blocks with identity `P` and true target `T`, among the
blocks created for the cases `rc` from identity `n` on. -/
def cntNew : Nat → List CaseExpr → Nat → Nat → Nat
  | _, [], _, _ => 0
  | n, c :: rc, T, P => (if c.BB = T ∧ n = P then 1 else 0) + cntNew (n + 1) rc T P

/-- A module in which a phi names its predecessor once although two cases of
the switch of block 0 lead to its block: block 1 is the target of both cases,
block 2 the default destination. -/
def sharedTargetModule : Module :=
  { functions := [⟨[
      ⟨0, [Inst.switch (Value.reg 0) 2 [⟨i32 1, 1⟩, ⟨i32 2, 1⟩]]⟩,
      ⟨1, [Inst.phi [(Value.reg 1, 0)], Inst.ret]⟩,
      ⟨2, [Inst.phi [(Value.reg 2, 0)], Inst.ret]⟩]⟩]
    nextBlock := 3 }

/-- The phi invariant in counting form: every phi lists each block as often
as there are edges from that block. -/
def PhiCountInv (M : Module) : Prop :=
  ∀ b ∈ M.allBlocks, ∀ ks ∈ phiKeys b.insts, ∀ P, ks.count P = predCount M.allBlocks P b.id

/-- The positions of a phi key list at which the key is `Z`. -/
def keyMask (Z : Nat) (ks : List Nat) : List Bool :=
  ks.map (fun k => decide (k = Z))

/-- A module with a switch without cases (block 0) next to a switch with one
case (block 1); both have block 2 as default destination. -/
def zeroCaseModule : Module :=
  { functions := [⟨[
      ⟨0, [Inst.switch (Value.reg 0) 2 []]⟩,
      ⟨1, [Inst.switch (Value.reg 1) 2 [⟨i32 7, 3⟩]]⟩,
      ⟨2, [Inst.phi [(Value.reg 2, 0), (Value.reg 3, 1)], Inst.ret]⟩,
      ⟨3, [Inst.phi [(Value.reg 4, 1)], Inst.ret]⟩]⟩]
    nextBlock := 4 }

/-- A module without functions. -/
def emptyModule : Module :=
  { functions := [], nextBlock := 0 }

/-- A module whose first block (block 0) is the default destination of the
switch of block 1. -/
def defaultFirstModule : Module :=
  { functions := [⟨[
      ⟨0, [Inst.phi [(Value.reg 0, 1)], Inst.br 1]⟩,
      ⟨1, [Inst.switch (Value.reg 1) 0 [⟨i32 7, 2⟩]]⟩,
      ⟨2, [Inst.phi [(Value.reg 2, 1)], Inst.ret]⟩]⟩]
    nextBlock := 3 }

/-- The worklist entry of the switch of block 1 of `defaultFirstModule`. -/
def defaultFirstSwitch : SwitchInst :=
  ⟨0, 1, Value.reg 1, 0, [⟨i32 7, 2⟩]⟩

/-! ## Phi entries -/

/-- The incoming lists of the phi nodes of an instruction list. -/
def phiIncoming : List Inst → List (List (Value × Nat))
  | [] => []
  | .phi incoming :: rest => incoming :: phiIncoming rest
  | _ :: rest => phiIncoming rest

/-- Apply `g` to the incoming list of a phi; other instructions are kept. -/
def mapPhi (g : List (Value × Nat) → List (Value × Nat)) : Inst → Inst
  | .phi incoming => .phi (g incoming)
  | I => I

/-- The action of `chainPhis` on the incoming list of a phi of block `id`. -/
def chainIncoming (OrigBlock : Nat) :
    Nat → List CaseExpr → Nat → List (Value × Nat) → List (Value × Nat)
  | _, [], _, inc => inc
  | n, c :: rc, id, inc =>
    chainIncoming OrigBlock (n + 1) rc id
      (if id = c.BB then setFirstIncoming OrigBlock n inc else inc)

/-- The action of `rewriteInsts` on the incoming list of a phi of block `id`. -/
def rewriteIncoming (SI : SwitchInst) (n : Nat) (id : Nat) (inc : List (Value × Nat)) :
    List (Value × Nat) :=
  let i1 := chainIncoming SI.parent (n + 1) SI.cases.reverse id inc
  if id = SI.defaultDest then setFirstIncoming SI.parent n i1 else i1

/-- A phi entry before and after: the incoming value is the same, and the
incoming block differs only if it was a block of `S` and is now a block with
identity at least `n`. -/
def EntryFrame (S : Nat → Prop) (n : Nat) (e e2 : Value × Nat) : Prop :=
  e2.1 = e.1 ∧ (e2.2 ≠ e.2 → S e.2 ∧ n ≤ e2.2)

/-- An instruction before and after: a phi is still a phi with the same
number of entries, related position by position by `EntryFrame`; any other
instruction is the same. -/
def InstFrame (S : Nat → Prop) (n : Nat) (I I2 : Inst) : Prop :=
  (∃ inc inc2, I = Inst.phi inc ∧ I2 = Inst.phi inc2 ∧ List.Forall₂ (EntryFrame S n) inc inc2) ∨
    ((∀ inc, I ≠ Inst.phi inc) ∧ I2 = I)

/-- The value a phi selects when its block is entered from block `P`: the
value of the first entry whose incoming block is `P`. -/
def selectIncoming (inc : List (Value × Nat)) (P : Nat) : Option Value :=
  (inc.find? (fun e => e.2 = P)).map (fun e => e.1)

/-- The block has exactly one terminator, and it is its last instruction. -/
def BasicBlock.wellTerminated (BB : BasicBlock) : Bool :=
  match BB.insts.getLast? with
  | some I => I.isTerminator && BB.insts.dropLast.all (fun J => !J.isTerminator)
  | none => false

/-- A module in which the block of the switch (block 1) is a target of its
own switch and holds a phi that names it as predecessor. -/
def selfLoopModule : Module :=
  { functions := [⟨[
      ⟨0, [Inst.br 1]⟩,
      ⟨1, [Inst.phi [(Value.reg 0, 0), (Value.reg 1, 1)],
           Inst.switch (Value.reg 5) 2 [⟨i32 7, 1⟩]]⟩,
      ⟨2, [Inst.phi [(Value.reg 2, 1)], Inst.ret]⟩]⟩]
    nextBlock := 3 }

/-- The identities of the chain blocks whose case targets `T`, among the
blocks created for the cases `rc` from identity `n` on. -/
def linksTo : Nat → List CaseExpr → Nat → List Nat
  | _, [], _ => []
  | n, c :: rc, T => (if c.BB = T then [n] else []) ++ linksTo (n + 1) rc T

/-- The predecessors that one rewrite gives to block `T`: `NewDefault` when
`T` is the default destination, and the chain blocks whose case targets `T`. -/
def newPredsOf (SI : SwitchInst) (n : Nat) (T : Nat) : List Nat :=
  (if T = SI.defaultDest then [n] else []) ++ linksTo (n + 1) SI.cases.reverse T

/-- A module in which block 1 is the target of both cases of the switch of
block 0; its first phi names block 0 twice, once per edge, and its second phi
names block 0 once only. Block 2 is the default destination. -/
def doubleKeyModule : Module :=
  { functions := [⟨[
      ⟨0, [Inst.switch (Value.reg 0) 2 [⟨i32 1, 1⟩, ⟨i32 2, 1⟩]]⟩,
      ⟨1, [Inst.phi [(Value.reg 1, 0), (Value.reg 1, 0)], Inst.phi [(Value.reg 3, 0)], Inst.ret]⟩,
      ⟨2, [Inst.phi [(Value.reg 2, 0)], Inst.ret]⟩]⟩]
    nextBlock := 3 }

/-- The worklist entry of the switch of block 0 of `doubleKeyModule`. -/
def doubleKeySwitch : SwitchInst :=
  ⟨0, 0, Value.reg 0, 2, [⟨i32 1, 1⟩, ⟨i32 2, 1⟩]⟩

/-- Follow control flow from `id` like `Module.runToOld`, returning with the
first block reached whose identity is below `bound` also the block that
branched into it: the edge over which that block is entered. -/
def Module.runEdgeToOld (M : Module) (env : Nat → Int) (bound : Nat) :
    Nat → Nat → Option (Nat × Nat)
  | 0, _ => none
  | fuel + 1, id =>
    match M.step env id with
    | some next => if next < bound then some (id, next) else M.runEdgeToOld env bound fuel next
    | none => none

/-- A verifier that performs one check of `llvm::verifyModule`: it reports
the module as broken (returns true) when some phi node does not have exactly
the predecessors of its block as incoming blocks. -/
def phiVerifier (M : Module) : Bool :=
  !decide (PhiSetInv M)


/-! ## Basic facts about the primitive operations -/

theorem map_modify_comm {α : Type} (g h h2 : α → α) (hc : ∀ x, g (h x) = h2 (g x)) :
    ∀ (F : Nat) (l : List α), (l.modify h F).map g = (l.map g).modify h2 F := by
  intro F l
  induction l generalizing F with
  | nil => simp
  | cons a l ih =>
    cases F with
    | zero => simp [hc]
    | succ F => simp [ih]

theorem modify_fix {α : Type} (h : α → α) (hc : ∀ x, h x = x) :
    ∀ (F : Nat) (l : List α), l.modify h F = l := by
  intro F l
  induction l generalizing F with
  | nil => simp
  | cons a l ih =>
    cases F with
    | zero => simp [hc]
    | succ F => simp [ih]

theorem updatePhis_noPhi (O X : Nat) (insts : List Inst)
    (h : ∀ I ∈ insts, ∀ inc, I ≠ Inst.phi inc) : updatePhis O X insts = insts := by
  unfold updatePhis
  conv => rhs; rw [← List.map_id insts]
  apply List.map_congr_left
  intro I hI
  cases I <;> simp
  exact absurd rfl (h _ hI _)

theorem chainPhis_noPhi (O : Nat) (rc : List CaseExpr) (n id : Nat) (insts : List Inst)
    (h : ∀ I ∈ insts, ∀ inc, I ≠ Inst.phi inc) : chainPhis O n rc id insts = insts := by
  induction rc generalizing n with
  | nil => rfl
  | cons c rc ih =>
    simp only [chainPhis]
    split
    · rw [updatePhis_noPhi O n insts h]; exact ih _
    · exact ih _

/-- The per-block action of the chain loop. -/
theorem chainPhis_cons_block (O : Nat) (c : CaseExpr) (rc : List CaseExpr) (n : Nat)
    (b : BasicBlock) :
    ({ b with insts := chainPhis O n (c :: rc) b.id b.insts } : BasicBlock)
      = (fun b : BasicBlock => { b with insts := chainPhis O (n + 1) rc b.id b.insts })
          (BasicBlock.mapIf c.BB (updatePhis O n) b) := by
  simp only [chainPhis, BasicBlock.mapIf]
  split <;> rfl

theorem chainBlocks_fix (O : Nat) (Val : Value) (rc rc2 : List CaseExpr) (n next m : Nat) :
    (chainBlocks Val n next rc).map
        (fun b : BasicBlock => { b with insts := chainPhis O m rc2 b.id b.insts })
      = chainBlocks Val n next rc := by
  induction rc generalizing n next with
  | nil => rfl
  | cons c rc ih =>
    simp only [chainBlocks, List.map_cons, ih]
    congr 1
    rw [chainPhis_noPhi]
    intro I hI inc
    simp at hI
    rcases hI with rfl | rfl <;> simp

/-- Closed form of the chain loop. -/
theorem chainLoop_closed (F : Nat) (O : Nat) (Val : Value) (rc : List CaseExpr)
    (next : Nat) (M : Module) :
    rc.foldl (switchConvertStep F O Val) (next, M)
      = (chainHead M.nextBlock next rc,
         { functions := (M.functions.map (Function.mapBlocks (fun b =>
                  { b with insts := chainPhis O M.nextBlock rc b.id b.insts }))).modify
              (fun f => { blocks := f.blocks ++ chainBlocks Val M.nextBlock next rc }) F
           nextBlock := M.nextBlock + rc.length }) := by
  induction rc generalizing next M with
  | nil =>
    simp only [List.foldl_nil, chainHead, chainPhis, chainBlocks, List.append_nil,
      List.length_nil, Nat.add_zero]
    rw [modify_fix _ (fun _ => rfl)]
    have : (Function.mapBlocks fun b : BasicBlock => { b with insts := b.insts }) = id := by
      funext f; simp [Function.mapBlocks]
    rw [this, List.map_id]
  | cons c rc ih =>
    rw [List.foldl_cons, switchConvertStep, ih]
    simp only [chainHead, Module.mapInsts, Module.appendBlock, List.length_cons]
    congr 1
    congr 1
    · rw [map_modify_comm (Function.mapBlocks (BasicBlock.mapIf c.BB (updatePhis O M.nextBlock)))
        _ (fun f => { blocks := f.blocks ++ [⟨M.nextBlock,
            [Inst.icmp Val c.Val, Inst.condBr c.BB next (Value.icmpEq Val c.Val)]⟩] })]
      · rw [map_modify_comm (Function.mapBlocks (fun b : BasicBlock =>
            { b with insts := chainPhis O (M.nextBlock + 1) rc b.id b.insts }))
          _ (fun f => { blocks := f.blocks ++ [⟨M.nextBlock,
            [Inst.icmp Val c.Val, Inst.condBr c.BB next (Value.icmpEq Val c.Val)]⟩] })]
        · rw [List.modify_modify_eq, List.map_map]
          congr 1
          · funext f
            simp [chainBlocks]
          · apply List.map_congr_left
            intro f _
            simp only [Function.mapBlocks, Function.comp, List.map_map]
            congr 1
            apply List.map_congr_left
            intro b _
            exact (chainPhis_cons_block O c rc M.nextBlock b).symm
        · intro f
          simp only [Function.mapBlocks, List.map_append, List.map_cons, List.map_nil]
          rw [chainPhis_noPhi]
          intro I hI inc
          simp at hI
          rcases hI with rfl | rfl <;> simp
      · intro f
        simp only [Function.mapBlocks, List.map_append, List.map_cons, List.map_nil,
          BasicBlock.mapIf]
        congr 2
        split
        · rw [updatePhis_noPhi]
          intro I hI inc
          simp at hI
          rcases hI with rfl | rfl <;> simp
        · rfl
    · omega

theorem map_eq_self {α : Type} (g : α → α) (l : List α) (h : ∀ x ∈ l, g x = x) : l.map g = l := by
  conv => rhs; rw [← List.map_id l]
  exact List.map_congr_left h

theorem mem_chainBlocks (Val : Value) (rc : List CaseExpr) (n next : Nat) (b : BasicBlock)
    (hb : b ∈ chainBlocks Val n next rc) :
    n ≤ b.id ∧ b.id < n + rc.length ∧
      ∃ c nx, c ∈ rc ∧ b.insts = [Inst.icmp Val c.Val, Inst.condBr c.BB nx (Value.icmpEq Val c.Val)] := by
  induction rc generalizing n next with
  | nil => simp [chainBlocks] at hb
  | cons c rc ih =>
    simp only [chainBlocks, List.mem_cons] at hb
    rcases hb with rfl | hb
    · exact ⟨Nat.le_refl _, by simp, c, next, by simp, rfl⟩
    · obtain ⟨h1, h2, c2, nx, hc, h3⟩ := ih _ _ hb
      refine ⟨by omega, by simp only [List.length_cons]; omega, c2, nx, by simp [hc], h3⟩

theorem mapIf_id (BB : Nat) (g : List Inst → List Inst) (b : BasicBlock) :
    (BasicBlock.mapIf BB g b).id = b.id := by
  unfold BasicBlock.mapIf; split <;> rfl

theorem mapIf_of_ne (BB : Nat) (g : List Inst → List Inst) (b : BasicBlock) (h : b.id ≠ BB) :
    BasicBlock.mapIf BB g b = b := by
  unfold BasicBlock.mapIf; rw [if_neg h]

theorem mapIf_updatePhis_noPhi (BB O X : Nat) (b : BasicBlock)
    (h : ∀ I ∈ b.insts, ∀ inc, I ≠ Inst.phi inc) :
    BasicBlock.mapIf BB (updatePhis O X) b = b := by
  unfold BasicBlock.mapIf
  split
  · rw [updatePhis_noPhi O X b.insts h]
  · rfl

theorem insertBefore_map (g : BasicBlock → BasicBlock) (hg : ∀ b, (g b).id = b.id)
    (D : Nat) (N : BasicBlock) (l : List BasicBlock) :
    (insertBefore D N l).map g = insertBefore D (g N) (l.map g) := by
  induction l with
  | nil => rfl
  | cons b l ih =>
    simp only [insertBefore, List.map_cons, hg]
    split
    · simp
    · simp [ih]

/-- The blocks one rewrite adds to the owning function. -/
theorem rewriteBlock_id (SI : SwitchInst) (n : Nat) (b : BasicBlock) :
    (rewriteBlock SI n b).id = b.id := rfl

theorem chainBlocks_noPhi (Val : Value) (rc : List CaseExpr) (n next : Nat) (b : BasicBlock)
    (hb : b ∈ chainBlocks Val n next rc) : ∀ I ∈ b.insts, ∀ inc, I ≠ Inst.phi inc := by
  obtain ⟨_, _, c, nx, _, h⟩ := mem_chainBlocks Val rc n next b hb
  intro I hI inc
  rw [h] at hI
  simp at hI
  rcases hI with rfl | rfl <;> simp

/-- Closed form of one rewrite: every pre-existing block is transformed by
`rewriteBlock`; the owning function receives `NewDefault` in front of the
default destination and the chain blocks at its end. -/
theorem splitSwitch_closed (M : Module) (SI : SwitchInst) (hc : SI.cases ≠ [])
    (hO : SI.parent < M.nextBlock) :
    splitSwitch M SI =
      { functions := (M.functions.map (Function.mapBlocks (rewriteBlock SI M.nextBlock))).modify
          (fun f => { blocks :=
            insertBefore SI.defaultDest ⟨M.nextBlock, [Inst.br SI.defaultDest]⟩ f.blocks
              ++ chainBlocks SI.cond (M.nextBlock + 1) M.nextBlock SI.cases.reverse })
          SI.parentFn
        nextBlock := M.nextBlock + 1 + SI.cases.length } := by
  have hlen : ¬ SI.cases.length = 0 := by
    intro h; exact hc (List.length_eq_zero.mp h)
  unfold splitSwitch
  rw [if_neg hlen]
  obtain ⟨F, O, Val, D, cases⟩ := SI
  obtain ⟨fs, n⟩ := M
  simp only [switchConvert, chainLoop_closed, Module.insertInto, Module.mapInsts,
    List.length_reverse, List.map_map] at hO ⊢
  congr 1
  have e1 := map_modify_comm
    (Function.mapBlocks fun b : BasicBlock =>
      { b with insts := chainPhis O (n + 1) cases.reverse b.id b.insts })
    (fun f => { blocks := insertBefore D ⟨n, [Inst.br D]⟩ f.blocks })
    (fun f => { blocks := insertBefore D ⟨n, [Inst.br D]⟩ f.blocks })
    (by
      intro f
      simp only [Function.mapBlocks]
      rw [insertBefore_map (fun b : BasicBlock =>
        { b with insts := chainPhis O (n + 1) cases.reverse b.id b.insts }) (fun _ => rfl)]
      simp only
      rw [chainPhis_noPhi]
      intro I hI inc
      simp at hI
      subst hI
      simp) F fs
  rw [e1, List.modify_modify_eq]
  have e2 := map_modify_comm
    (Function.mapBlocks (BasicBlock.mapIf D (updatePhis O n)) ∘
      Function.mapBlocks (BasicBlock.mapIf O (spliceIn (chainHead (n + 1) n cases.reverse))))
    ((fun f : Function =>
        ({ blocks := f.blocks ++ chainBlocks Val (n + 1) n cases.reverse } : Function)) ∘
      fun f => { blocks := insertBefore D ⟨n, [Inst.br D]⟩ f.blocks })
    (fun f => { blocks := insertBefore D ⟨n, [Inst.br D]⟩ f.blocks
        ++ chainBlocks Val (n + 1) n cases.reverse })
    (by
      intro f
      simp only [Function.mapBlocks, Function.comp, List.map_map, List.map_append]
      congr 1
      have hch : (chainBlocks Val (n + 1) n cases.reverse).map
          (BasicBlock.mapIf D (updatePhis O n) ∘
            BasicBlock.mapIf O (spliceIn (chainHead (n + 1) n cases.reverse)))
          = chainBlocks Val (n + 1) n cases.reverse := by
        apply map_eq_self
        intro b hb
        have h1 := (mem_chainBlocks _ _ _ _ _ hb).1
        simp only [Function.comp]
        rw [mapIf_of_ne O _ b (by omega)]
        exact mapIf_updatePhis_noPhi _ _ _ _ (chainBlocks_noPhi _ _ _ _ _ hb)
      rw [hch]
      congr 1
      rw [insertBefore_map (BasicBlock.mapIf D (updatePhis O n) ∘
            BasicBlock.mapIf O (spliceIn (chainHead (n + 1) n cases.reverse)))
          (by intro b; simp [mapIf_id])]
      congr 1
      simp only [Function.comp]
      rw [mapIf_of_ne O _ _ (by simp; omega)]
      apply mapIf_updatePhis_noPhi
      intro I hI inc
      simp at hI
      subst hI
      simp)
    F
  rw [e2, List.map_map]
  congr 1
  apply List.map_congr_left
  intro f _
  simp only [Function.mapBlocks, Function.comp, List.map_map]
  congr 1
  apply List.map_congr_left
  intro b _
  simp only [Function.comp, rewriteBlock, rewriteInsts, BasicBlock.mapIf]
  obtain ⟨bid, binsts⟩ := b
  by_cases h1 : bid = O <;> by_cases h2 : bid = D <;> simp [h1, h2] <;> split_ifs <;> simp_all

/-! ## The collection scan -/

theorem collectBlock_eq (fi : Nat) (BB : BasicBlock) (sw : List SwitchInst) :
    collectBlock fi BB sw = sw ++ (switchEntry fi BB).toList := by
  unfold collectBlock switchEntry
  split
  · rename_i c d cases _
    by_cases h : cases.length < 1
    · have h2 : ¬ 1 ≤ cases.length := by omega
      simp [h, h2]
    · have h2 : 1 ≤ cases.length := by omega
      simp [h, h2]
  · simp

theorem collectBlocks_eq (fi : Nat) (bs : List BasicBlock) (sw : List SwitchInst) :
    bs.foldl (fun sw BB => collectBlock fi BB sw) sw = sw ++ bs.filterMap (switchEntry fi) := by
  induction bs generalizing sw with
  | nil => simp
  | cons b bs ih =>
    rw [List.foldl_cons, ih, collectBlock_eq]
    cases h : switchEntry fi b <;> simp [List.filterMap_cons, h]

theorem collectFrom_eq (fi : Nat) (Fs : List Function) (sw : List SwitchInst) :
    collectFrom fi Fs sw
      = sw ++ (Fs.enumFrom fi).flatMap (fun p => p.2.blocks.filterMap (switchEntry p.1)) := by
  induction Fs generalizing fi sw with
  | nil => simp [collectFrom]
  | cons F Fs ih =>
    rw [collectFrom, ih, collectBlocks_eq]
    simp [List.enumFrom_cons, List.flatMap_cons]

theorem collectSwitches_eq_spec (M : Module) : collectSwitches M = collectorSpec M := by
  unfold collectSwitches collectorSpec
  rw [collectFrom_eq]
  simp [List.enum]

theorem switchEntry_some (fi : Nat) (b : BasicBlock) (s : SwitchInst)
    (h : switchEntry fi b = some s) :
    s.parentFn = fi ∧ s.parent = b.id ∧ 1 ≤ s.cases.length ∧
      b.getTerminator = some (Inst.switch s.cond s.defaultDest s.cases) := by
  unfold switchEntry at h
  split at h
  · rename_i c d cases heq
    split at h
    · rename_i hk
      simp only [Option.some.injEq] at h
      subst h
      exact ⟨rfl, rfl, hk, heq⟩
    · simp at h
  · simp at h

theorem switchEntry_isSome (fi : Nat) (b : BasicBlock) :
    (switchEntry fi b).isSome = b.hasCaseSwitch := by
  unfold switchEntry BasicBlock.hasCaseSwitch
  split
  · rename_i c d cases heq
    by_cases hk : 1 ≤ cases.length <;> simp [hk]
  · rfl

/-- Membership in the worklist. -/
theorem mem_collectSwitches (M : Module) (s : SwitchInst) :
    s ∈ collectSwitches M ↔
      ∃ F, M.functions[s.parentFn]? = some F ∧ ∃ b ∈ F.blocks, switchEntry s.parentFn b = some s := by
  rw [collectSwitches_eq_spec]
  unfold collectorSpec
  simp only [List.mem_flatMap, List.mem_filterMap, Prod.exists]
  constructor
  · rintro ⟨i, F, hiF, b, hb, hs⟩
    have hi := (switchEntry_some i b s hs).1
    subst hi
    refine ⟨F, ?_, b, hb, hs⟩
    exact List.mk_mem_enum_iff_getElem?.mp hiF
  · rintro ⟨F, hF, b, hb, hs⟩
    refine ⟨s.parentFn, F, ?_, b, hb, hs⟩
    exact List.mk_mem_enum_iff_getElem?.mpr hF

theorem collectSwitches_eq_nil (M : Module) :
    collectSwitches M = [] ↔ ∀ b ∈ M.allBlocks, b.hasCaseSwitch = false := by
  rw [collectSwitches_eq_spec]
  unfold collectorSpec Module.allBlocks
  constructor
  · intro h b hb
    simp only [List.mem_flatMap] at hb
    obtain ⟨F, hF, hbF⟩ := hb
    obtain ⟨i, hi⟩ := List.mem_iff_getElem?.mp hF
    rw [← switchEntry_isSome i b]
    cases hs : switchEntry i b with
    | none => rfl
    | some s =>
      exfalso
      have : s ∈ M.functions.enum.flatMap (fun p => p.2.blocks.filterMap (switchEntry p.1)) := by
        simp only [List.mem_flatMap, List.mem_filterMap, Prod.exists]
        refine ⟨i, F, ?_, b, hbF, hs⟩
        exact List.mk_mem_enum_iff_getElem?.mpr hi
      rw [h] at this
      simp at this
  · intro h
    rw [List.eq_nil_iff_forall_not_mem]
    intro s hs
    simp only [List.mem_flatMap, List.mem_filterMap, Prod.exists] at hs
    obtain ⟨i, F, hiF, b, hb, hsb⟩ := hs
    have hF : F ∈ M.functions := by
      exact List.mem_iff_getElem?.mpr ⟨i, List.mk_mem_enum_iff_getElem?.mp hiF⟩
    have hb2 : b.hasCaseSwitch = false := h b (by simp only [List.mem_flatMap]; exact ⟨F, hF, hb⟩)
    rw [← switchEntry_isSome i b, hsb] at hb2
    simp at hb2

theorem filterMap_switchEntry_ids (fi : Nat) (bs : List BasicBlock) :
    (bs.filterMap (switchEntry fi)).map (fun s => (s.parentFn, s.parent))
      = (bs.filter (fun b => b.hasCaseSwitch)).map (fun b => (fi, b.id)) := by
  induction bs with
  | nil => rfl
  | cons b bs ih =>
    have hs := switchEntry_isSome fi b
    cases h : switchEntry fi b with
    | none =>
      rw [h] at hs
      have hf : b.hasCaseSwitch = false := by simpa using hs.symm
      simp [List.filterMap_cons, h, hf, ih]
    | some s =>
      rw [h] at hs
      have ht : b.hasCaseSwitch = true := by simpa using hs.symm
      have h1 := switchEntry_some fi b s h
      simp [List.filterMap_cons, h, ht, ih, h1.1, h1.2.1]


/-! ## Terminators under the primitive operations -/

theorem allBlocks_mapInsts (M : Module) (BB : Nat) (g : List Inst → List Inst) :
    (M.mapInsts BB g).allBlocks = M.allBlocks.map (BasicBlock.mapIf BB g) := by
  unfold Module.allBlocks Module.mapInsts
  simp only [List.flatMap_map, List.map_flatMap]
  rfl

theorem mem_flatMap_modify (h : Function → Function) (F : Nat) (l : List Function)
    (b : BasicBlock) (hb : b ∈ (l.modify h F).flatMap (fun f => f.blocks)) :
    b ∈ l.flatMap (fun f => f.blocks) ∨ ∃ f ∈ l, b ∈ (h f).blocks := by
  induction l generalizing F with
  | nil => simp at hb
  | cons a l ih =>
    cases F with
    | zero =>
      simp only [List.modify_zero_cons, List.flatMap_cons, List.mem_append] at hb
      rcases hb with hb | hb
      · exact Or.inr ⟨a, by simp, hb⟩
      · exact Or.inl (by simp only [List.flatMap_cons, List.mem_append]; exact Or.inr hb)
    | succ F =>
      simp only [List.modify_succ_cons, List.flatMap_cons, List.mem_append] at hb
      rcases hb with hb | hb
      · exact Or.inl (by simp only [List.flatMap_cons, List.mem_append]; exact Or.inl hb)
      · rcases ih F hb with h1 | ⟨f, hf, h2⟩
        · exact Or.inl (by simp only [List.flatMap_cons, List.mem_append]; exact Or.inr h1)
        · exact Or.inr ⟨f, by simp [hf], h2⟩

theorem mem_insertBefore (D : Nat) (N b : BasicBlock) (l : List BasicBlock) :
    b ∈ insertBefore D N l ↔ b = N ∨ b ∈ l := by
  induction l with
  | nil => simp [insertBefore]
  | cons a l ih =>
    simp only [insertBefore]
    split
    · simp
    · simp only [List.mem_cons, ih]
      tauto

theorem mem_allBlocks_appendBlock (M : Module) (F : Nat) (insts : List Inst) (b : BasicBlock)
    (hb : b ∈ (M.appendBlock F insts).allBlocks) :
    b ∈ M.allBlocks ∨ b = ⟨M.nextBlock, insts⟩ := by
  rcases mem_flatMap_modify _ _ _ _ hb with h | ⟨f, hf, h⟩
  · exact Or.inl h
  · simp only [List.mem_append, List.mem_singleton] at h
    rcases h with h | h
    · left
      unfold Module.allBlocks
      simp only [List.mem_flatMap]
      exact ⟨f, hf, h⟩
    · exact Or.inr h

theorem mem_allBlocks_insertInto (M : Module) (F D : Nat) (insts : List Inst) (b : BasicBlock)
    (hb : b ∈ (M.insertInto F D insts).allBlocks) :
    b ∈ M.allBlocks ∨ b = ⟨M.nextBlock, insts⟩ := by
  rcases mem_flatMap_modify _ _ _ _ hb with h | ⟨f, hf, h⟩
  · exact Or.inl h
  · simp only [mem_insertBefore] at h
    rcases h with h | h
    · exact Or.inr h
    · left
      unfold Module.allBlocks
      simp only [List.mem_flatMap]
      exact ⟨f, hf, h⟩

theorem getTerminator_updatePhis (id O X : Nat) (insts : List Inst) :
    (⟨id, updatePhis O X insts⟩ : BasicBlock).getTerminator
      = (⟨id, insts⟩ : BasicBlock).getTerminator := by
  unfold BasicBlock.getTerminator updatePhis
  simp only [List.getLast?_map]
  cases insts.getLast? with
  | none => rfl
  | some I => cases I <;> simp [Inst.isTerminator]

theorem spliceIn_nil (h : Nat) : spliceIn h [] = [] := rfl

theorem spliceIn_eq (h : Nat) (insts : List Inst) (hne : insts ≠ []) :
    spliceIn h insts = insts.dropLast ++ [Inst.br h] := by
  unfold spliceIn
  have hlen : 0 < insts.length := List.length_pos.mpr hne
  rw [List.eraseIdx_append_of_lt_length (by omega)]
  congr 1
  exact (List.dropLast_eq_eraseIdx (by omega)).symm

theorem getTerminator_spliceIn (id h : Nat) (insts : List Inst) (hne : insts ≠ []) :
    (⟨id, spliceIn h insts⟩ : BasicBlock).getTerminator = some (Inst.br h) := by
  unfold BasicBlock.getTerminator
  simp [spliceIn_eq h insts hne, Inst.isTerminator]

theorem hasCaseSwitch_spliceIn (id h : Nat) (insts : List Inst) :
    (⟨id, spliceIn h insts⟩ : BasicBlock).hasCaseSwitch = false := by
  unfold BasicBlock.hasCaseSwitch
  by_cases hne : insts = []
  · subst hne
    simp [spliceIn_nil, BasicBlock.getTerminator]
  · rw [getTerminator_spliceIn id h insts hne]

theorem hasCaseSwitch_updatePhis (id O X : Nat) (insts : List Inst) :
    (⟨id, updatePhis O X insts⟩ : BasicBlock).hasCaseSwitch
      = (⟨id, insts⟩ : BasicBlock).hasCaseSwitch := by
  unfold BasicBlock.hasCaseSwitch
  rw [getTerminator_updatePhis]

theorem hasCaseSwitch_mapIf_updatePhis (BB O X : Nat) (b : BasicBlock) :
    (BasicBlock.mapIf BB (updatePhis O X) b).hasCaseSwitch = b.hasCaseSwitch := by
  unfold BasicBlock.mapIf
  split
  · exact hasCaseSwitch_updatePhis _ _ _ _
  · rfl

theorem CaseSwitchesFrom.refl (M : Module) : CaseSwitchesFrom M M :=
  fun b hb h => ⟨b, hb, h, rfl⟩

theorem CaseSwitchesFrom.trans {M1 M2 M3 : Module} (h12 : CaseSwitchesFrom M1 M2)
    (h23 : CaseSwitchesFrom M2 M3) : CaseSwitchesFrom M1 M3 := by
  intro b3 hb3 h3
  obtain ⟨b2, hb2, h2, e2⟩ := h23 b3 hb3 h3
  obtain ⟨b1, hb1, h1, e1⟩ := h12 b2 hb2 h2
  exact ⟨b1, hb1, h1, e1.trans e2⟩

theorem caseSwitchesFrom_appendBlock (M : Module) (F : Nat) (insts : List Inst)
    (hn : (⟨M.nextBlock, insts⟩ : BasicBlock).hasCaseSwitch = false) :
    CaseSwitchesFrom M (M.appendBlock F insts) := by
  intro b hb h
  rcases mem_allBlocks_appendBlock M F insts b hb with h1 | h1
  · exact ⟨b, h1, h, rfl⟩
  · subst h1
    rw [hn] at h
    cases h

theorem caseSwitchesFrom_insertInto (M : Module) (F D : Nat) (insts : List Inst)
    (hn : (⟨M.nextBlock, insts⟩ : BasicBlock).hasCaseSwitch = false) :
    CaseSwitchesFrom M (M.insertInto F D insts) := by
  intro b hb h
  rcases mem_allBlocks_insertInto M F D insts b hb with h1 | h1
  · exact ⟨b, h1, h, rfl⟩
  · subst h1
    rw [hn] at h
    cases h

theorem caseSwitchesFrom_updatePhis (M : Module) (BB O X : Nat) :
    CaseSwitchesFrom M (M.mapInsts BB (updatePhis O X)) := by
  intro b hb h
  rw [allBlocks_mapInsts, List.mem_map] at hb
  obtain ⟨b1, hb1, rfl⟩ := hb
  rw [hasCaseSwitch_mapIf_updatePhis] at h
  exact ⟨b1, hb1, h, (mapIf_id _ _ _).symm⟩

theorem caseSwitchesFrom_chainLoop (F O : Nat) (Val : Value) (rc : List CaseExpr) (next : Nat)
    (M : Module) :
    CaseSwitchesFrom M (rc.foldl (switchConvertStep F O Val) (next, M)).2 := by
  induction rc generalizing next M with
  | nil => exact CaseSwitchesFrom.refl M
  | cons c rc ih =>
    rw [List.foldl_cons]
    refine CaseSwitchesFrom.trans ?_ (ih _ _)
    exact CaseSwitchesFrom.trans
      (caseSwitchesFrom_appendBlock M F _ (by simp [BasicBlock.hasCaseSwitch, BasicBlock.getTerminator, Inst.isTerminator]))
      (caseSwitchesFrom_updatePhis _ _ _ _)

/-- After one rewrite, a block that ends in a switch with cases is not the
rewritten block, and a block with its identity ended in a switch with cases
before. -/
theorem splitSwitch_caseSwitches (M : Module) (SI : SwitchInst) (hc : 1 ≤ SI.cases.length)
    (b : BasicBlock) (hb : b ∈ (splitSwitch M SI).allBlocks) (h : b.hasCaseSwitch = true) :
    b.id ≠ SI.parent ∧ ∃ b1 ∈ M.allBlocks, b1.hasCaseSwitch = true ∧ b1.id = b.id := by
  unfold splitSwitch at hb
  rw [if_neg (by omega)] at hb
  simp only at hb
  obtain ⟨b3, hb3, h3, e3⟩ := caseSwitchesFrom_updatePhis _ _ _ _ b hb h
  rw [allBlocks_mapInsts, List.mem_map] at hb3
  obtain ⟨b2, hb2, rfl⟩ := hb3
  have hne : b2.id ≠ SI.parent := by
    intro he
    unfold BasicBlock.mapIf at h3
    rw [if_pos he, hasCaseSwitch_spliceIn] at h3
    cases h3
  rw [mapIf_of_ne _ _ _ hne] at h3 e3
  have h1 := CaseSwitchesFrom.trans
    (caseSwitchesFrom_insertInto M SI.parentFn SI.defaultDest [Inst.br SI.defaultDest]
      (by simp [BasicBlock.hasCaseSwitch, BasicBlock.getTerminator, Inst.isTerminator]))
    (caseSwitchesFrom_chainLoop SI.parentFn SI.parent SI.cond SI.cases.reverse M.nextBlock _)
  obtain ⟨b1, hb1, hh1, e1⟩ := h1 b2 hb2 h3
  exact ⟨e3 ▸ hne, b1, hb1, hh1, e1.trans e3⟩

theorem foldl_splitSwitch_caseSwitches (sw : List SwitchInst) (M : Module)
    (hc : ∀ s ∈ sw, 1 ≤ s.cases.length)
    (hQ : ∀ b ∈ M.allBlocks, b.hasCaseSwitch = true → b.id ∈ sw.map (fun s => s.parent)) :
    ∀ b ∈ (sw.foldl splitSwitch M).allBlocks, b.hasCaseSwitch = false := by
  induction sw generalizing M with
  | nil =>
    intro b hb
    cases h : b.hasCaseSwitch with
    | false => rfl
    | true => simpa using hQ b hb h
  | cons s sw ih =>
    rw [List.foldl_cons]
    apply ih
    · intro s2 hs2; exact hc s2 (by simp [hs2])
    · intro b hb h
      obtain ⟨hne, b1, hb1, hh1, e1⟩ :=
        splitSwitch_caseSwitches M s (hc s (by simp)) b hb h
      have := hQ b1 hb1 hh1
      rw [e1] at this
      simp only [List.map_cons, List.mem_cons] at this
      rcases this with h2 | h2
      · exact absurd h2 hne
      · exact h2

theorem mem_allBlocks_iff (M : Module) (b : BasicBlock) :
    b ∈ M.allBlocks ↔ ∃ (fi : Nat) (F : Function), M.functions[fi]? = some F ∧ b ∈ F.blocks := by
  unfold Module.allBlocks
  simp only [List.mem_flatMap]
  constructor
  · rintro ⟨F, hF, hb⟩
    obtain ⟨i, hi⟩ := List.mem_iff_getElem?.mp hF
    exact ⟨i, F, hi, hb⟩
  · rintro ⟨i, F, hi, hb⟩
    exact ⟨F, List.mem_iff_getElem?.mpr ⟨i, hi⟩, hb⟩

theorem collectSwitches_cases (M : Module) (s : SwitchInst) (hs : s ∈ collectSwitches M) :
    1 ≤ s.cases.length := by
  obtain ⟨F, _, b, _, h⟩ := (mem_collectSwitches M s).mp hs
  exact (switchEntry_some _ _ _ h).2.2.1

theorem collectSwitches_covers (M : Module) (b : BasicBlock) (hb : b ∈ M.allBlocks)
    (h : b.hasCaseSwitch = true) : b.id ∈ (collectSwitches M).map (fun s => s.parent) := by
  obtain ⟨fi, F, hF, hbF⟩ := (mem_allBlocks_iff M b).mp hb
  rw [← switchEntry_isSome fi b, Option.isSome_iff_exists] at h
  obtain ⟨s, hs⟩ := h
  have h1 := switchEntry_some fi b s hs
  rw [List.mem_map]
  refine ⟨s, (mem_collectSwitches M s).mpr ⟨F, ?_, b, hbF, ?_⟩, h1.2.1⟩
  · rw [h1.1]; exact hF
  · rw [h1.1]; exact hs

/-- After the rewriting loop no block ends in a switch with cases. -/
theorem splitSwitches_no_caseSwitch (v : Module → Bool) (M : Module) :
    ∀ b ∈ (splitSwitches v M).M.allBlocks, b.hasCaseSwitch = false := by
  unfold splitSwitches
  simp only
  split
  · rename_i h0
    exact (collectSwitches_eq_nil M).mp (List.length_eq_zero.mp h0)
  · exact foldl_splitSwitch_caseSwitches _ M (collectSwitches_cases M) (collectSwitches_covers M)

theorem splitSwitches_of_nil (v : Module → Bool) (M : Module) (h : collectSwitches M = []) :
    splitSwitches v M = ⟨false, M, []⟩ := by
  unfold splitSwitches
  simp [h]


/-! ## Shape of the created blocks -/

theorem chainBlocks_length (Val : Value) (rc : List CaseExpr) (n next : Nat) :
    (chainBlocks Val n next rc).length = rc.length := by
  induction rc generalizing n next with
  | nil => rfl
  | cons c rc ih => simp [chainBlocks, ih]

theorem chainBlocks_ids (Val : Value) (rc : List CaseExpr) (n next : Nat) :
    (chainBlocks Val n next rc).map (fun b => b.id) = List.range' n rc.length := by
  induction rc generalizing n next with
  | nil => rfl
  | cons c rc ih => simp [chainBlocks, ih, List.range'_succ]

theorem chainBlocks_getElem? (Val : Value) (rc : List CaseExpr) (n next j : Nat) :
    (chainBlocks Val n next rc)[j]? = rc[j]?.map (fun c =>
      ⟨n + j, [Inst.icmp Val c.Val,
        Inst.condBr c.BB (if j = 0 then next else n + j - 1) (Value.icmpEq Val c.Val)]⟩) := by
  induction rc generalizing n next j with
  | nil => simp [chainBlocks]
  | cons c rc ih =>
    cases j with
    | zero => simp [chainBlocks]
    | succ j =>
      simp only [chainBlocks, List.getElem?_cons_succ, ih]
      cases rc[j]? with
      | none => rfl
      | some c2 =>
        simp only [Option.map_some', Option.some.injEq, BasicBlock.mk.injEq, List.cons.injEq,
          Inst.condBr.injEq, and_true, true_and]
        refine ⟨by omega, ?_⟩
        split
        · subst_vars; simp
        · simp only [Nat.add_one_ne_zero, if_false]; omega

theorem chainHead_eq (rc : List CaseExpr) (n next : Nat) (h : rc ≠ []) :
    chainHead n next rc = n + (rc.length - 1) := by
  induction rc generalizing n next with
  | nil => exact absurd rfl h
  | cons c rc ih =>
    cases rc with
    | nil => simp [chainHead]
    | cons c2 rc2 =>
      rw [chainHead, ih _ _ (by simp)]
      simp only [List.length_cons]
      omega

theorem insertBefore_perm (D : Nat) (N : BasicBlock) (l : List BasicBlock) :
    List.Perm (insertBefore D N l) (N :: l) := by
  induction l with
  | nil => exact List.Perm.refl _
  | cons b l ih =>
    simp only [insertBefore]
    split
    · exact List.Perm.refl _
    · exact (List.Perm.cons b ih).trans (List.Perm.swap N b l)

theorem insertBefore_length (D : Nat) (N : BasicBlock) (l : List BasicBlock) :
    (insertBefore D N l).length = l.length + 1 := by
  rw [(insertBefore_perm D N l).length_eq]
  rfl

theorem rewriteBlock_ids (SI : SwitchInst) (n : Nat) (l : List BasicBlock) :
    (l.map (rewriteBlock SI n)).map (fun b => b.id) = l.map (fun b => b.id) := by
  rw [List.map_map]
  rfl

/-- The functions of a module after one rewrite, by function number. -/
theorem splitSwitch_getElem? (M : Module) (SI : SwitchInst) (hc : SI.cases ≠ [])
    (hO : SI.parent < M.nextBlock) (i : Nat) :
    (splitSwitch M SI).functions[i]? =
      (M.functions[i]?).map (fun f =>
        if i = SI.parentFn then
          { blocks := insertBefore SI.defaultDest ⟨M.nextBlock, [Inst.br SI.defaultDest]⟩
              (f.blocks.map (rewriteBlock SI M.nextBlock))
              ++ chainBlocks SI.cond (M.nextBlock + 1) M.nextBlock SI.cases.reverse }
        else Function.mapBlocks (rewriteBlock SI M.nextBlock) f) := by
  rw [splitSwitch_closed M SI hc hO]
  simp only [List.getElem?_modify, List.getElem?_map]
  by_cases h : i = SI.parentFn
  · subst h
    cases M.functions[SI.parentFn]? <;> simp [Function.mapBlocks]
  · have h2 : ¬ SI.parentFn = i := fun e => h e.symm
    cases M.functions[i]? <;> simp [h, h2]

theorem splitSwitch_nextBlock (M : Module) (SI : SwitchInst) (hc : SI.cases ≠ []) :
    (splitSwitch M SI).nextBlock = M.nextBlock + 1 + SI.cases.length := by
  have hlen : ¬ SI.cases.length = 0 := by
    intro h; exact hc (List.length_eq_zero.mp h)
  unfold splitSwitch
  rw [if_neg hlen]
  simp only [switchConvert, chainLoop_closed, Module.insertInto, Module.mapInsts,
    List.length_reverse]

theorem insertBefore_ids_filter (D n : Nat) (insts : List Inst) (l : List BasicBlock)
    (h : ∀ b ∈ l, b.id < n) :
    ((insertBefore D ⟨n, insts⟩ l).map (fun b => b.id)).filter (fun x => x < n)
      = l.map (fun b => b.id) := by
  induction l with
  | nil => simp [insertBefore]
  | cons b l ih =>
    have hb : b.id < n := h b (by simp)
    have hl : ∀ b ∈ l, b.id < n := fun b2 h2 => h b2 (by simp [h2])
    have hfl : (l.map (fun b => b.id)).filter (fun x => x < n) = l.map (fun b => b.id) := by
      rw [List.filter_eq_self]
      intro x hx
      rw [List.mem_map] at hx
      obtain ⟨b2, hb2, rfl⟩ := hx
      simpa using hl b2 hb2
    simp only [insertBefore]
    split
    · simp [List.filter_cons, hb, hfl]
    · simp [List.filter_cons, hb, ih hl]


/-! ## The blocks of the module after one rewrite -/

theorem perm_flatMap_modify (h : Function → Function) (news : List BasicBlock)
    (hh : ∀ f, List.Perm (h f).blocks (news ++ f.blocks)) (F : Nat) (l : List Function)
    (hF : F < l.length) :
    List.Perm ((l.modify h F).flatMap (fun f => f.blocks))
      (news ++ l.flatMap (fun f => f.blocks)) := by
  induction l generalizing F with
  | nil => simp at hF
  | cons a l ih =>
    cases F with
    | zero =>
      simp only [List.modify_zero_cons, List.flatMap_cons]
      rw [← List.append_assoc]
      exact List.Perm.append_right _ (hh a)
    | succ F =>
      simp only [List.modify_succ_cons, List.flatMap_cons]
      simp only [List.length_cons, Nat.add_lt_add_iff_right] at hF
      have h1 := List.Perm.append_left a.blocks (ih F hF)
      refine h1.trans ?_
      rw [← List.append_assoc, ← List.append_assoc]
      exact List.Perm.append_right _ List.perm_append_comm

theorem allBlocks_map_mapBlocks (g : BasicBlock → BasicBlock) (l : List Function) :
    (l.map (Function.mapBlocks g)).flatMap (fun f => f.blocks)
      = (l.flatMap (fun f => f.blocks)).map g := by
  simp only [List.flatMap_map, List.map_flatMap]
  rfl

/-- Up to order, the blocks after one rewrite are `NewDefault`, the chain
blocks and the rewritten pre-existing blocks. -/
theorem allBlocks_splitSwitch_perm (M : Module) (SI : SwitchInst) (hc : SI.cases ≠ [])
    (hO : SI.parent < M.nextBlock) (hF : SI.parentFn < M.functions.length) :
    List.Perm (splitSwitch M SI).allBlocks
      ((⟨M.nextBlock, [Inst.br SI.defaultDest]⟩
          :: chainBlocks SI.cond (M.nextBlock + 1) M.nextBlock SI.cases.reverse)
        ++ M.allBlocks.map (rewriteBlock SI M.nextBlock)) := by
  rw [splitSwitch_closed M SI hc hO]
  unfold Module.allBlocks
  simp only
  rw [← allBlocks_map_mapBlocks]
  apply perm_flatMap_modify
  · intro f
    simp only
    refine (List.Perm.append_right _ (insertBefore_perm _ _ _)).trans ?_
    simp only [List.cons_append]
    exact List.Perm.cons _ List.perm_append_comm
  · simpa using hF

theorem splitSwitch_functions_length (M : Module) (SI : SwitchInst) :
    (splitSwitch M SI).functions.length = M.functions.length := by
  unfold splitSwitch
  split
  · rfl
  · simp only [switchConvert, chainLoop_closed, Module.insertInto, Module.mapInsts,
      List.length_map, List.length_modify]

theorem splitSwitch_ids_perm (M : Module) (SI : SwitchInst) (hc : SI.cases ≠ [])
    (hO : SI.parent < M.nextBlock) (hF : SI.parentFn < M.functions.length) :
    List.Perm ((splitSwitch M SI).allBlocks.map (fun b => b.id))
      (List.range' M.nextBlock (SI.cases.length + 1) ++ M.allBlocks.map (fun b => b.id)) := by
  refine ((allBlocks_splitSwitch_perm M SI hc hO hF).map _).trans ?_
  simp only [List.map_append, List.map_cons, chainBlocks_ids, rewriteBlock_ids,
    List.length_reverse]
  rw [List.range'_succ]

theorem splitSwitch_WF (M : Module) (SI : SwitchInst) (hc : SI.cases ≠ [])
    (hO : SI.parent < M.nextBlock) (hF : SI.parentFn < M.functions.length) (hM : M.WF) :
    (splitSwitch M SI).WF := by
  have hp := splitSwitch_ids_perm M SI hc hO hF
  constructor
  · rw [hp.nodup_iff, List.nodup_append]
    refine ⟨List.nodup_range' _ _ 1 (by simp), hM.1, ?_⟩
    intro x hx1 hx2
    rw [List.mem_map] at hx2
    obtain ⟨b, hb, rfl⟩ := hx2
    have := hM.2 b hb
    simp only [List.mem_range'_1] at hx1
    omega
  · intro b hb
    have : b.id ∈ (splitSwitch M SI).allBlocks.map (fun b => b.id) := List.mem_map_of_mem _ hb
    rw [hp.mem_iff, List.mem_append, List.mem_map] at this
    rw [splitSwitch_nextBlock M SI hc]
    rcases this with h | ⟨b2, hb2, e⟩
    · simp only [List.mem_range'_1] at h
      omega
    · have := hM.2 b2 hb2
      omega

theorem find?_id_of_mem (bs : List BasicBlock) (hnd : (bs.map (fun b => b.id)).Nodup)
    (b : BasicBlock) (hb : b ∈ bs) : bs.find? (fun x => x.id = b.id) = some b := by
  induction bs with
  | nil => simp at hb
  | cons a bs ih =>
    simp only [List.map_cons, List.nodup_cons] at hnd
    simp only [List.mem_cons] at hb
    rcases hb with rfl | hb
    · simp
    · have hne : a.id ≠ b.id := by
        intro e
        exact hnd.1 (e ▸ List.mem_map_of_mem _ hb)
      simp [List.find?_cons, hne, ih hnd.2 hb]

theorem findBlock_of_mem (M : Module) (hM : M.WF) (b : BasicBlock) (hb : b ∈ M.allBlocks) :
    M.findBlock b.id = some b :=
  find?_id_of_mem _ hM.1 b hb

theorem mem_of_findBlock (M : Module) (x : Nat) (b : BasicBlock) (h : M.findBlock x = some b) :
    b ∈ M.allBlocks ∧ b.id = x := by
  unfold Module.findBlock at h
  exact ⟨List.mem_of_find?_eq_some h, by simpa using List.find?_some h⟩

/-- The pre-existing blocks are still there, rewritten. -/
theorem mem_splitSwitch_old (M : Module) (SI : SwitchInst) (hc : SI.cases ≠ [])
    (hO : SI.parent < M.nextBlock) (hF : SI.parentFn < M.functions.length)
    (b : BasicBlock) (hb : b ∈ M.allBlocks) :
    rewriteBlock SI M.nextBlock b ∈ (splitSwitch M SI).allBlocks := by
  rw [(allBlocks_splitSwitch_perm M SI hc hO hF).mem_iff, List.mem_append]
  exact Or.inr (List.mem_map_of_mem _ hb)

theorem mem_splitSwitch_newDefault (M : Module) (SI : SwitchInst) (hc : SI.cases ≠ [])
    (hO : SI.parent < M.nextBlock) (hF : SI.parentFn < M.functions.length) :
    (⟨M.nextBlock, [Inst.br SI.defaultDest]⟩ : BasicBlock) ∈ (splitSwitch M SI).allBlocks := by
  rw [(allBlocks_splitSwitch_perm M SI hc hO hF).mem_iff]
  simp

theorem mem_splitSwitch_chain (M : Module) (SI : SwitchInst) (hc : SI.cases ≠ [])
    (hO : SI.parent < M.nextBlock) (hF : SI.parentFn < M.functions.length)
    (b : BasicBlock)
    (hb : b ∈ chainBlocks SI.cond (M.nextBlock + 1) M.nextBlock SI.cases.reverse) :
    b ∈ (splitSwitch M SI).allBlocks := by
  rw [(allBlocks_splitSwitch_perm M SI hc hO hF).mem_iff]
  simp [hb]

theorem getLast?_updatePhis_switch (O X : Nat) (insts : List Inst) (c : Value) (d : Nat)
    (cs : List CaseExpr) (h : insts.getLast? = some (Inst.switch c d cs)) :
    (updatePhis O X insts).getLast? = some (Inst.switch c d cs) := by
  unfold updatePhis
  rw [List.getLast?_map, h]
  rfl

theorem getLast?_chainPhis_switch (O : Nat) (rc : List CaseExpr) (n id : Nat)
    (insts : List Inst) (c : Value) (d : Nat)
    (cs : List CaseExpr) (h : insts.getLast? = some (Inst.switch c d cs)) :
    (chainPhis O n rc id insts).getLast? = some (Inst.switch c d cs) := by
  induction rc generalizing n insts with
  | nil => exact h
  | cons c2 rc ih =>
    simp only [chainPhis]
    apply ih
    split
    · exact getLast?_updatePhis_switch _ _ _ _ _ _ h
    · exact h

theorem getLast?_rewriteInsts_of_ne (SI : SwitchInst) (n id : Nat) (insts : List Inst)
    (hne : id ≠ SI.parent) (c : Value) (d : Nat)
    (cs : List CaseExpr) (h : insts.getLast? = some (Inst.switch c d cs)) :
    (rewriteInsts SI n id insts).getLast? = some (Inst.switch c d cs) := by
  unfold rewriteInsts
  simp only [if_neg hne]
  have h1 := getLast?_chainPhis_switch SI.parent SI.cases.reverse (n + 1) id insts c d cs h
  split
  · exact getLast?_updatePhis_switch _ _ _ _ _ _ h1
  · exact h1

/-- Another worklist entry stays pending across a rewrite. -/
theorem splitSwitch_pending (M : Module) (SI S2 : SwitchInst) (hc : SI.cases ≠ [])
    (hO : SI.parent < M.nextBlock) (hF : SI.parentFn < M.functions.length)
    (hne : S2.parent ≠ SI.parent) (h2 : Pending M S2) : Pending (splitSwitch M SI) S2 := by
  obtain ⟨hF2, hc2, b, hb, hid, hlast⟩ := h2
  refine ⟨by rw [splitSwitch_functions_length]; exact hF2, hc2,
    rewriteBlock SI M.nextBlock b, mem_splitSwitch_old M SI hc hO hF b hb, hid, ?_⟩
  exact getLast?_rewriteInsts_of_ne SI _ _ _ (by rw [hid]; exact hne) _ _ _ hlast

theorem pending_lt (M : Module) (SI : SwitchInst) (hM : M.WF) (h : Pending M SI) :
    SI.parent < M.nextBlock := by
  obtain ⟨_, _, b, hb, hid, _⟩ := h
  exact hid ▸ hM.2 b hb


/-! ## Control flow after one rewrite -/

theorem target_switch (env : Nat → Int) (c : Value) (d : Nat) (cases : List CaseExpr) :
    (Inst.switch c d cases).target env = some (switchTarget (c.eval env) d cases) := rfl

theorem target_condBr_icmp (env : Nat → Int) (Val : Value) (c : ConstantInt) (t f : Nat) :
    (Inst.condBr t f (Value.icmpEq Val c)).target env
      = some (if c.value = Val.eval env then t else f) := by
  unfold Inst.target
  simp only [Value.eval]
  by_cases h : Val.eval env = c.value
  · simp [h]
  · have h2 : ¬ c.value = Val.eval env := fun e => h e.symm
    simp [h, h2]

theorem step_of_mem (M : Module) (hM : M.WF) (env : Nat → Int) (b : BasicBlock)
    (hb : b ∈ M.allBlocks) (I : Inst) (hI : b.getTerminator = some I) :
    M.step env b.id = I.target env := by
  unfold Module.step
  rw [findBlock_of_mem M hM b hb]
  simp only [hI]

theorem getTerminator_of_getLast? (b : BasicBlock) (I : Inst) (h : b.insts.getLast? = some I)
    (hI : I.isTerminator = true) : b.getTerminator = some I := by
  unfold BasicBlock.getTerminator
  rw [h]
  simp [hI]

theorem getTerminator_chainPhis (O : Nat) (rc : List CaseExpr) (n id : Nat) (insts : List Inst) :
    (⟨id, chainPhis O n rc id insts⟩ : BasicBlock).getTerminator
      = (⟨id, insts⟩ : BasicBlock).getTerminator := by
  induction rc generalizing n insts with
  | nil => rfl
  | cons c rc ih =>
    simp only [chainPhis]
    rw [ih]
    split
    · exact getTerminator_updatePhis _ _ _ _
    · rfl

theorem getTerminator_rewriteBlock_of_ne (SI : SwitchInst) (n : Nat) (b : BasicBlock)
    (hne : b.id ≠ SI.parent) :
    (rewriteBlock SI n b).getTerminator = b.getTerminator := by
  unfold rewriteBlock rewriteInsts
  simp only [if_neg hne]
  split
  · rw [getTerminator_updatePhis]
    exact getTerminator_chainPhis _ _ _ _ _
  · exact getTerminator_chainPhis _ _ _ _ _

theorem chainPhis_ne_nil (O : Nat) (rc : List CaseExpr) (n id : Nat) (insts : List Inst)
    (h : insts ≠ []) : chainPhis O n rc id insts ≠ [] := by
  induction rc generalizing n insts with
  | nil => exact h
  | cons c rc ih =>
    simp only [chainPhis]
    apply ih
    split
    · unfold updatePhis
      simpa using h
    · exact h

theorem getTerminator_rewriteBlock_parent (SI : SwitchInst) (n : Nat) (b : BasicBlock)
    (he : b.id = SI.parent) (hne : b.insts ≠ []) :
    (rewriteBlock SI n b).getTerminator
      = some (Inst.br (chainHead (n + 1) n SI.cases.reverse)) := by
  unfold rewriteBlock rewriteInsts
  simp only [if_pos he]
  have h1 := getTerminator_spliceIn b.id (chainHead (n + 1) n SI.cases.reverse) _
    (chainPhis_ne_nil SI.parent SI.cases.reverse (n + 1) b.id b.insts hne)
  split
  · rw [getTerminator_updatePhis]; exact h1
  · exact h1

/-- A control transfer from a block other than the rewritten one is not
changed by the rewrite. -/
theorem step_splitSwitch_frame (M : Module) (SI : SwitchInst) (hM : M.WF) (hP : Pending M SI)
    (env : Nat → Int) (x y : Nat) (hne : x ≠ SI.parent) (h : M.step env x = some y) :
    (splitSwitch M SI).step env x = some y := by
  have hO := pending_lt M SI hM hP
  have hM1 := splitSwitch_WF M SI hP.2.1 hO hP.1 hM
  unfold Module.step at h
  cases hf : M.findBlock x with
  | none => rw [hf] at h; cases h
  | some b =>
    rw [hf] at h
    obtain ⟨hb, hid⟩ := mem_of_findBlock M x b hf
    cases ht : b.getTerminator with
    | none => simp only [ht] at h; cases h
    | some I =>
      simp only [ht] at h
      have hmem := mem_splitSwitch_old M SI hP.2.1 hO hP.1 b hb
      have := step_of_mem _ hM1 env _ hmem I
        (by rw [getTerminator_rewriteBlock_of_ne SI _ b (hid ▸ hne)]; exact ht)
      rw [rewriteBlock_id, hid] at this
      rw [this, h]

theorem step_splitSwitch_parent (M : Module) (SI : SwitchInst) (hM : M.WF) (hP : Pending M SI)
    (env : Nat → Int) :
    (splitSwitch M SI).step env SI.parent = some (M.nextBlock + SI.cases.length) := by
  have hO := pending_lt M SI hM hP
  have hM1 := splitSwitch_WF M SI hP.2.1 hO hP.1 hM
  obtain ⟨hF, hc, b, hb, hid, hlast⟩ := hP
  have hmem := mem_splitSwitch_old M SI hc hO hF b hb
  have hne : b.insts ≠ [] := by
    intro e; rw [e] at hlast; simp at hlast
  have := step_of_mem _ hM1 env _ hmem _ (getTerminator_rewriteBlock_parent SI _ b hid hne)
  rw [rewriteBlock_id, hid] at this
  rw [this, chainHead_eq _ _ _ (by simpa using hc), List.length_reverse]
  simp only [Inst.target, Option.some.injEq]
  have : 1 ≤ SI.cases.length := by
    cases hcs : SI.cases with
    | nil => exact absurd hcs hc
    | cons _ _ => simp
  omega

theorem step_splitSwitch_newDefault (M : Module) (SI : SwitchInst) (hM : M.WF)
    (hP : Pending M SI) (env : Nat → Int) :
    (splitSwitch M SI).step env M.nextBlock = some SI.defaultDest := by
  have hO := pending_lt M SI hM hP
  have hM1 := splitSwitch_WF M SI hP.2.1 hO hP.1 hM
  have hmem := mem_splitSwitch_newDefault M SI hP.2.1 hO hP.1
  exact step_of_mem _ hM1 env _ hmem (Inst.br SI.defaultDest) rfl

theorem step_splitSwitch_chain (M : Module) (SI : SwitchInst) (hM : M.WF)
    (hP : Pending M SI) (env : Nat → Int) (j : Nat) (c : CaseExpr)
    (hj : SI.cases.reverse[j]? = some c) :
    (splitSwitch M SI).step env (M.nextBlock + 1 + j)
      = some (if c.Val.value = SI.cond.eval env then c.BB
          else if j = 0 then M.nextBlock else M.nextBlock + j) := by
  have hO := pending_lt M SI hM hP
  have hM1 := splitSwitch_WF M SI hP.2.1 hO hP.1 hM
  have hg := chainBlocks_getElem? SI.cond SI.cases.reverse (M.nextBlock + 1) M.nextBlock j
  rw [hj] at hg
  simp only [Option.map_some'] at hg
  have hmem := mem_splitSwitch_chain M SI hP.2.1 hO hP.1 _ (List.mem_iff_getElem?.mpr ⟨j, hg⟩)
  have := step_of_mem _ hM1 env _ hmem
    (Inst.condBr c.BB (if j = 0 then M.nextBlock else M.nextBlock + 1 + j - 1)
      (Value.icmpEq SI.cond c.Val)) rfl
  simp only at this
  rw [this, target_condBr_icmp]
  congr 1
  split
  · rfl
  · split
    · rfl
    · omega

/-- Walking down the chain from the block created for `rc[j]`. -/
theorem runToOld_chain (M1 : Module) (env : Nat → Int) (sel : Int) (bound n D : Nat)
    (rc : List CaseExpr) (hbn : bound ≤ n) (hD : D < bound) (hT : ∀ c ∈ rc, c.BB < bound)
    (h0 : M1.step env n = some D)
    (hstep : ∀ j c, rc[j]? = some c → M1.step env (n + 1 + j)
      = some (if c.Val.value = sel then c.BB else if j = 0 then n else n + j))
    (j : Nat) (hj : j < rc.length) :
    M1.runToOld env bound (j + 2) (n + 1 + j)
      = some (switchTarget sel D (rc.take (j + 1)).reverse) := by
  induction j with
  | zero =>
    have hc : rc[0]? = some rc[0] := List.getElem?_eq_getElem hj
    have hs := hstep 0 rc[0] hc
    simp only [if_true] at hs
    have ht : (rc.take (0 + 1)).reverse = [rc[0]] := by
      rw [List.take_succ, hc]; simp
    rw [ht]
    simp only [Module.runToOld, Nat.add_zero] at hs ⊢
    rw [hs]
    by_cases hm : rc[0].Val.value = sel
    · have := hT rc[0] (List.getElem_mem hj)
      simp [hm, this, switchTarget]
    · have hnb : ¬ n < bound := by omega
      simp [hm, hnb, h0, hD, switchTarget]
  | succ j ih =>
    have hj2 : j < rc.length := by omega
    have hc : rc[j + 1]? = some rc[j + 1] := List.getElem?_eq_getElem hj
    have hs := hstep (j + 1) rc[j + 1] hc
    simp only [Nat.add_one_ne_zero, if_false] at hs
    have ht : (rc.take (j + 1 + 1)).reverse = rc[j + 1] :: (rc.take (j + 1)).reverse := by
      rw [List.take_succ, hc]; simp
    rw [ht]
    have e : j + 1 + 2 = (j + 2) + 1 := by omega
    rw [e, Module.runToOld, hs]
    by_cases hm : rc[j + 1].Val.value = sel
    · have := hT rc[j + 1] (List.getElem_mem hj)
      simp [hm, this, switchTarget]
    · have hnb : ¬ n + (j + 1) < bound := by omega
      have e2 : n + (j + 1) = n + 1 + j := by omega
      simp only [hm, if_false, hnb]
      rw [e2, ih hj2]
      simp [switchTarget, List.find?_cons, hm]

/-- From the rewritten block, control reaches the successor the switch would
have selected, and no pre-existing block before it. -/
theorem splitSwitch_routes (M : Module) (SI : SwitchInst) (hM : M.WF) (hP : Pending M SI)
    (env : Nat → Int) (bound : Nat) (hb : bound ≤ M.nextBlock) (hD : SI.defaultDest < bound)
    (hT : ∀ c ∈ SI.cases, c.BB < bound) :
    (splitSwitch M SI).runToOld env bound (SI.cases.length + 2) SI.parent
      = some (switchTarget (SI.cond.eval env) SI.defaultDest SI.cases) := by
  have hk : 1 ≤ SI.cases.length := by
    cases hcs : SI.cases with
    | nil => exact absurd hcs hP.2.1
    | cons _ _ => simp
  have e : SI.cases.length + 2 = (SI.cases.length + 1) + 1 := by omega
  rw [e, Module.runToOld, step_splitSwitch_parent M SI hM hP env]
  have hnb : ¬ M.nextBlock + SI.cases.length < bound := by omega
  simp only [hnb, if_false]
  have hw := runToOld_chain (splitSwitch M SI) env (SI.cond.eval env) bound M.nextBlock
    SI.defaultDest SI.cases.reverse hb hD (fun c hc => hT c (List.mem_reverse.mp hc))
    (step_splitSwitch_newDefault M SI hM hP env)
    (fun j c hj => step_splitSwitch_chain M SI hM hP env j c hj)
    (SI.cases.length - 1) (by simp; omega)
  have e1 : SI.cases.length - 1 + 2 = SI.cases.length + 1 := by omega
  have e2 : M.nextBlock + 1 + (SI.cases.length - 1) = M.nextBlock + SI.cases.length := by omega
  have e3 : SI.cases.length - 1 + 1 = SI.cases.reverse.length := by simp; omega
  rw [e1, e2, e3, List.take_length, List.reverse_reverse] at hw
  exact hw


/-! ## The rewriting loop over the worklist -/

theorem runToOld_frame (M M1 : Module) (env : Nat → Int) (bound O : Nat) (hO : O < bound)
    (hstep : ∀ x y, x ≠ O → M.step env x = some y → M1.step env x = some y)
    (fuel : Nat) (x T : Nat) (hx : x ≠ O) (h : M.runToOld env bound fuel x = some T) :
    M1.runToOld env bound fuel x = some T := by
  induction fuel generalizing x with
  | zero => simp [Module.runToOld] at h
  | succ fuel ih =>
    simp only [Module.runToOld] at h ⊢
    cases hs : M.step env x with
    | none => rw [hs] at h; cases h
    | some next =>
      rw [hs] at h
      rw [hstep x next hx hs]
      simp only at h ⊢
      by_cases hb : next < bound
      · simpa [hb] using h
      · simp only [hb, if_false] at h ⊢
        exact ih next (by omega) h

theorem splitSwitch_nextBlock_le (M : Module) (SI : SwitchInst) :
    M.nextBlock ≤ (splitSwitch M SI).nextBlock := by
  by_cases hc : SI.cases = []
  · unfold splitSwitch
    simp [hc]
  · rw [splitSwitch_nextBlock M SI hc]
    omega

/-- The state of the rewriting loop: the module is well formed and the
remaining worklist entries are pending and name distinct blocks. -/
theorem foldl_state_step (M : Module) (s : SwitchInst) (sw : List SwitchInst) (hM : M.WF)
    (hP : ∀ t ∈ s :: sw, Pending M t)
    (hnd : ((s :: sw).map (fun t => t.parent)).Nodup) :
    (splitSwitch M s).WF ∧ (∀ t ∈ sw, Pending (splitSwitch M s) t) ∧
      (sw.map (fun t => t.parent)).Nodup := by
  have hPs := hP s (by simp)
  have hO := pending_lt M s hM hPs
  simp only [List.map_cons, List.nodup_cons] at hnd
  refine ⟨splitSwitch_WF M s hPs.2.1 hO hPs.1 hM, ?_, hnd.2⟩
  intro t ht
  apply splitSwitch_pending M s t hPs.2.1 hO hPs.1 _ (hP t (by simp [ht]))
  intro e
  exact hnd.1 (e ▸ List.mem_map_of_mem _ ht)

theorem foldl_routes_frame (sw : List SwitchInst) (M : Module) (hM : M.WF)
    (hP : ∀ t ∈ sw, Pending M t) (hnd : (sw.map (fun t => t.parent)).Nodup)
    (env : Nat → Int) (bound : Nat) (hb : ∀ t ∈ sw, t.parent < bound)
    (fuel x T : Nat) (hx : x ∉ sw.map (fun t => t.parent))
    (h : M.runToOld env bound fuel x = some T) :
    (sw.foldl splitSwitch M).runToOld env bound fuel x = some T := by
  induction sw generalizing M with
  | nil => exact h
  | cons s sw ih =>
    rw [List.foldl_cons]
    obtain ⟨hM1, hP1, hnd1⟩ := foldl_state_step M s sw hM hP hnd
    simp only [List.map_cons, List.mem_cons, not_or] at hx
    apply ih _ hM1 hP1 hnd1 (fun t ht => hb t (by simp [ht])) hx.2
    exact runToOld_frame M _ env bound s.parent (hb s (by simp))
      (fun x y hne hs => step_splitSwitch_frame M s hM (hP s (by simp)) env x y hne hs)
      fuel x T hx.1 h

theorem foldl_routes (sw : List SwitchInst) (M : Module) (hM : M.WF)
    (hP : ∀ t ∈ sw, Pending M t) (hnd : (sw.map (fun t => t.parent)).Nodup)
    (env : Nat → Int) (bound : Nat) (hbound : bound ≤ M.nextBlock)
    (hb : ∀ t ∈ sw, t.parent < bound)
    (s : SwitchInst) (hs : s ∈ sw) (hD : s.defaultDest < bound)
    (hT : ∀ c ∈ s.cases, c.BB < bound) :
    (sw.foldl splitSwitch M).runToOld env bound (s.cases.length + 2) s.parent
      = some (switchTarget (s.cond.eval env) s.defaultDest s.cases) := by
  induction sw generalizing M with
  | nil => simp at hs
  | cons s0 sw ih =>
    rw [List.foldl_cons]
    obtain ⟨hM1, hP1, hnd1⟩ := foldl_state_step M s0 sw hM hP hnd
    have hb1 : ∀ t ∈ sw, t.parent < bound := fun t ht => hb t (by simp [ht])
    by_cases he : s = s0
    · subst he
      simp only [List.map_cons, List.nodup_cons] at hnd
      exact foldl_routes_frame sw _ hM1 hP1 hnd1 env bound hb1 _ _ _ hnd.1
        (splitSwitch_routes M s hM (hP s (by simp)) env bound hbound hD hT)
    · have hs1 : s ∈ sw := by
        simp only [List.mem_cons] at hs
        rcases hs with h | h
        · exact absurd h he
        · exact h
      exact ih _ hM1 hP1 hnd1 (Nat.le_trans hbound (splitSwitch_nextBlock_le M s0)) hb1 hs1

/-! ## The worklist of a well-formed module -/

theorem enumFrom_flatMap_parents (fi : Nat) (Fs : List Function) :
    ((Fs.enumFrom fi).flatMap (fun p => p.2.blocks.filterMap (switchEntry p.1))).map
        (fun s => s.parent)
      = ((Fs.flatMap (fun f => f.blocks)).filter (fun b => b.hasCaseSwitch)).map
          (fun b => b.id) := by
  induction Fs generalizing fi with
  | nil => rfl
  | cons F Fs ih =>
    simp only [List.enumFrom_cons, List.flatMap_cons, List.map_append, List.filter_append, ih]
    congr 1
    have := congrArg (List.map Prod.snd) (filterMap_switchEntry_ids fi F.blocks)
    simpa [List.map_map, Function.comp] using this

theorem collectSwitches_parents (M : Module) :
    (collectSwitches M).map (fun s => s.parent)
      = (M.allBlocks.filter (fun b => b.hasCaseSwitch)).map (fun b => b.id) := by
  rw [collectSwitches_eq_spec]
  exact enumFrom_flatMap_parents 0 M.functions

theorem collectSwitches_nodup (M : Module) (hM : M.WF) :
    ((collectSwitches M).map (fun s => s.parent)).Nodup := by
  rw [collectSwitches_parents]
  exact List.Nodup.sublist (List.Sublist.map _ (List.filter_sublist _)) hM.1

theorem getLast?_of_getTerminator (b : BasicBlock) (I : Inst) (h : b.getTerminator = some I) :
    b.insts.getLast? = some I := by
  unfold BasicBlock.getTerminator at h
  cases hl : b.insts.getLast? with
  | none => rw [hl] at h; cases h
  | some J =>
    rw [hl] at h
    simp only at h
    split at h
    · exact congrArg some (Option.some.inj h)
    · cases h

theorem collectSwitches_pending (M : Module) (s : SwitchInst) (hs : s ∈ collectSwitches M) :
    Pending M s := by
  obtain ⟨F, hF, b, hb, h⟩ := (mem_collectSwitches M s).mp hs
  obtain ⟨_, hid, hk, ht⟩ := switchEntry_some _ _ _ h
  refine ⟨?_, ?_, b, (mem_allBlocks_iff M b).mpr ⟨_, F, hF, hb⟩, hid.symm,
    getLast?_of_getTerminator b _ ht⟩
  · rw [List.getElem?_eq_some] at hF
    exact hF.1
  · intro e
    rw [e] at hk
    simp at hk

theorem switchTarget_of_mem (sel : Int) (D : Nat) (cases : List CaseExpr)
    (hnd : (cases.map (fun c => c.Val.value)).Nodup) (c : CaseExpr) (hc : c ∈ cases)
    (hv : c.Val.value = sel) : switchTarget sel D cases = c.BB := by
  unfold switchTarget
  induction cases with
  | nil => simp at hc
  | cons a cases ih =>
    simp only [List.map_cons, List.nodup_cons] at hnd
    simp only [List.mem_cons] at hc
    by_cases ha : a.Val.value = sel
    · simp only [List.find?_cons, ha, decide_True]
      rcases hc with rfl | hc
      · rfl
      · exfalso
        apply hnd.1
        rw [ha, ← hv]
        exact List.mem_map_of_mem (fun c => c.Val.value) hc
    · simp only [List.find?_cons, ha, decide_False]
      rcases hc with rfl | hc
      · exact absurd hv ha
      · exact ih hnd.2 hc

theorem switchTarget_default (sel : Int) (D : Nat) (cases : List CaseExpr)
    (h : ∀ c ∈ cases, c.Val.value ≠ sel) : switchTarget sel D cases = D := by
  unfold switchTarget
  have : cases.find? (fun cs => decide (cs.Val.value = sel)) = none := by
    rw [List.find?_eq_none]
    intro c hc
    simpa using h c hc
  rw [this]


/-! ## Phi keys and predecessor counts -/

theorem map_snd_setFirstIncoming (O X : Nat) (inc : List (Value × Nat)) :
    (setFirstIncoming O X inc).map (fun e => e.2) = setFirstKey O X (inc.map (fun e => e.2)) := by
  induction inc with
  | nil => rfl
  | cons e inc ih =>
    obtain ⟨v, b⟩ := e
    simp only [setFirstIncoming, List.map_cons, setFirstKey]
    split
    · rfl
    · simp [ih]

theorem phiKeys_append (l1 l2 : List Inst) : phiKeys (l1 ++ l2) = phiKeys l1 ++ phiKeys l2 := by
  induction l1 with
  | nil => rfl
  | cons I l1 ih => cases I <;> simp [phiKeys, ih]

theorem phiKeys_updatePhis (O X : Nat) (insts : List Inst) :
    phiKeys (updatePhis O X insts) = (phiKeys insts).map (setFirstKey O X) := by
  induction insts with
  | nil => rfl
  | cons I insts ih =>
    unfold updatePhis at ih ⊢
    cases I <;> simp [phiKeys, ih, map_snd_setFirstIncoming]

theorem phiKeys_chainPhis (O : Nat) (rc : List CaseExpr) (n id : Nat) (insts : List Inst) :
    phiKeys (chainPhis O n rc id insts) = (phiKeys insts).map (chainKeys O n rc id) := by
  induction rc generalizing n insts with
  | nil => simp [chainPhis, chainKeys]
  | cons c rc ih =>
    simp only [chainPhis]
    rw [ih]
    split
    · rename_i h
      rw [phiKeys_updatePhis, List.map_map]
      apply List.map_congr_left
      intro ks _
      simp [chainKeys, h]
    · rename_i h
      apply List.map_congr_left
      intro ks _
      simp [chainKeys, h]

theorem eq_dropLast_append_of_getLast? (l : List Inst) (I : Inst) (h : l.getLast? = some I) :
    l = l.dropLast ++ [I] := by
  have hne : l ≠ [] := by
    intro e; rw [e] at h; simp at h
  have h2 := List.dropLast_append_getLast hne
  rw [List.getLast?_eq_getLast l hne] at h
  simp only [Option.some.injEq] at h
  rw [h] at h2
  exact h2.symm

theorem phiKeys_spliceIn (hd : Nat) (insts : List Inst) (c : Value) (d : Nat)
    (cs : List CaseExpr) (h : insts.getLast? = some (Inst.switch c d cs)) :
    phiKeys (spliceIn hd insts) = phiKeys insts := by
  have hne : insts ≠ [] := by
    intro e; rw [e] at h; simp at h
  rw [spliceIn_eq hd insts hne]
  conv => rhs; rw [eq_dropLast_append_of_getLast? insts _ h]
  simp [phiKeys_append, phiKeys]

theorem phiKeys_rewriteInsts (SI : SwitchInst) (n id : Nat) (insts : List Inst)
    (h : id = SI.parent →
      insts.getLast? = some (Inst.switch SI.cond SI.defaultDest SI.cases)) :
    phiKeys (rewriteInsts SI n id insts) = (phiKeys insts).map (rewriteKeys SI n id) := by
  unfold rewriteInsts
  have h1 : phiKeys (if id = SI.parent then
        spliceIn (chainHead (n + 1) n SI.cases.reverse)
          (chainPhis SI.parent (n + 1) SI.cases.reverse id insts)
      else chainPhis SI.parent (n + 1) SI.cases.reverse id insts)
      = (phiKeys insts).map (chainKeys SI.parent (n + 1) SI.cases.reverse id) := by
    split
    · rename_i he
      rw [phiKeys_spliceIn _ _ _ _ _ (getLast?_chainPhis_switch _ _ _ _ _ _ _ _ (h he))]
      exact phiKeys_chainPhis _ _ _ _ _
    · exact phiKeys_chainPhis _ _ _ _ _
  simp only
  split
  · rename_i hd
    rw [phiKeys_updatePhis, h1, List.map_map]
    apply List.map_congr_left
    intro ks _
    simp [rewriteKeys, hd]
  · rename_i hd
    rw [h1]
    apply List.map_congr_left
    intro ks _
    simp [rewriteKeys, hd]

theorem count_cons_if (x P : Nat) (l : List Nat) :
    (x :: l).count P = l.count P + (if P = x then 1 else 0) := by
  rw [List.count_cons]
  by_cases h : P = x
  · subst h; simp
  · have h2 : ¬ x = P := fun e => h e.symm
    simp [h, h2]

theorem count_setFirstKey (O X : Nat) (ks : List Nat) (hO : O ∈ ks) (P : Nat) :
    (setFirstKey O X ks).count P + (if P = O then 1 else 0)
      = ks.count P + (if P = X then 1 else 0) := by
  induction ks with
  | nil => simp at hO
  | cons k ks ih =>
    simp only [setFirstKey]
    by_cases hk : k = O
    · subst hk
      simp only [if_true, count_cons_if]
      omega
    · have hO2 : O ∈ ks := by
        simp only [List.mem_cons] at hO
        rcases hO with h | h
        · exact absurd h.symm hk
        · exact h
      simp only [if_neg hk, count_cons_if]
      have := ih hO2
      omega

theorem cntNew_of_lt (n : Nat) (rc : List CaseExpr) (T P : Nat) (h : P < n) :
    cntNew n rc T P = 0 := by
  induction rc generalizing n with
  | nil => rfl
  | cons c rc ih =>
    have hne : ¬ (c.BB = T ∧ n = P) := by omega
    simp only [cntNew, if_neg hne, ih (n + 1) (by omega)]

theorem count_chainKeys (O : Nat) (rc : List CaseExpr) (n T : Nat) (ks : List Nat)
    (hO : O < n) (hc : (rc.map (fun c => c.BB)).count T ≤ ks.count O) (P : Nat) :
    (chainKeys O n rc T ks).count P + (if P = O then (rc.map (fun c => c.BB)).count T else 0)
      = ks.count P + cntNew n rc T P := by
  induction rc generalizing n ks with
  | nil => simp [chainKeys, cntNew]
  | cons c rc ih =>
    simp only [chainKeys, cntNew, List.map_cons, count_cons_if] at hc ⊢
    by_cases hT : T = c.BB
    · subst hT
      simp only [if_true, true_and] at hc ⊢
      have hmem : O ∈ ks := List.count_pos_iff.mp (by omega)
      have h1 := count_setFirstKey O n ks hmem
      have h1O := h1 O
      have hn : ¬ O = n := by omega
      simp only [if_true, hn, if_false] at h1O
      have h2 := ih (n + 1) (setFirstKey O n ks) (by omega) (by omega)
      have h1P := h1 P
      by_cases hPO : P = O
      · subst hPO
        have hn2 : ¬ n = P := by omega
        simp only [if_true, hn, hn2, if_false] at h1P h2 ⊢
        omega
      · simp only [hPO, if_false] at h1P h2 ⊢
        by_cases hPn : P = n
        · subst hPn
          simp only [if_true] at h1P ⊢
          omega
        · have hn2 : ¬ n = P := fun e => hPn e.symm
          simp only [hPn, hn2, if_false] at h1P ⊢
          omega
    · have hT2 : ¬ c.BB = T := fun e => hT e.symm
      simp only [hT2, hT, if_false, false_and, Nat.add_zero, Nat.zero_add] at hc ⊢
      exact ih (n + 1) ks (by omega) hc

theorem predCount_cons (b : BasicBlock) (bs : List BasicBlock) (P T : Nat) :
    predCount (b :: bs) P T
      = (if b.id = P then b.successors.count T else 0) + predCount bs P T := by
  simp [predCount]

theorem predCount_append (l1 l2 : List BasicBlock) (P T : Nat) :
    predCount (l1 ++ l2) P T = predCount l1 P T + predCount l2 P T := by
  simp [predCount]

theorem predCount_perm (l1 l2 : List BasicBlock) (h : List.Perm l1 l2) (P T : Nat) :
    predCount l1 P T = predCount l2 P T := by
  unfold predCount
  exact (h.map _).sum_eq

theorem predCount_of_not_mem (bs : List BasicBlock) (P T : Nat)
    (h : P ∉ bs.map (fun b => b.id)) : predCount bs P T = 0 := by
  induction bs with
  | nil => rfl
  | cons b bs ih =>
    simp only [List.map_cons, List.mem_cons, not_or] at h
    have hne : ¬ b.id = P := fun e => h.1 e.symm
    rw [predCount_cons, if_neg hne, ih h.2]

theorem predCount_unique (bs : List BasicBlock) (hnd : (bs.map (fun b => b.id)).Nodup)
    (b : BasicBlock) (hb : b ∈ bs) (T : Nat) :
    predCount bs b.id T = b.successors.count T := by
  induction bs with
  | nil => simp at hb
  | cons a bs ih =>
    simp only [List.map_cons, List.nodup_cons] at hnd
    simp only [List.mem_cons] at hb
    rw [predCount_cons]
    rcases hb with rfl | hb
    · rw [if_pos rfl, predCount_of_not_mem bs _ T hnd.1]
      rfl
    · have hne : ¬ a.id = b.id := by
        intro e
        exact hnd.1 (e ▸ List.mem_map_of_mem _ hb)
      rw [if_neg hne, ih hnd.2 hb, Nat.zero_add]

theorem predCount_map (g : BasicBlock → BasicBlock) (bs : List BasicBlock) (P T : Nat)
    (h : ∀ b ∈ bs, (g b).id = b.id ∧
      (b.id = P → (g b).successors.count T = b.successors.count T)) :
    predCount (bs.map g) P T = predCount bs P T := by
  induction bs with
  | nil => rfl
  | cons b bs ih =>
    rw [List.map_cons, predCount_cons, predCount_cons, ih (fun b2 h2 => h b2 (by simp [h2]))]
    obtain ⟨h1, h2⟩ := h b (by simp)
    rw [h1]
    split
    · rename_i e; rw [h2 e]
    · rfl

theorem count_predecessors (M : Module) (P T : Nat) :
    (M.predecessors T).count P = predCount M.allBlocks P T := by
  unfold Module.predecessors predCount
  induction M.allBlocks with
  | nil => rfl
  | cons b bs ih =>
    simp only [List.flatMap_cons, List.count_append, List.map_cons, List.sum_cons, ih,
      List.count_replicate]
    congr 1
    by_cases h : b.id = P <;> simp [h]

theorem predCount_chain (Val : Value) (rc : List CaseExpr) (n next P T : Nat)
    (h1 : T < n) (h2 : T < next) :
    predCount (chainBlocks Val n next rc) P T = cntNew n rc T P := by
  induction rc generalizing n next with
  | nil => rfl
  | cons c rc ih =>
    rw [chainBlocks, predCount_cons, cntNew, ih (n + 1) n (by omega) h1]
    congr 1
    have hne : ¬ T = next := by omega
    simp only [BasicBlock.successors, List.flatMap_cons, List.flatMap_nil, Inst.successors,
      List.nil_append, List.append_nil, count_cons_if, List.count_nil, hne, if_false]
    by_cases hn : n = P <;> by_cases hb : c.BB = T
    · subst hb; simp [hn]
    · have hb2 : ¬ T = c.BB := fun e => hb e.symm
      simp [hn, hb, hb2]
    · simp [hn]
    · simp [hn]

theorem successors_updatePhis (id O X : Nat) (insts : List Inst) :
    (⟨id, updatePhis O X insts⟩ : BasicBlock).successors
      = (⟨id, insts⟩ : BasicBlock).successors := by
  unfold BasicBlock.successors updatePhis
  simp only
  induction insts with
  | nil => rfl
  | cons I insts ih =>
    simp only [List.map_cons, List.flatMap_cons, ih]
    cases I <;> rfl

theorem successors_chainPhis (O : Nat) (rc : List CaseExpr) (n id : Nat) (insts : List Inst) :
    (⟨id, chainPhis O n rc id insts⟩ : BasicBlock).successors
      = (⟨id, insts⟩ : BasicBlock).successors := by
  induction rc generalizing n insts with
  | nil => rfl
  | cons c rc ih =>
    simp only [chainPhis]
    rw [ih]
    split
    · exact successors_updatePhis _ _ _ _
    · rfl

theorem successors_rewriteBlock_of_ne (SI : SwitchInst) (n : Nat) (b : BasicBlock)
    (hne : b.id ≠ SI.parent) : (rewriteBlock SI n b).successors = b.successors := by
  unfold rewriteBlock rewriteInsts
  simp only [if_neg hne]
  split
  · rw [successors_updatePhis]
    exact successors_chainPhis _ _ _ _ _
  · exact successors_chainPhis _ _ _ _ _

theorem successors_of_getLast? (id : Nat) (insts : List Inst) (I : Inst)
    (h : insts.getLast? = some I) :
    (⟨id, insts⟩ : BasicBlock).successors
      = (⟨id, insts.dropLast⟩ : BasicBlock).successors ++ I.successors := by
  unfold BasicBlock.successors
  simp only
  conv => lhs; rw [eq_dropLast_append_of_getLast? insts I h]
  simp

theorem successors_spliceIn (id hd : Nat) (insts : List Inst) (hne : insts ≠ []) :
    (⟨id, spliceIn hd insts⟩ : BasicBlock).successors
      = (⟨id, insts.dropLast⟩ : BasicBlock).successors ++ [hd] := by
  unfold BasicBlock.successors
  simp only [spliceIn_eq hd insts hne, List.flatMap_append]
  rfl

/-- The rewritten block loses the edges of its switch and gains one edge to
the head of the chain. -/
theorem successors_rewriteBlock_parent (SI : SwitchInst) (n : Nat) (b : BasicBlock)
    (he : b.id = SI.parent)
    (hl : b.insts.getLast? = some (Inst.switch SI.cond SI.defaultDest SI.cases)) (T : Nat) :
    (rewriteBlock SI n b).successors.count T
        + (SI.defaultDest :: SI.cases.map (fun c => c.BB)).count T
      = b.successors.count T + [chainHead (n + 1) n SI.cases.reverse].count T := by
  have hl1 := getLast?_chainPhis_switch SI.parent SI.cases.reverse (n + 1) b.id b.insts _ _ _ hl
  have hne : chainPhis SI.parent (n + 1) SI.cases.reverse b.id b.insts ≠ [] := by
    intro e; rw [e] at hl1; simp at hl1
  have h1 : (rewriteBlock SI n b).successors
      = (⟨b.id, (chainPhis SI.parent (n + 1) SI.cases.reverse b.id b.insts).dropLast⟩
          : BasicBlock).successors ++ [chainHead (n + 1) n SI.cases.reverse] := by
    unfold rewriteBlock rewriteInsts
    simp only [if_pos he]
    split
    · rw [successors_updatePhis]
      exact successors_spliceIn _ _ _ hne
    · exact successors_spliceIn _ _ _ hne
  have h2 : b.successors
      = (⟨b.id, (chainPhis SI.parent (n + 1) SI.cases.reverse b.id b.insts).dropLast⟩
          : BasicBlock).successors ++ (SI.defaultDest :: SI.cases.map (fun c => c.BB)) := by
    have := successors_chainPhis SI.parent SI.cases.reverse (n + 1) b.id b.insts
    rw [successors_of_getLast? _ _ _ hl1] at this
    exact this.symm
  rw [h1, h2]
  simp only [List.count_append]
  omega

theorem eq_of_mem_of_id_eq (bs : List BasicBlock) (hnd : (bs.map (fun b => b.id)).Nodup)
    (b1 b2 : BasicBlock) (h1 : b1 ∈ bs) (h2 : b2 ∈ bs) (he : b1.id = b2.id) : b1 = b2 := by
  have e1 := find?_id_of_mem bs hnd b1 h1
  have e2 := find?_id_of_mem bs hnd b2 h2
  rw [he, e2] at e1
  exact (Option.some.inj e1).symm


theorem phiInv_iff_count (M : Module) : PhiInv M ↔ PhiCountInv M := by
  unfold PhiInv PhiCountInv
  constructor
  · intro h b hb ks hks P
    rw [← count_predecessors]
    exact (h b hb ks hks).count_eq P
  · intro h b hb ks hks
    rw [List.perm_iff_count]
    intro P
    rw [count_predecessors]
    exact h b hb ks hks P

theorem phiSetInv_of_phiInv (M : Module) (h : PhiInv M) : PhiSetInv M := by
  intro b hb ks hks
  have hp := h b hb ks hks
  exact ⟨fun P hP => hp.mem_iff.mp hP, fun P hP => hp.mem_iff.mpr hP⟩

theorem rewrite_count_arith (P O n : Nat) (hOn : O < n) (goalL c1 cN pr kP mc md : Nat)
    (hkey : goalL + (if P = O then md else 0) = c1 + (if n = P then md else 0))
    (hk1P : c1 + (if P = O then mc else 0) = kP + cN)
    (hcN : P = O → cN = 0)
    (hold : pr + (if P = O then mc + md else 0) = kP) :
    goalL = (if n = P then md else 0) + cN + pr := by
  by_cases hPO : P = O
  · have hcN0 := hcN hPO
    have hn : ¬ n = P := by omega
    simp only [hPO, if_true] at hold hk1P hkey
    rw [if_neg (by omega)] at hkey
    rw [if_neg hn]
    omega
  · simp only [hPO, if_false] at hold hk1P hkey
    by_cases hPn : n = P
    · simp only [hPn, if_true] at hkey ⊢
      omega
    · simp only [hPn, if_false] at hkey ⊢
      omega

/-- One rewrite preserves the phi invariant. -/
theorem splitSwitch_phiCountInv (M : Module) (SI : SwitchInst) (hM : M.WF) (hP : Pending M SI)
    (hInv : PhiCountInv M) : PhiCountInv (splitSwitch M SI) := by
  have hO := pending_lt M SI hM hP
  obtain ⟨hF, hc, bO, hbO, hidO, hlast⟩ := hP
  have hperm := allBlocks_splitSwitch_perm M SI hc hO hF
  have hk : 1 ≤ SI.cases.length := by
    cases hcs : SI.cases with
    | nil => exact absurd hcs hc
    | cons _ _ => simp
  intro b2 hb2 ks2 hks2 P
  rw [predCount_perm _ _ hperm]
  rw [hperm.mem_iff, List.mem_append, List.mem_cons, List.mem_map] at hb2
  rcases hb2 with (rfl | hch) | ⟨b, hb, rfl⟩
  · simp [phiKeys] at hks2
  · obtain ⟨_, _, c, nx, _, hi⟩ := mem_chainBlocks _ _ _ _ _ hch
    rw [hi] at hks2
    simp [phiKeys] at hks2
  · have hT : b.id < M.nextBlock := hM.2 b hb
    have hlb : b.id = SI.parent →
        b.insts.getLast? = some (Inst.switch SI.cond SI.defaultDest SI.cases) := by
      intro e
      have : b = bO := eq_of_mem_of_id_eq _ hM.1 b bO hb hbO (e.trans hidO.symm)
      rw [this]; exact hlast
    simp only [rewriteBlock] at hks2 ⊢
    rw [phiKeys_rewriteInsts SI _ _ _ hlb, List.mem_map] at hks2
    obtain ⟨ks, hks, rfl⟩ := hks2
    have hI := hInv b hb ks hks
    have hrev : (SI.cases.reverse.map (fun c => c.BB)).count b.id
        = (SI.cases.map (fun c => c.BB)).count b.id := by
      rw [List.map_reverse, List.count_reverse]
    have hcons : (SI.defaultDest :: SI.cases.map (fun c => c.BB)).count b.id
        = (SI.cases.map (fun c => c.BB)).count b.id
          + (if b.id = SI.defaultDest then 1 else 0) := count_cons_if _ _ _
    -- the phi lists the rewritten block once per edge of the switch into this block
    have hA : (SI.cases.map (fun c => c.BB)).count b.id
        + (if b.id = SI.defaultDest then 1 else 0) ≤ ks.count SI.parent := by
      have h1 : ks.count SI.parent = bO.successors.count b.id := by
        rw [hI, ← hidO]
        exact predCount_unique _ hM.1 bO hbO _
      have h2 := successors_of_getLast? bO.id bO.insts _ hlast
      simp only [Inst.successors] at h2
      rw [h1, show bO.successors = (⟨bO.id, bO.insts⟩ : BasicBlock).successors from rfl, h2,
        List.count_append, hcons]
      omega
    -- keys after the chain loop
    have hk1 := count_chainKeys SI.parent SI.cases.reverse (M.nextBlock + 1) b.id ks (by omega)
      (by rw [hrev]; omega)
    have hk1P := hk1 P
    have hk1O := hk1 SI.parent
    rw [hrev] at hk1P hk1O
    rw [if_pos rfl, cntNew_of_lt _ _ _ _ (by omega)] at hk1O
    have hcN : P = SI.parent → cntNew (M.nextBlock + 1) SI.cases.reverse b.id P = 0 := by
      intro e
      rw [e]
      exact cntNew_of_lt _ _ _ _ (by omega)
    -- keys after the update for the default destination
    have hkey : (rewriteKeys SI M.nextBlock b.id ks).count P
        + (if P = SI.parent then (if b.id = SI.defaultDest then 1 else 0) else 0)
        = (chainKeys SI.parent (M.nextBlock + 1) SI.cases.reverse b.id ks).count P
          + (if M.nextBlock = P then (if b.id = SI.defaultDest then 1 else 0) else 0) := by
      unfold rewriteKeys
      simp only
      by_cases hD : b.id = SI.defaultDest
      · rw [if_pos hD] at hA
        simp only [if_pos hD]
        have hmem : SI.parent ∈ chainKeys SI.parent (M.nextBlock + 1) SI.cases.reverse b.id ks :=
          List.count_pos_iff.mp (by omega)
        have hk2 := count_setFirstKey SI.parent M.nextBlock _ hmem P
        by_cases hPn : P = M.nextBlock
        · have hPn2 : M.nextBlock = P := hPn.symm
          rw [if_pos hPn] at hk2
          rw [if_pos hPn2]
          exact hk2
        · have hPn2 : ¬ M.nextBlock = P := fun e => hPn e.symm
          rw [if_neg hPn] at hk2
          rw [if_neg hPn2]
          exact hk2
      · simp only [if_neg hD, ite_self]
    -- predecessor counts after the rewrite
    have hpc : predCount
        ((⟨M.nextBlock, [Inst.br SI.defaultDest]⟩
            :: chainBlocks SI.cond (M.nextBlock + 1) M.nextBlock SI.cases.reverse)
          ++ M.allBlocks.map (rewriteBlock SI M.nextBlock)) P b.id
        = (if M.nextBlock = P then (if b.id = SI.defaultDest then 1 else 0) else 0)
          + cntNew (M.nextBlock + 1) SI.cases.reverse b.id P
          + predCount (M.allBlocks.map (rewriteBlock SI M.nextBlock)) P b.id := by
      rw [predCount_append, predCount_cons, predCount_chain _ _ _ _ _ _ (by omega) hT]
      congr 2
      simp only [BasicBlock.successors, List.flatMap_cons, List.flatMap_nil, Inst.successors,
        List.append_nil, count_cons_if, List.count_nil, Nat.zero_add]
    have hold : predCount (M.allBlocks.map (rewriteBlock SI M.nextBlock)) P b.id
        + (if P = SI.parent then (SI.cases.map (fun c => c.BB)).count b.id
            + (if b.id = SI.defaultDest then 1 else 0) else 0)
        = ks.count P := by
      rw [hI P, ← hcons]
      by_cases hPO : P = SI.parent
      · rw [hPO, if_pos rfl]
        have hnd2 : ((M.allBlocks.map (rewriteBlock SI M.nextBlock)).map (fun b => b.id)).Nodup := by
          rw [rewriteBlock_ids]; exact hM.1
        have e1 := predCount_unique _ hnd2 (rewriteBlock SI M.nextBlock bO)
          (List.mem_map_of_mem _ hbO) b.id
        have e2 := predCount_unique _ hM.1 bO hbO b.id
        rw [rewriteBlock_id, hidO] at e1
        rw [hidO] at e2
        rw [e1, e2]
        have e3 := successors_rewriteBlock_parent SI M.nextBlock bO hidO hlast b.id
        have hhd : [chainHead (M.nextBlock + 1) M.nextBlock SI.cases.reverse].count b.id = 0 := by
          rw [chainHead_eq _ _ _ (by simpa using hc), count_cons_if, List.length_reverse]
          have : ¬ b.id = M.nextBlock + 1 + (SI.cases.length - 1) := by omega
          simp [this]
        omega
      · rw [if_neg hPO, Nat.add_zero]
        apply predCount_map
        intro b3 _
        refine ⟨rfl, fun e => ?_⟩
        rw [successors_rewriteBlock_of_ne SI _ b3 (by rw [e]; exact hPO)]
    rw [hpc]
    exact rewrite_count_arith P SI.parent M.nextBlock hO _ _ _ _ _ _ _ hkey hk1P hcN hold

theorem foldl_phiCountInv (sw : List SwitchInst) (M : Module) (hM : M.WF)
    (hP : ∀ t ∈ sw, Pending M t) (hnd : (sw.map (fun t => t.parent)).Nodup)
    (hInv : PhiCountInv M) : PhiCountInv (sw.foldl splitSwitch M) := by
  induction sw generalizing M with
  | nil => exact hInv
  | cons s sw ih =>
    rw [List.foldl_cons]
    obtain ⟨hM1, hP1, hnd1⟩ := foldl_state_step M s sw hM hP hnd
    exact ih _ hM1 hP1 hnd1 (splitSwitch_phiCountInv M s hM (hP s (by simp)) hInv)

theorem foldl_WF (sw : List SwitchInst) (M : Module) (hM : M.WF)
    (hP : ∀ t ∈ sw, Pending M t) (hnd : (sw.map (fun t => t.parent)).Nodup) :
    (sw.foldl splitSwitch M).WF := by
  induction sw generalizing M with
  | nil => exact hM
  | cons s sw ih =>
    rw [List.foldl_cons]
    obtain ⟨hM1, hP1, hnd1⟩ := foldl_state_step M s sw hM hP hnd
    exact ih _ hM1 hP1 hnd1

theorem splitSwitches_M (v : Module → Bool) (M : Module) :
    (splitSwitches v M).M = (collectSwitches M).foldl splitSwitch M := by
  unfold splitSwitches
  simp only
  split
  · rename_i h0
    rw [List.length_eq_zero.mp h0]
    rfl
  · rfl

theorem splitSwitches_WF (v : Module → Bool) (M : Module) (hM : M.WF) :
    (splitSwitches v M).M.WF := by
  rw [splitSwitches_M]
  exact foldl_WF _ M hM (collectSwitches_pending M) (collectSwitches_nodup M hM)


/-! ## What a rewrite leaves alone -/

theorem keyMask_setFirstKey (Z O X : Nat) (hO : Z ≠ O) (hX : Z ≠ X) (ks : List Nat) :
    keyMask Z (setFirstKey O X ks) = keyMask Z ks := by
  unfold keyMask
  induction ks with
  | nil => rfl
  | cons k ks ih =>
    simp only [setFirstKey]
    split
    · rename_i hk
      have h1 : ¬ X = Z := fun e => hX e.symm
      have h2 : ¬ k = Z := fun e => hO (e.symm.trans hk)
      simp [h1, h2]
    · simp only [List.map_cons, ih]

theorem keyMask_chainKeys (Z O : Nat) (rc : List CaseExpr) (n id : Nat) (hO : Z ≠ O)
    (hn : Z < n) (ks : List Nat) :
    keyMask Z (chainKeys O n rc id ks) = keyMask Z ks := by
  induction rc generalizing n ks with
  | nil => rfl
  | cons c rc ih =>
    simp only [chainKeys]
    rw [ih (n + 1) (by omega)]
    split
    · exact keyMask_setFirstKey Z O n hO (by omega) ks
    · rfl

theorem keyMask_rewriteKeys (Z : Nat) (SI : SwitchInst) (n id : Nat) (hO : Z ≠ SI.parent)
    (hn : Z < n) (ks : List Nat) :
    keyMask Z (rewriteKeys SI n id ks) = keyMask Z ks := by
  unfold rewriteKeys
  simp only
  split
  · rw [keyMask_setFirstKey Z _ n hO (by omega)]
    exact keyMask_chainKeys Z _ _ _ _ hO (by omega) ks
  · exact keyMask_chainKeys Z _ _ _ _ hO (by omega) ks

/-- A block of function `fi` across one rewrite: it is still in function
`fi`, rewritten; its terminator is the same unless it is the rewritten block;
the phi entries keyed by a block other than the rewritten one stay where they
are. -/
theorem splitSwitch_block_frame (M : Module) (SI : SwitchInst) (hM : M.WF) (hP : Pending M SI)
    (fi : Nat) (F : Function) (b : BasicBlock) (hF : M.functions[fi]? = some F)
    (hb : b ∈ F.blocks) (Z : Nat) (hZ : Z < M.nextBlock) (hZO : Z ≠ SI.parent) :
    ∃ F2 b2, (splitSwitch M SI).functions[fi]? = some F2 ∧ b2 ∈ F2.blocks ∧ b2.id = b.id ∧
      (b.id ≠ SI.parent → b2.getTerminator = b.getTerminator) ∧
      (phiKeys b2.insts).map (keyMask Z) = (phiKeys b.insts).map (keyMask Z) := by
  have hO := pending_lt M SI hM hP
  obtain ⟨hFn, hc, bO, hbO, hidO, hlast⟩ := hP
  have hball : b ∈ M.allBlocks := (mem_allBlocks_iff M b).mpr ⟨fi, F, hF, hb⟩
  have hlb : b.id = SI.parent →
      b.insts.getLast? = some (Inst.switch SI.cond SI.defaultDest SI.cases) := by
    intro e
    have : b = bO := eq_of_mem_of_id_eq _ hM.1 b bO hball hbO (e.trans hidO.symm)
    rw [this]; exact hlast
  refine ⟨_, rewriteBlock SI M.nextBlock b,
    by rw [splitSwitch_getElem? M SI hc hO, hF]; rfl, ?_, rfl,
    fun hne => getTerminator_rewriteBlock_of_ne SI _ b hne, ?_⟩
  · split
    · rw [List.mem_append, mem_insertBefore]
      exact Or.inl (Or.inr (List.mem_map_of_mem _ hb))
    · exact List.mem_map_of_mem _ hb
  · simp only [rewriteBlock]
    rw [phiKeys_rewriteInsts SI _ _ _ hlb, List.map_map]
    apply List.map_congr_left
    intro ks _
    exact keyMask_rewriteKeys Z SI _ _ hZO hZ ks

theorem foldl_block_frame (sw : List SwitchInst) (M : Module) (hM : M.WF)
    (hP : ∀ t ∈ sw, Pending M t) (hnd : (sw.map (fun t => t.parent)).Nodup)
    (fi : Nat) (F : Function) (b : BasicBlock) (hF : M.functions[fi]? = some F)
    (hb : b ∈ F.blocks) (Z : Nat) (hZ : Z < M.nextBlock)
    (hZO : Z ∉ sw.map (fun t => t.parent)) :
    ∃ F2 b2, (sw.foldl splitSwitch M).functions[fi]? = some F2 ∧ b2 ∈ F2.blocks ∧
      b2.id = b.id ∧
      (b.id ∉ sw.map (fun t => t.parent) → b2.getTerminator = b.getTerminator) ∧
      (phiKeys b2.insts).map (keyMask Z) = (phiKeys b.insts).map (keyMask Z) := by
  induction sw generalizing M F b with
  | nil => exact ⟨F, b, hF, hb, rfl, fun _ => rfl, rfl⟩
  | cons s sw ih =>
    rw [List.foldl_cons]
    obtain ⟨hM1, hP1, hnd1⟩ := foldl_state_step M s sw hM hP hnd
    simp only [List.map_cons, List.mem_cons, not_or] at hZO
    obtain ⟨F1, b1, hF1, hb1, hid1, ht1, hk1⟩ :=
      splitSwitch_block_frame M s hM (hP s (by simp)) fi F b hF hb Z hZ hZO.1
    obtain ⟨F2, b2, hF2, hb2, hid2, ht2, hk2⟩ :=
      ih _ hM1 hP1 hnd1 F1 b1 hF1 hb1
        (Nat.lt_of_lt_of_le hZ (splitSwitch_nextBlock_le M s)) hZO.2
    refine ⟨F2, b2, hF2, hb2, hid2.trans hid1, ?_, hk2.trans hk1⟩
    intro hn
    simp only [List.map_cons, List.mem_cons, not_or] at hn
    rw [ht2 (by rw [hid1]; exact hn.2), ht1 hn.1]

theorem foldl_allBlocks_length (sw : List SwitchInst) (M : Module) (hM : M.WF)
    (hP : ∀ t ∈ sw, Pending M t) (hnd : (sw.map (fun t => t.parent)).Nodup) :
    (sw.foldl splitSwitch M).allBlocks.length
      = M.allBlocks.length + (sw.map (fun s => s.cases.length + 1)).sum := by
  induction sw generalizing M with
  | nil => simp
  | cons s sw ih =>
    rw [List.foldl_cons]
    obtain ⟨hM1, hP1, hnd1⟩ := foldl_state_step M s sw hM hP hnd
    rw [ih _ hM1 hP1 hnd1]
    have hPs := hP s (by simp)
    have := (allBlocks_splitSwitch_perm M s hPs.2.1 (pending_lt M s hM hPs) hPs.1).length_eq
    rw [this]
    simp [chainBlocks_length]
    omega

theorem collectSwitches_ne_of_zero_case (M : Module) (hM : M.WF) (Z : BasicBlock)
    (hZ : Z ∈ M.allBlocks) (c : Value) (D : Nat)
    (hterm : Z.getTerminator = some (Inst.switch c D [])) :
    Z.id ∉ (collectSwitches M).map (fun s => s.parent) := by
  intro h
  rw [List.mem_map] at h
  obtain ⟨s, hs, e⟩ := h
  obtain ⟨F, hF, b, hb, hsb⟩ := (mem_collectSwitches M s).mp hs
  obtain ⟨_, hid, hk, ht⟩ := switchEntry_some _ _ _ hsb
  have hball : b ∈ M.allBlocks := (mem_allBlocks_iff M b).mpr ⟨_, F, hF, hb⟩
  have : b = Z := eq_of_mem_of_id_eq _ hM.1 b Z hball hZ (hid.symm.trans e)
  rw [this, hterm] at ht
  simp only [Option.some.injEq, Inst.switch.injEq] at ht
  rw [← ht.2.2] at hk
  simp at hk


/-! ## Claims -/

/-- C1: in a well-formed module, for every collected switch (a switch with at
least one case) whose case values are mutually distinct and whose targets are
blocks of the module, and for every value of the selector: following control
flow from `OrigBlock` in the module produced by `splitSwitches`, through
blocks created by the pass only, arrives at a first pre-existing block `T`;
`T` is the block the original switch transferred to, namely the target of the
case whose constant equals the selector value, or the default target when no
case constant equals it. -/
theorem C1_semantic_equivalence (v : Module → Bool) (M : Module) (hM : M.WF)
    (s : SwitchInst) (hs : s ∈ collectSwitches M)
    (hdist : (s.cases.map (fun c => c.Val.value)).Nodup)
    (hD : s.defaultDest ∈ M.allBlocks.map (fun b => b.id))
    (hT : ∀ c ∈ s.cases, c.BB ∈ M.allBlocks.map (fun b => b.id))
    (env : Nat → Int) :
    ∃ T, (splitSwitches v M).M.runToOld env M.nextBlock (s.cases.length + 2) s.parent = some T ∧
      M.step env s.parent = some T ∧
      (∀ c ∈ s.cases, c.Val.value = s.cond.eval env → T = c.BB) ∧
      ((∀ c ∈ s.cases, c.Val.value ≠ s.cond.eval env) → T = s.defaultDest) := by
  have hlt : ∀ x ∈ M.allBlocks.map (fun b => b.id), x < M.nextBlock := by
    intro x hx
    rw [List.mem_map] at hx
    obtain ⟨b, hb, rfl⟩ := hx
    exact hM.2 b hb
  refine ⟨switchTarget (s.cond.eval env) s.defaultDest s.cases, ?_, ?_, ?_, ?_⟩
  · have hne : ¬ (collectSwitches M).length = 0 := by
      intro h0
      rw [List.length_eq_zero.mp h0] at hs
      simp at hs
    unfold splitSwitches
    simp only [if_neg hne]
    exact foldl_routes (collectSwitches M) M hM (collectSwitches_pending M)
      (collectSwitches_nodup M hM) env M.nextBlock (Nat.le_refl _)
      (fun t ht => pending_lt M t hM (collectSwitches_pending M t ht)) s hs
      (hlt _ hD) (fun c hc => hlt _ (hT c hc))
  · obtain ⟨F, hF, b, hb, h⟩ := (mem_collectSwitches M s).mp hs
    obtain ⟨_, hid, _, ht⟩ := switchEntry_some _ _ _ h
    have := step_of_mem M hM env b ((mem_allBlocks_iff M b).mpr ⟨_, F, hF, hb⟩) _ ht
    rw [hid, this]
    rfl
  · intro c hc hv
    exact switchTarget_of_mem _ _ _ hdist c hc hv
  · intro h
    exact switchTarget_default _ _ _ h

/-- C1 at the scenario module, its switch and the selector value 2. -/
theorem C1_semantic_equivalence_witness :
    (scenarioModule.WF ∧ scenarioSwitch ∈ collectSwitches scenarioModule) ∧
    ∃ T, (splitSwitches (fun _ => false) scenarioModule).M.runToOld (fun _ => 2)
        scenarioModule.nextBlock (scenarioSwitch.cases.length + 2) scenarioSwitch.parent = some T ∧
      scenarioModule.step (fun _ => 2) scenarioSwitch.parent = some T ∧
      (∀ c ∈ scenarioSwitch.cases, c.Val.value = scenarioSwitch.cond.eval (fun _ => 2) → T = c.BB) ∧
      ((∀ c ∈ scenarioSwitch.cases, c.Val.value ≠ scenarioSwitch.cond.eval (fun _ => 2)) →
        T = scenarioSwitch.defaultDest) :=
  ⟨⟨by decide, by decide⟩,
    C1_semantic_equivalence (fun _ => false) scenarioModule (by decide) scenarioSwitch
      (by decide) (by decide) (by decide) (by decide) (fun _ => 2)⟩


/-- C2 (as stated, refuted): in `sharedTargetModule`, which is well formed,
every phi has a key set equal to the predecessor set of its block; after
`splitSwitches` the phi of block 1 has the one key 4 while the predecessors of
block 1 are the comparison blocks 4 and 5. -/
theorem C2_set_invariant_counterexample :
    sharedTargetModule.WF ∧ PhiSetInv sharedTargetModule ∧
      ¬ PhiSetInv (splitSwitches (fun _ => false) sharedTargetModule).M := by
  decide

/-- C2 (amended): in a well-formed module in which every phi of every block
lists each predecessor of its block once per incoming edge (its key list is a
permutation of the predecessor list of the block), the same holds after
`splitSwitches` has rewritten all collected switches, for every phi of every
block of the module, pre-existing or created; in particular every phi then has
a key set equal to the predecessor set of its block, and the result is well
formed. -/
theorem C2_phi_invariant (v : Module → Bool) (M : Module) (hM : M.WF) (hInv : PhiInv M) :
    PhiInv (splitSwitches v M).M ∧ PhiSetInv (splitSwitches v M).M ∧
      (splitSwitches v M).M.WF := by
  have h : PhiInv (splitSwitches v M).M := by
    rw [phiInv_iff_count, splitSwitches_M]
    exact foldl_phiCountInv _ M hM (collectSwitches_pending M) (collectSwitches_nodup M hM)
      ((phiInv_iff_count M).mp hInv)
  exact ⟨h, phiSetInv_of_phiInv _ h, splitSwitches_WF v M hM⟩


/-- C2 (amended) at the scenario module, whose phis list block 0 once per edge. -/
theorem C2_phi_invariant_witness :
    (scenarioModule.WF ∧ PhiInv scenarioModule) ∧
    PhiInv (splitSwitches (fun _ => false) scenarioModule).M :=
  have hInv : PhiInv scenarioModule := by
    unfold PhiInv
    decide
  ⟨⟨by decide, hInv⟩, (C2_phi_invariant (fun _ => false) scenarioModule (by decide) hInv).1⟩

/-- C3: rewriting one switch with k >= 1 cases, located in a block of function
number F of a module whose block identities are all below the allocation
counter, adds exactly k + 1 blocks to function F and removes none: the block
list of F grows by k + 1, its identities are the old ones together with the
k + 1 pairwise distinct identities n, .., n + k (n the allocation counter),
none of which names a block of the module before; the pre-existing blocks
keep their relative order; the block n is `NewDefault` (a branch to the
default destination) and each of the blocks n + 1, .., n + k is a comparison
block for one of the cases; the other functions keep their block identities. -/
theorem C3_case_count (M : Module) (SI : SwitchInst) (f : Function)
    (hk : 1 ≤ SI.cases.length) (hF : M.functions[SI.parentFn]? = some f)
    (hO : ∃ b ∈ f.blocks, b.id = SI.parent)
    (hfresh : ∀ b ∈ M.allBlocks, b.id < M.nextBlock) :
    (∃ f2, (splitSwitch M SI).functions[SI.parentFn]? = some f2 ∧
      f2.blocks.length = f.blocks.length + (SI.cases.length + 1) ∧
      List.Perm (f2.blocks.map (fun b => b.id))
        (f.blocks.map (fun b => b.id) ++ List.range' M.nextBlock (SI.cases.length + 1)) ∧
      (f2.blocks.map (fun b => b.id)).filter (fun x => x < M.nextBlock)
        = f.blocks.map (fun b => b.id) ∧
      (∀ b ∈ f2.blocks, b.id = M.nextBlock → b.insts = [Inst.br SI.defaultDest]) ∧
      (∀ b ∈ f2.blocks, M.nextBlock < b.id → ∃ c ∈ SI.cases, ∃ nx,
        b.insts = [Inst.icmp SI.cond c.Val,
          Inst.condBr c.BB nx (Value.icmpEq SI.cond c.Val)])) ∧
    (List.range' M.nextBlock (SI.cases.length + 1)).Nodup ∧
    (∀ x ∈ List.range' M.nextBlock (SI.cases.length + 1), ∀ b ∈ M.allBlocks, b.id ≠ x) ∧
    (∀ i, i ≠ SI.parentFn →
      ((splitSwitch M SI).functions[i]?).map (fun g => g.blocks.map (fun b => b.id))
        = (M.functions[i]?).map (fun g => g.blocks.map (fun b => b.id))) ∧
    (splitSwitch M SI).functions.length = M.functions.length := by
  have hc : SI.cases ≠ [] := by
    intro h; rw [h] at hk; simp at hk
  have hfmem : ∀ b ∈ f.blocks, b.id < M.nextBlock := by
    intro b hb
    exact hfresh b ((mem_allBlocks_iff M b).mpr ⟨_, f, hF, hb⟩)
  have hO2 : SI.parent < M.nextBlock := by
    obtain ⟨b, hb, e⟩ := hO
    exact e ▸ hfmem b hb
  refine ⟨?_, List.nodup_range' _ _ 1 (by simp), ?_, ?_, ?_⟩
  · have hmem : ∀ b ∈ insertBefore SI.defaultDest ⟨M.nextBlock, [Inst.br SI.defaultDest]⟩
          (f.blocks.map (rewriteBlock SI M.nextBlock))
          ++ chainBlocks SI.cond (M.nextBlock + 1) M.nextBlock SI.cases.reverse,
        b = ⟨M.nextBlock, [Inst.br SI.defaultDest]⟩ ∨ b.id < M.nextBlock ∨
          b ∈ chainBlocks SI.cond (M.nextBlock + 1) M.nextBlock SI.cases.reverse := by
      intro b hb
      rw [List.mem_append, mem_insertBefore, List.mem_map] at hb
      rcases hb with (hb | ⟨b2, hb2, rfl⟩) | hb
      · exact Or.inl hb
      · exact Or.inr (Or.inl (hfmem b2 hb2))
      · exact Or.inr (Or.inr hb)
    refine ⟨_, by rw [splitSwitch_getElem? M SI hc hO2, hF]; simp; rfl, ?_, ?_, ?_, ?_, ?_⟩
    · simp [insertBefore_length, chainBlocks_length]
      omega
    · simp only [List.map_append, chainBlocks_ids, List.length_reverse]
      have h1 := (insertBefore_perm SI.defaultDest ⟨M.nextBlock, [Inst.br SI.defaultDest]⟩
        (f.blocks.map (rewriteBlock SI M.nextBlock))).map (fun b => b.id)
      rw [List.map_cons, rewriteBlock_ids] at h1
      rw [List.range'_succ]
      exact (List.Perm.append_right _ h1).trans List.perm_middle.symm
    · simp only [List.map_append, List.filter_append, chainBlocks_ids]
      have h2 : (List.range' (M.nextBlock + 1) SI.cases.reverse.length).filter
          (fun x => x < M.nextBlock) = [] := by
        rw [List.filter_eq_nil_iff]
        intro x hx
        simp only [List.mem_range'_1] at hx
        simp only [decide_eq_true_eq]
        omega
      rw [h2, List.append_nil, insertBefore_ids_filter, rewriteBlock_ids]
      intro b hb
      rw [List.mem_map] at hb
      obtain ⟨b2, hb2, rfl⟩ := hb
      exact hfmem b2 hb2
    · intro b hb hid
      rcases hmem b hb with h | h | h
      · rw [h]
      · omega
      · have := (mem_chainBlocks _ _ _ _ _ h).1
        omega
    · intro b hb hid
      rcases hmem b hb with h | h | h
      · rw [h] at hid; simp at hid
      · omega
      · obtain ⟨_, _, c, nx, hc2, hi⟩ := mem_chainBlocks _ _ _ _ _ h
        exact ⟨c, List.mem_reverse.mp hc2, nx, hi⟩
  · intro x hx b hb
    have := hfresh b hb
    simp only [List.mem_range'_1] at hx
    omega
  · intro i hi
    rw [splitSwitch_getElem? M SI hc hO2]
    cases M.functions[i]? with
    | none => rfl
    | some g => simp [hi, Function.mapBlocks, rewriteBlock_id]
  · rw [splitSwitch_closed M SI hc hO2]
    simp


/-- C3 at the scenario module and its switch. -/
theorem C3_case_count_witness :
    (1 ≤ scenarioSwitch.cases.length ∧
      ∀ b ∈ scenarioModule.allBlocks, b.id < scenarioModule.nextBlock) ∧
    (splitSwitch scenarioModule scenarioSwitch).functions.length
      = scenarioModule.functions.length :=
  ⟨⟨by decide, by decide⟩,
    (C3_case_count scenarioModule scenarioSwitch
      ⟨[⟨0, [Inst.other 0, Inst.switch (Value.reg 0) 4 [⟨i32 1, 1⟩, ⟨i32 2, 2⟩, ⟨i32 3, 3⟩]]⟩,
        ⟨1, [Inst.phi [(Value.reg 1, 0)], Inst.ret]⟩,
        ⟨2, [Inst.phi [(Value.reg 2, 0)], Inst.ret]⟩,
        ⟨3, [Inst.phi [(Value.reg 3, 0)], Inst.ret]⟩,
        ⟨4, [Inst.phi [(Value.reg 4, 0)], Inst.ret]⟩]⟩
      (by decide) rfl ⟨_, List.mem_cons_self _ _, rfl⟩ (by decide)).2.2.2.2⟩

theorem switchConvert_closed (Cases : List CaseExpr) (bytesChecked : List Bool) (F : Nat)
    (OrigBlock NewDefault : Nat) (Val : Value) (level : Nat) (M : Module) :
    switchConvert Cases bytesChecked F OrigBlock NewDefault Val level M
      = (chainHead M.nextBlock NewDefault Cases.reverse,
         { functions := (M.functions.map (Function.mapBlocks (fun b =>
                  { b with insts := chainPhis OrigBlock M.nextBlock Cases.reverse b.id b.insts }))).modify
              (fun f => { blocks := f.blocks ++ chainBlocks Val M.nextBlock NewDefault Cases.reverse })
              F
           nextBlock := M.nextBlock + Cases.length }) := by
  unfold switchConvert
  rw [chainLoop_closed, List.length_reverse]

/-- C4: for a case list c_0 .. c_(k-1) with k >= 1, `switchConvert` returns the
identity n + (k - 1) of the block created for c_0 (n the allocation counter),
and for every i the block created for c_i, which has identity n + (k - 1 - i)
and is appended to function F at position (old length) + (k - 1 - i), consists
of the comparison of the selector with the constant of c_i followed by a
conditional branch whose true target is the target of c_i and whose false
target is the block created for c_(i+1) when i < k - 1 and `NewDefault` when
i = k - 1. -/
theorem C4_chain_order (Cases : List CaseExpr) (bytesChecked : List Bool) (F : Nat)
    (OrigBlock NewDefault : Nat) (Val : Value) (level : Nat) (M : Module) (f : Function)
    (hk : 1 ≤ Cases.length) (hF : M.functions[F]? = some f) :
    (switchConvert Cases bytesChecked F OrigBlock NewDefault Val level M).1
      = M.nextBlock + (Cases.length - 1) ∧
    ∃ f2, (switchConvert Cases bytesChecked F OrigBlock NewDefault Val level M).2.functions[F]?
        = some f2 ∧
      f2.blocks.length = f.blocks.length + Cases.length ∧
      ∀ i c, Cases[i]? = some c →
        f2.blocks[f.blocks.length + (Cases.length - 1 - i)]? = some
          ⟨M.nextBlock + (Cases.length - 1 - i),
            [Inst.icmp Val c.Val,
             Inst.condBr c.BB
               (if i + 1 < Cases.length then M.nextBlock + (Cases.length - 1 - (i + 1))
                else NewDefault)
               (Value.icmpEq Val c.Val)]⟩ := by
  have hne : Cases.reverse ≠ [] := by
    intro h
    rw [List.reverse_eq_nil_iff] at h
    rw [h] at hk
    simp at hk
  rw [switchConvert_closed]
  refine ⟨by rw [chainHead_eq _ _ _ hne, List.length_reverse], ?_⟩
  refine ⟨_, by simp only [List.getElem?_modify, List.getElem?_map, hF]; simp; rfl, ?_, ?_⟩
  · simp [Function.mapBlocks, chainBlocks_length]
  · intro i c hic
    have hi : i < Cases.length := by
      rw [List.getElem?_eq_some] at hic
      exact hic.1
    simp only [Function.mapBlocks]
    rw [List.getElem?_append_right (by simp)]
    simp only [List.length_map, Nat.add_sub_cancel_left]
    rw [chainBlocks_getElem?, List.getElem?_reverse (by omega)]
    have e : Cases.length - 1 - (Cases.length - 1 - i) = i := by omega
    rw [e, hic]
    simp only [Option.map_some', Option.some.injEq, BasicBlock.mk.injEq, List.cons.injEq,
      Inst.condBr.injEq, and_true, true_and]
    by_cases h1 : i + 1 < Cases.length
    · have h2 : ¬ Cases.length - 1 - i = 0 := by omega
      rw [if_pos h1, if_neg h2]
      omega
    · have h2 : Cases.length - 1 - i = 0 := by omega
      rw [if_neg h1, if_pos h2]


/-- C4 at the cases of the scenario switch, with 99 as `NewDefault`. -/
theorem C4_chain_order_witness :
    1 ≤ scenarioSwitch.cases.length ∧
    (switchConvert scenarioSwitch.cases [] 0 0 99 (Value.reg 0) 0 scenarioModule).1
      = scenarioModule.nextBlock + (scenarioSwitch.cases.length - 1) :=
  ⟨by decide,
    (C4_chain_order scenarioSwitch.cases [] 0 0 99 (Value.reg 0) 0 scenarioModule
      ⟨[⟨0, [Inst.other 0, Inst.switch (Value.reg 0) 4 [⟨i32 1, 1⟩, ⟨i32 2, 2⟩, ⟨i32 3, 3⟩]]⟩,
        ⟨1, [Inst.phi [(Value.reg 1, 0)], Inst.ret]⟩,
        ⟨2, [Inst.phi [(Value.reg 2, 0)], Inst.ret]⟩,
        ⟨3, [Inst.phi [(Value.reg 3, 0)], Inst.ret]⟩,
        ⟨4, [Inst.phi [(Value.reg 4, 0)], Inst.ret]⟩]⟩
      (by decide) rfl).1⟩

/-- C5: for every module, the collection scan run on the module produced by
`splitSwitches` yields an empty worklist: no block of any function of the
result ends in a switch with at least one case, and a second run of
`splitSwitches` returns false, leaves the module as it is and rewrites
nothing. -/
theorem C5_collection_idempotent (v v2 : Module → Bool) (M : Module) :
    collectSwitches (splitSwitches v M).M = [] ∧
    (∀ F ∈ (splitSwitches v M).M.functions, ∀ b ∈ F.blocks, ∀ c d cases,
      b.getTerminator = some (Inst.switch c d cases) → cases = []) ∧
    splitSwitches v2 (splitSwitches v M).M = ⟨false, (splitSwitches v M).M, []⟩ := by
  have h0 : collectSwitches (splitSwitches v M).M = [] :=
    (collectSwitches_eq_nil _).mpr (splitSwitches_no_caseSwitch v M)
  refine ⟨h0, ?_, ?_⟩
  · intro F hF b hb c d cases ht
    have hmem : b ∈ (splitSwitches v M).M.allBlocks := by
      unfold Module.allBlocks
      simp only [List.mem_flatMap]
      exact ⟨F, hF, hb⟩
    have := splitSwitches_no_caseSwitch v M b hmem
    unfold BasicBlock.hasCaseSwitch at this
    rw [ht] at this
    simp only [decide_eq_false_iff_not, Nat.not_le, Nat.lt_one_iff] at this
    exact List.length_eq_zero.mp this
  · exact splitSwitches_of_nil v2 _ h0


/-- C6: in a well-formed module, a block `Z` of function `fi` whose terminator
is a switch with a default target `D` and no cases is not put on the worklist
(the scan pushes nothing for it and no entry names it); after `splitSwitches`
function `fi` still holds a block with the identity of `Z` that ends in the
same switch; the pass has created exactly one `NewDefault` and one comparison
block per case for each worklist entry, hence none for `Z`; and in every phi
of the default target `D` the entries keyed by `Z` are the same entries as
before, whatever other switches of the module are rewritten. -/
theorem C6_zero_case_untouched (v : Module → Bool) (M : Module) (hM : M.WF) (fi : Nat)
    (F : Function) (Z : BasicBlock) (c : Value) (D : Nat)
    (hF : M.functions[fi]? = some F) (hZ : Z ∈ F.blocks)
    (hterm : Z.getTerminator = some (Inst.switch c D [])) :
    (∀ sw, collectBlock fi Z sw = sw) ∧
    (∀ s ∈ collectSwitches M, s.parent ≠ Z.id) ∧
    (∃ F2 Z2, (splitSwitches v M).M.functions[fi]? = some F2 ∧ Z2 ∈ F2.blocks ∧
      Z2.id = Z.id ∧ Z2.getTerminator = some (Inst.switch c D [])) ∧
    (splitSwitches v M).M.allBlocks.length
      = M.allBlocks.length + ((collectSwitches M).map (fun s => s.cases.length + 1)).sum ∧
    (∀ bD ∈ M.allBlocks, bD.id = D →
      ∃ bD2 ∈ (splitSwitches v M).M.allBlocks, bD2.id = D ∧
        (phiKeys bD2.insts).map (keyMask Z.id) = (phiKeys bD.insts).map (keyMask Z.id)) := by
  have hZall : Z ∈ M.allBlocks := (mem_allBlocks_iff M Z).mpr ⟨fi, F, hF, hZ⟩
  have hnot := collectSwitches_ne_of_zero_case M hM Z hZall c D hterm
  have hPall := collectSwitches_pending M
  have hnd := collectSwitches_nodup M hM
  refine ⟨?_, ?_, ?_, ?_, ?_⟩
  · intro sw
    unfold collectBlock
    rw [hterm]
    simp
  · intro s hs e
    exact hnot (e ▸ List.mem_map_of_mem (fun s => s.parent) hs)
  · rw [splitSwitches_M]
    obtain ⟨F2, Z2, hF2, hZ2, hid, ht, _⟩ :=
      foldl_block_frame _ M hM hPall hnd fi F Z hF hZ Z.id (hM.2 Z hZall) hnot
    exact ⟨F2, Z2, hF2, hZ2, hid, (ht hnot).trans hterm⟩
  · rw [splitSwitches_M]
    exact foldl_allBlocks_length _ M hM hPall hnd
  · intro bD hbD hidD
    obtain ⟨fj, Fj, hFj, hbj⟩ := (mem_allBlocks_iff M bD).mp hbD
    rw [splitSwitches_M]
    obtain ⟨F2, b2, hF2, hb2, hid, _, hk⟩ :=
      foldl_block_frame _ M hM hPall hnd fj Fj bD hFj hbj Z.id (hM.2 Z hZall) hnot
    exact ⟨b2, (mem_allBlocks_iff _ b2).mpr ⟨fj, F2, hF2, hb2⟩, hid.trans hidD, hk⟩


/-- C6 at block 0 of `zeroCaseModule`, a switch without cases. -/
theorem C6_zero_case_untouched_witness :
    (zeroCaseModule.WF ∧
      (⟨0, [Inst.switch (Value.reg 0) 2 []]⟩ : BasicBlock).getTerminator
        = some (Inst.switch (Value.reg 0) 2 [])) ∧
    (splitSwitches (fun _ => false) zeroCaseModule).M.allBlocks.length
      = zeroCaseModule.allBlocks.length
        + ((collectSwitches zeroCaseModule).map (fun s => s.cases.length + 1)).sum :=
  ⟨⟨by decide, rfl⟩,
    (C6_zero_case_untouched (fun _ => false) zeroCaseModule (by decide) 0
      ⟨[⟨0, [Inst.switch (Value.reg 0) 2 []]⟩,
        ⟨1, [Inst.switch (Value.reg 1) 2 [⟨i32 7, 3⟩]]⟩,
        ⟨2, [Inst.phi [(Value.reg 2, 0), (Value.reg 3, 1)], Inst.ret]⟩,
        ⟨3, [Inst.phi [(Value.reg 4, 1)], Inst.ret]⟩]⟩
      ⟨0, [Inst.switch (Value.reg 0) 2 []]⟩ (Value.reg 0) 2 rfl
      (List.mem_cons_self _ _) rfl).2.2.2.1⟩

/-- C7: on the scenario module the pass adds exactly four blocks to the
function: `NewDefault` (block 5, a branch to `BlockD`, placed in front of it)
and three comparison links (blocks 8, 7, 6 for the cases 1, 2, 3); block 0 now
branches to the link of case 1; the phi of `BlockD` is keyed by `NewDefault`
and the phi of each of `BlockA`, `BlockB`, `BlockC` by the link of its own
case; and from block 0 the selector values 1, 2, 3 and 99 reach `BlockA`,
`BlockB`, `BlockC` and `BlockD`. -/
theorem C7_concrete_scenario (v : Module → Bool) :
    (splitSwitches v scenarioModule).M =
      { functions := [⟨[
          ⟨0, [Inst.other 0, Inst.br 8]⟩,
          ⟨1, [Inst.phi [(Value.reg 1, 8)], Inst.ret]⟩,
          ⟨2, [Inst.phi [(Value.reg 2, 7)], Inst.ret]⟩,
          ⟨3, [Inst.phi [(Value.reg 3, 6)], Inst.ret]⟩,
          ⟨5, [Inst.br 4]⟩,
          ⟨4, [Inst.phi [(Value.reg 4, 5)], Inst.ret]⟩,
          scenarioLink 6 3 3 5,
          scenarioLink 7 2 2 6,
          scenarioLink 8 1 1 7]⟩]
        nextBlock := 9 } ∧
    (splitSwitches v scenarioModule).M.allBlocks.length = scenarioModule.allBlocks.length + 4 ∧
    [1, 2, 3, 99].map (fun sel =>
        (splitSwitches v scenarioModule).M.runToOld (fun _ => sel) scenarioModule.nextBlock 5 0)
      = [some 1, some 2, some 3, some 4] := by
  have hM : (splitSwitches v scenarioModule).M =
      { functions := [⟨[
          ⟨0, [Inst.other 0, Inst.br 8]⟩,
          ⟨1, [Inst.phi [(Value.reg 1, 8)], Inst.ret]⟩,
          ⟨2, [Inst.phi [(Value.reg 2, 7)], Inst.ret]⟩,
          ⟨3, [Inst.phi [(Value.reg 3, 6)], Inst.ret]⟩,
          ⟨5, [Inst.br 4]⟩,
          ⟨4, [Inst.phi [(Value.reg 4, 5)], Inst.ret]⟩,
          scenarioLink 6 3 3 5,
          scenarioLink 7 2 2 6,
          scenarioLink 8 1 1 7]⟩]
        nextBlock := 9 } := rfl
  refine ⟨hM, rfl, ?_⟩
  rw [hM]
  decide


/-- C8: the worklist built by the scan of `splitSwitches` is the list the
collector contract describes: one entry for each block whose terminator is a
switch with at least one case and no other entry, in function order and,
within a function, in block order; each entry carries the operands of that
switch. The scan is a function of the module that yields only the worklist. -/
theorem C8_collector_contract (M : Module) :
    collectSwitches M = collectorSpec M ∧
    (collectSwitches M).map (fun s => (s.parentFn, s.parent))
      = M.functions.enum.flatMap (fun p =>
          (p.2.blocks.filter (fun b => b.hasCaseSwitch)).map (fun b => (p.1, b.id))) ∧
    (∀ s ∈ collectSwitches M, ∃ F, M.functions[s.parentFn]? = some F ∧
      ∃ b ∈ F.blocks, b.id = s.parent ∧ 1 ≤ s.cases.length ∧
        b.getTerminator = some (Inst.switch s.cond s.defaultDest s.cases)) := by
  refine ⟨collectSwitches_eq_spec M, ?_, ?_⟩
  · rw [collectSwitches_eq_spec]
    unfold collectorSpec
    rw [List.map_flatMap]
    congr 1
    funext p
    exact filterMap_switchEntry_ids p.1 p.2.blocks
  · intro s hs
    obtain ⟨F, hF, b, hb, h⟩ := (mem_collectSwitches M s).mp hs
    have h1 := switchEntry_some _ _ _ h
    exact ⟨F, hF, b, hb, h1.2.1.symm, h1.2.2.1, h1.2.2.2⟩

/-- C9 (the code at the failing input): `sharedTargetModule` has a terminator
at the end of every block, so the scan and the rewriting loop run through; in
the module the pass produces, the phi of block 1 has an entry for block 4 only
although blocks 4 and 5 both branch to block 1, and the verifier reports this
module as broken. Nevertheless `splitSwitches` and `runOnModule` complete and
return their usual results (the flag `true`, the rewritten module, the
messages), also with a verifier that reports every module as broken; and for
every module the results are the same whatever the verifier answers. -/
theorem C9_verdict_is_discarded :
    (sharedTargetModule.WF ∧ ∀ b ∈ sharedTargetModule.allBlocks, b.wellTerminated = true) ∧
    (splitSwitches phiVerifier sharedTargetModule).M
      = { functions := [⟨[
            ⟨0, [Inst.br 5]⟩,
            ⟨1, [Inst.phi [(Value.reg 1, 4)], Inst.ret]⟩,
            ⟨3, [Inst.br 2]⟩,
            ⟨2, [Inst.phi [(Value.reg 2, 3)], Inst.ret]⟩,
            scenarioLink 4 2 1 3,
            scenarioLink 5 1 1 4]⟩]
          nextBlock := 6 } ∧
    (splitSwitches phiVerifier sharedTargetModule).M.predecessors 1 = [4, 5] ∧
    phiVerifier (splitSwitches phiVerifier sharedTargetModule).M = true ∧
    splitSwitches phiVerifier sharedTargetModule
      = ⟨true, (splitSwitches phiVerifier sharedTargetModule).M, [Msg.rewriting 1]⟩ ∧
    runOnModule phiVerifier sharedTargetModule
      = ⟨true, (splitSwitches phiVerifier sharedTargetModule).M,
          [Msg.banner, Msg.rewriting 1]⟩ ∧
    runOnModule (fun _ => true) sharedTargetModule
      = ⟨true, (splitSwitches phiVerifier sharedTargetModule).M,
          [Msg.banner, Msg.rewriting 1]⟩ ∧
    (∀ (v1 v2 : Module → Bool) (M : Module),
      runOnModule v1 M = runOnModule v2 M ∧ splitSwitches v1 M = splitSwitches v2 M) := by
  refine ⟨⟨by decide, by decide⟩, by decide, by decide, by decide, rfl, rfl, rfl, ?_⟩
  intro v1 v2 M
  exact ⟨rfl, rfl⟩


/-- C10: `splitSwitches` returns true exactly when some block of the module
ends in a switch with at least one case, and then no block of the result ends
in such a switch any more; it returns false exactly when there is none, and
then the module is returned as it was. -/
theorem C10_return_value (v : Module → Bool) (M : Module) :
    ((splitSwitches v M).ret = true ↔ ∃ b ∈ M.allBlocks, b.hasCaseSwitch = true) ∧
    ((splitSwitches v M).ret = false ↔ ∀ b ∈ M.allBlocks, b.hasCaseSwitch = false) ∧
    ((splitSwitches v M).ret = true →
      ∀ b ∈ (splitSwitches v M).M.allBlocks, b.hasCaseSwitch = false) ∧
    ((splitSwitches v M).ret = false → (splitSwitches v M).M = M) := by
  have key : (splitSwitches v M).ret = false ↔ ∀ b ∈ M.allBlocks, b.hasCaseSwitch = false := by
    rw [← collectSwitches_eq_nil]
    unfold splitSwitches
    simp only
    split
    · rename_i h0
      simp [List.length_eq_zero.mp h0]
    · rename_i h0
      constructor
      · intro h; cases h
      · intro h; exact absurd (by simp [h]) h0
  refine ⟨?_, key, fun _ => splitSwitches_no_caseSwitch v M, ?_⟩
  · constructor
    · intro h
      by_contra hne
      have : ∀ b ∈ M.allBlocks, b.hasCaseSwitch = false := by
        intro b hb
        cases hh : b.hasCaseSwitch with
        | false => rfl
        | true => exact absurd ⟨b, hb, hh⟩ hne
      rw [key.mpr this] at h
      cases h
    · rintro ⟨b, hb, hh⟩
      cases hr : (splitSwitches v M).ret with
      | true => rfl
      | false =>
        rw [key.mp hr b hb] at hh
        cases hh
  · intro h
    unfold splitSwitches at h ⊢
    simp only at h ⊢
    split
    · rfl
    · rename_i h0
      rw [if_neg h0] at h
      cases h


/-! ## Predecessor counts after one rewrite -/

theorem cntNew_of_not_mem (n : Nat) (rc : List CaseExpr) (T P : Nat)
    (h : T ∉ rc.map (fun c => c.BB)) : cntNew n rc T P = 0 := by
  induction rc generalizing n with
  | nil => rfl
  | cons c rc ih =>
    simp only [List.map_cons, List.mem_cons, not_or] at h
    have hne : ¬ (c.BB = T ∧ n = P) := fun e => h.1 e.1.symm
    simp only [cntNew, if_neg hne, ih (n + 1) h.2]

theorem cntNew_le_one (n : Nat) (rc : List CaseExpr) (T P : Nat) : cntNew n rc T P ≤ 1 := by
  induction rc generalizing n with
  | nil => simp [cntNew]
  | cons c rc ih =>
    simp only [cntNew]
    by_cases h : c.BB = T ∧ n = P
    · rw [if_pos h, cntNew_of_lt (n + 1) rc T P (by omega)]
    · rw [if_neg h]
      have := ih (n + 1)
      omega

theorem cntNew_of_getElem? (n : Nat) (rc : List CaseExpr) (T j : Nat) (c : CaseExpr)
    (hj : rc[j]? = some c) (hc : c.BB = T) : cntNew n rc T (n + j) = 1 := by
  induction rc generalizing n j with
  | nil => simp at hj
  | cons a rc ih =>
    cases j with
    | zero =>
      simp only [List.getElem?_cons_zero, Option.some.injEq] at hj
      subst hj
      simp only [cntNew, Nat.add_zero, hc, and_self, if_true]
      rw [cntNew_of_lt (n + 1) rc T n (by omega)]
    | succ j =>
      simp only [List.getElem?_cons_succ] at hj
      have hne : ¬ (a.BB = T ∧ n = n + (j + 1)) := by omega
      simp only [cntNew, if_neg hne, Nat.zero_add]
      have := ih (n + 1) j hj
      rw [show n + 1 + j = n + (j + 1) by omega] at this
      exact this

/-- Edges into a pre-existing block `T` after one rewrite: the rewritten
block loses the edges of its switch, the chain blocks whose case targets `T`
and `NewDefault` (when `T` is the default destination) gain one each. -/
theorem predCount_splitSwitch (M : Module) (SI : SwitchInst) (hM : M.WF) (hP : Pending M SI)
    (P T : Nat) (hT : T < M.nextBlock) :
    predCount (splitSwitch M SI).allBlocks P T
        + (if P = SI.parent then (SI.defaultDest :: SI.cases.map (fun c => c.BB)).count T else 0)
      = predCount M.allBlocks P T + cntNew (M.nextBlock + 1) SI.cases.reverse T P
        + (if M.nextBlock = P then (if T = SI.defaultDest then 1 else 0) else 0) := by
  have hO := pending_lt M SI hM hP
  obtain ⟨hF, hc, bO, hbO, hidO, hlast⟩ := hP
  have hk : 1 ≤ SI.cases.length := by
    cases hcs : SI.cases with
    | nil => exact absurd hcs hc
    | cons _ _ => simp
  rw [predCount_perm _ _ (allBlocks_splitSwitch_perm M SI hc hO hF)]
  rw [predCount_append, predCount_cons, predCount_chain _ _ _ _ _ _ (by omega) hT]
  have hN0 : (if (⟨M.nextBlock, [Inst.br SI.defaultDest]⟩ : BasicBlock).id = P then
        (⟨M.nextBlock, [Inst.br SI.defaultDest]⟩ : BasicBlock).successors.count T else 0)
      = (if M.nextBlock = P then (if T = SI.defaultDest then 1 else 0) else 0) := by
    simp only [BasicBlock.successors, List.flatMap_cons, List.flatMap_nil, Inst.successors,
      List.append_nil, count_cons_if, List.count_nil, Nat.zero_add]
  rw [hN0]
  have hold : predCount (M.allBlocks.map (rewriteBlock SI M.nextBlock)) P T
        + (if P = SI.parent then (SI.defaultDest :: SI.cases.map (fun c => c.BB)).count T else 0)
      = predCount M.allBlocks P T := by
    by_cases hPO : P = SI.parent
    · rw [hPO, if_pos rfl]
      have hnd2 : ((M.allBlocks.map (rewriteBlock SI M.nextBlock)).map (fun b => b.id)).Nodup := by
        rw [rewriteBlock_ids]; exact hM.1
      have e1 := predCount_unique _ hnd2 (rewriteBlock SI M.nextBlock bO)
        (List.mem_map_of_mem _ hbO) T
      have e2 := predCount_unique _ hM.1 bO hbO T
      rw [rewriteBlock_id, hidO] at e1
      rw [hidO] at e2
      rw [e1, e2]
      have e3 := successors_rewriteBlock_parent SI M.nextBlock bO hidO hlast T
      have hhd : [chainHead (M.nextBlock + 1) M.nextBlock SI.cases.reverse].count T = 0 := by
        rw [chainHead_eq _ _ _ (by simpa using hc), count_cons_if, List.length_reverse]
        have : ¬ T = M.nextBlock + 1 + (SI.cases.length - 1) := by omega
        simp [this]
      omega
    · rw [if_neg hPO, Nat.add_zero]
      apply predCount_map
      intro b3 _
      refine ⟨rfl, fun e => ?_⟩
      rw [successors_rewriteBlock_of_ne SI _ b3 (by rw [e]; exact hPO)]
  omega

/-- The targets of a pending switch have its block as predecessor. -/
theorem predCount_pending_pos (M : Module) (SI : SwitchInst) (hM : M.WF) (hP : Pending M SI)
    (T : Nat) (hT : T ∈ SI.defaultDest :: SI.cases.map (fun c => c.BB)) :
    0 < predCount M.allBlocks SI.parent T := by
  obtain ⟨_, _, bO, hbO, hidO, hlast⟩ := hP
  rw [← hidO, predCount_unique _ hM.1 bO hbO T]
  have h2 := successors_of_getLast? bO.id bO.insts _ hlast
  simp only [Inst.successors] at h2
  rw [show bO.successors = (⟨bO.id, bO.insts⟩ : BasicBlock).successors from rfl, h2,
    List.count_append]
  have := List.count_pos_iff.mpr hT
  omega

theorem predecessors_eq_nil_iff (M : Module) (T : Nat) :
    M.predecessors T = [] ↔ ∀ P, predCount M.allBlocks P T = 0 := by
  constructor
  · intro h P
    rw [← count_predecessors, h]
    rfl
  · intro h
    rw [List.eq_nil_iff_forall_not_mem]
    intro P hP
    have := List.count_pos_iff.mpr hP
    rw [count_predecessors, h P] at this
    omega

theorem insertBefore_split (D : Nat) (l : List BasicBlock)
    (hD : D ∈ l.map (fun b => b.id)) :
    ∃ pre b post, l = pre ++ b :: post ∧ b.id = D ∧ (∀ x ∈ pre, x.id ≠ D) ∧
      ∀ N, insertBefore D N l = pre ++ N :: b :: post := by
  induction l with
  | nil => simp at hD
  | cons a l ih =>
    by_cases ha : a.id = D
    · refine ⟨[], a, l, rfl, ha, by simp, ?_⟩
      intro N
      simp [insertBefore, ha]
    · simp only [List.map_cons, List.mem_cons] at hD
      have hD2 : D ∈ l.map (fun b => b.id) := by
        rcases hD with h | h
        · exact absurd h.symm ha
        · exact h
      obtain ⟨pre, b, post, hl, hb, hpre, hins⟩ := ih hD2
      refine ⟨a :: pre, b, post, by rw [hl]; rfl, hb, ?_, ?_⟩
      · intro x hx
        simp only [List.mem_cons] at hx
        rcases hx with rfl | hx
        · exact ha
        · exact hpre x hx
      · intro N
        simp only [insertBefore, if_neg ha, hins N, List.cons_append]


/-! ## The first block of a function -/

/-- One rewrite keeps a first block without predecessors first and without
predecessors. -/
theorem splitSwitch_entry (M : Module) (SI : SwitchInst) (hM : M.WF) (hP : Pending M SI)
    (fi : Nat) (e : BasicBlock) (rest : List BasicBlock)
    (hF : M.functions[fi]? = some ⟨e :: rest⟩)
    (hpred : ∀ P, predCount M.allBlocks P e.id = 0) :
    (∃ e2 rest2, (splitSwitch M SI).functions[fi]? = some ⟨e2 :: rest2⟩ ∧ e2.id = e.id) ∧
    ∀ P, predCount (splitSwitch M SI).allBlocks P e.id = 0 := by
  have hO := pending_lt M SI hM hP
  have he : e ∈ M.allBlocks := (mem_allBlocks_iff M e).mpr ⟨fi, _, hF, by simp⟩
  have hE : e.id < M.nextBlock := hM.2 e he
  have hnot : e.id ∉ SI.defaultDest :: SI.cases.map (fun c => c.BB) := by
    intro h
    have := predCount_pending_pos M SI hM hP e.id h
    rw [hpred] at this
    omega
  have hcnt0 : (SI.defaultDest :: SI.cases.map (fun c => c.BB)).count e.id = 0 :=
    List.count_eq_zero.mpr hnot
  simp only [List.mem_cons, not_or] at hnot
  constructor
  · rw [splitSwitch_getElem? M SI hP.2.1 hO, hF]
    simp only [Option.map_some', List.map_cons]
    split
    · refine ⟨rewriteBlock SI M.nextBlock e,
        insertBefore SI.defaultDest ⟨M.nextBlock, [Inst.br SI.defaultDest]⟩
            (rest.map (rewriteBlock SI M.nextBlock))
          ++ chainBlocks SI.cond (M.nextBlock + 1) M.nextBlock SI.cases.reverse, ?_, rfl⟩
      simp only [insertBefore, rewriteBlock_id, if_neg hnot.1, List.cons_append]
    · exact ⟨rewriteBlock SI M.nextBlock e, _, rfl, rfl⟩
  · intro P
    have h := predCount_splitSwitch M SI hM hP P e.id hE
    rw [hcnt0, hpred P, cntNew_of_not_mem _ _ _ _
      (by rw [List.map_reverse, List.mem_reverse]; exact hnot.2), if_neg hnot.1] at h
    simp only [ite_self, Nat.add_zero] at h
    exact h

theorem foldl_entry (sw : List SwitchInst) (M : Module) (hM : M.WF)
    (hP : ∀ t ∈ sw, Pending M t) (hnd : (sw.map (fun t => t.parent)).Nodup)
    (fi : Nat) (e : BasicBlock) (rest : List BasicBlock)
    (hF : M.functions[fi]? = some ⟨e :: rest⟩)
    (hpred : ∀ P, predCount M.allBlocks P e.id = 0) :
    (∃ e2 rest2, (sw.foldl splitSwitch M).functions[fi]? = some ⟨e2 :: rest2⟩ ∧ e2.id = e.id) ∧
    ∀ P, predCount (sw.foldl splitSwitch M).allBlocks P e.id = 0 := by
  induction sw generalizing M e rest with
  | nil => exact ⟨⟨e, rest, hF, rfl⟩, hpred⟩
  | cons s sw ih =>
    rw [List.foldl_cons]
    obtain ⟨hM1, hP1, hnd1⟩ := foldl_state_step M s sw hM hP hnd
    obtain ⟨⟨e1, rest1, hF1, hid1⟩, hpred1⟩ :=
      splitSwitch_entry M s hM (hP s (by simp)) fi e rest hF hpred
    have := ih _ hM1 hP1 hnd1 e1 rest1 hF1 (by rw [hid1]; exact hpred1)
    rw [hid1] at this
    exact this


/-! ## The rewrite as a map over the phi entries -/

theorem mapPhi_comp (g f : List (Value × Nat) → List (Value × Nat)) (I : Inst) :
    mapPhi g (mapPhi f I) = mapPhi (fun inc => g (f inc)) I := by
  cases I <;> rfl

theorem mapPhi_id (I : Inst) : mapPhi (fun inc => inc) I = I := by
  cases I <;> rfl

theorem updatePhis_eq_map (O X : Nat) (insts : List Inst) :
    updatePhis O X insts = insts.map (mapPhi (setFirstIncoming O X)) := by
  unfold updatePhis
  apply List.map_congr_left
  intro I _
  cases I <;> rfl

theorem chainPhis_eq_map (O : Nat) (rc : List CaseExpr) (n id : Nat) (insts : List Inst) :
    chainPhis O n rc id insts = insts.map (mapPhi (chainIncoming O n rc id)) := by
  induction rc generalizing n insts with
  | nil =>
    simp only [chainPhis]
    conv => lhs; rw [← List.map_id insts]
    apply List.map_congr_left
    intro I _
    cases I <;> rfl
  | cons c rc ih =>
    simp only [chainPhis]
    rw [ih]
    split
    · rename_i h
      rw [updatePhis_eq_map, List.map_map]
      apply List.map_congr_left
      intro I _
      simp only [Function.comp, mapPhi_comp]
      cases I <;> simp [mapPhi, chainIncoming, h]
    · rename_i h
      apply List.map_congr_left
      intro I _
      cases I <;> simp [mapPhi, chainIncoming, h]

theorem rewriteInsts_of_ne (SI : SwitchInst) (n id : Nat) (insts : List Inst)
    (hne : id ≠ SI.parent) :
    rewriteInsts SI n id insts = insts.map (mapPhi (rewriteIncoming SI n id)) := by
  unfold rewriteInsts
  simp only [if_neg hne]
  rw [chainPhis_eq_map]
  split
  · rename_i h
    rw [updatePhis_eq_map, List.map_map]
    apply List.map_congr_left
    intro I _
    simp only [Function.comp, mapPhi_comp]
    cases I <;> simp [mapPhi, rewriteIncoming, h]
  · rename_i h
    apply List.map_congr_left
    intro I _
    cases I <;> simp [mapPhi, rewriteIncoming, h]

theorem map_spliceIn (g : Inst → Inst) (hd : Nat) (hg : g (Inst.br hd) = Inst.br hd)
    (insts : List Inst) : (spliceIn hd insts).map g = spliceIn hd (insts.map g) := by
  by_cases hne : insts = []
  · subst hne; rfl
  · rw [spliceIn_eq hd insts hne, spliceIn_eq hd _ (by simpa using hne)]
    simp [hg]

theorem rewriteInsts_parent (SI : SwitchInst) (n id : Nat) (insts : List Inst)
    (he : id = SI.parent) (hne : insts ≠ []) :
    rewriteInsts SI n id insts
      = insts.dropLast.map (mapPhi (rewriteIncoming SI n id))
        ++ [Inst.br (chainHead (n + 1) n SI.cases.reverse)] := by
  unfold rewriteInsts
  simp only [if_pos he]
  rw [chainPhis_eq_map, spliceIn_eq _ _ (by simpa using hne), ← List.map_dropLast]
  split
  · rename_i h
    rw [updatePhis_eq_map, List.map_append, List.map_map]
    congr 1
    apply List.map_congr_left
    intro I _
    simp only [Function.comp, mapPhi_comp]
    cases I <;> simp [mapPhi, rewriteIncoming, h]
  · rename_i h
    congr 1
    apply List.map_congr_left
    intro I _
    cases I <;> simp [mapPhi, rewriteIncoming, h]

theorem keys_chainIncoming (O : Nat) (rc : List CaseExpr) (n id : Nat)
    (inc : List (Value × Nat)) :
    (chainIncoming O n rc id inc).map (fun e => e.2)
      = chainKeys O n rc id (inc.map (fun e => e.2)) := by
  induction rc generalizing n inc with
  | nil => rfl
  | cons c rc ih =>
    simp only [chainIncoming, chainKeys]
    rw [ih]
    split
    · rw [map_snd_setFirstIncoming]
    · rfl

theorem keys_rewriteIncoming (SI : SwitchInst) (n id : Nat) (inc : List (Value × Nat)) :
    (rewriteIncoming SI n id inc).map (fun e => e.2)
      = rewriteKeys SI n id (inc.map (fun e => e.2)) := by
  unfold rewriteIncoming rewriteKeys
  simp only
  split
  · rw [map_snd_setFirstIncoming, keys_chainIncoming]
  · exact keys_chainIncoming _ _ _ _ _

theorem phiIncoming_append (l1 l2 : List Inst) :
    phiIncoming (l1 ++ l2) = phiIncoming l1 ++ phiIncoming l2 := by
  induction l1 with
  | nil => rfl
  | cons I l1 ih => cases I <;> simp [phiIncoming, ih]

theorem phiIncoming_map (g : List (Value × Nat) → List (Value × Nat)) (insts : List Inst) :
    phiIncoming (insts.map (mapPhi g)) = (phiIncoming insts).map g := by
  induction insts with
  | nil => rfl
  | cons I insts ih => cases I <;> simp [phiIncoming, mapPhi, ih]

theorem phiIncoming_dropLast (insts : List Inst) (c : Value) (d : Nat) (cs : List CaseExpr)
    (h : insts.getLast? = some (Inst.switch c d cs)) :
    phiIncoming insts.dropLast = phiIncoming insts := by
  conv => rhs; rw [eq_dropLast_append_of_getLast? insts _ h]
  simp [phiIncoming_append, phiIncoming]

/-- The phis of a pre-existing block after one rewrite. -/
theorem phiIncoming_rewriteInsts (SI : SwitchInst) (n id : Nat) (insts : List Inst)
    (h : id = SI.parent →
      insts.getLast? = some (Inst.switch SI.cond SI.defaultDest SI.cases)) :
    phiIncoming (rewriteInsts SI n id insts)
      = (phiIncoming insts).map (rewriteIncoming SI n id) := by
  by_cases he : id = SI.parent
  · have hl := h he
    have hne : insts ≠ [] := by
      intro e; rw [e] at hl; simp at hl
    rw [rewriteInsts_parent SI n id insts he hne, phiIncoming_append, phiIncoming_map,
      phiIncoming_dropLast insts _ _ _ hl]
    simp [phiIncoming]
  · rw [rewriteInsts_of_ne SI n id insts he, phiIncoming_map]

/-! ## Frames -/

theorem forall₂_trans_of {α : Type} (R : α → α → Prop)
    (ht : ∀ a b c, R a b → R b c → R a c) :
    ∀ (l1 l2 l3 : List α), List.Forall₂ R l1 l2 → List.Forall₂ R l2 l3 → List.Forall₂ R l1 l3 := by
  intro l1 l2 l3 h12
  induction h12 generalizing l3 with
  | nil => intro h; cases h; exact List.Forall₂.nil
  | cons hab _ ih =>
    intro h
    cases h with
    | cons hbc htl => exact List.Forall₂.cons (ht _ _ _ hab hbc) (ih _ htl)

theorem entryFrame_refl (S : Nat → Prop) (n : Nat) (e : Value × Nat) : EntryFrame S n e e :=
  ⟨rfl, fun h => absurd rfl h⟩

theorem entryFrame_trans (S : Nat → Prop) (n : Nat) (a b c : Value × Nat)
    (h1 : EntryFrame S n a b) (h2 : EntryFrame S n b c) : EntryFrame S n a c := by
  refine ⟨h2.1.trans h1.1, fun hne => ?_⟩
  by_cases hab : b.2 = a.2
  · have := h2.2 (by rw [hab]; exact hne)
    rw [hab] at this
    exact this
  · have h3 := h1.2 hab
    refine ⟨h3.1, ?_⟩
    by_cases hbc : c.2 = b.2
    · rw [hbc]; exact h3.2
    · exact (h2.2 hbc).2

theorem entryFrame_mono (S S2 : Nat → Prop) (n n2 : Nat) (hS : ∀ x, S x → S2 x) (hn : n2 ≤ n)
    (e e2 : Value × Nat) (h : EntryFrame S n e e2) : EntryFrame S2 n2 e e2 :=
  ⟨h.1, fun hne => ⟨hS _ (h.2 hne).1, Nat.le_trans hn (h.2 hne).2⟩⟩

theorem frame_setFirstIncoming (S : Nat → Prop) (n O X : Nat) (hS : S O) (hX : n ≤ X)
    (inc : List (Value × Nat)) :
    List.Forall₂ (EntryFrame S n) inc (setFirstIncoming O X inc) := by
  induction inc with
  | nil => exact List.Forall₂.nil
  | cons e inc ih =>
    obtain ⟨v, b⟩ := e
    simp only [setFirstIncoming]
    split
    · rename_i hb
      refine List.Forall₂.cons ⟨rfl, fun _ => ?_⟩ (List.forall₂_same.mpr fun x _ => entryFrame_refl S n x)
      simp only [hb]
      exact ⟨hS, hX⟩
    · exact List.Forall₂.cons (entryFrame_refl S n _) ih

theorem frame_chainIncoming (S : Nat → Prop) (n0 O : Nat) (hS : S O) (rc : List CaseExpr)
    (n id : Nat) (hn : n0 ≤ n) (inc : List (Value × Nat)) :
    List.Forall₂ (EntryFrame S n0) inc (chainIncoming O n rc id inc) := by
  induction rc generalizing n inc with
  | nil => exact List.forall₂_same.mpr fun x _ => entryFrame_refl S n0 x
  | cons c rc ih =>
    simp only [chainIncoming]
    split
    · exact forall₂_trans_of _ (entryFrame_trans S n0) _ _ _
        (frame_setFirstIncoming S n0 O n hS hn inc) (ih (n + 1) (by omega) _)
    · exact ih (n + 1) (by omega) inc

theorem frame_rewriteIncoming (SI : SwitchInst) (n id : Nat) (inc : List (Value × Nat)) :
    List.Forall₂ (EntryFrame (fun x => x = SI.parent) n) inc (rewriteIncoming SI n id inc) := by
  unfold rewriteIncoming
  simp only
  have h1 := frame_chainIncoming (fun x => x = SI.parent) n SI.parent rfl SI.cases.reverse
    (n + 1) id (by omega) inc
  split
  · exact forall₂_trans_of _ (entryFrame_trans _ n) _ _ _ h1
      (frame_setFirstIncoming (fun x => x = SI.parent) n SI.parent n rfl (Nat.le_refl _) _)
  · exact h1

theorem instFrame_refl (S : Nat → Prop) (n : Nat) (I : Inst) : InstFrame S n I I := by
  by_cases h : ∃ inc, I = Inst.phi inc
  · obtain ⟨inc, rfl⟩ := h
    exact Or.inl ⟨inc, inc, rfl, rfl, List.forall₂_same.mpr fun x _ => entryFrame_refl S n x⟩
  · exact Or.inr ⟨fun inc e => h ⟨inc, e⟩, rfl⟩

theorem instFrame_trans (S : Nat → Prop) (n : Nat) (a b c : Inst)
    (h1 : InstFrame S n a b) (h2 : InstFrame S n b c) : InstFrame S n a c := by
  rcases h1 with ⟨i1, i2, rfl, rfl, hf1⟩ | ⟨hn1, rfl⟩
  · rcases h2 with ⟨j1, j2, e, rfl, hf2⟩ | ⟨hn2, rfl⟩
    · simp only [Inst.phi.injEq] at e
      subst e
      exact Or.inl ⟨i1, j2, rfl, rfl, forall₂_trans_of _ (entryFrame_trans S n) _ _ _ hf1 hf2⟩
    · exact absurd rfl (hn2 i2)
  · exact h2

theorem instFrame_mono (S S2 : Nat → Prop) (n n2 : Nat) (hS : ∀ x, S x → S2 x) (hn : n2 ≤ n)
    (I I2 : Inst) (h : InstFrame S n I I2) : InstFrame S2 n2 I I2 := by
  rcases h with ⟨i1, i2, e1, e2, hf⟩ | h
  · exact Or.inl ⟨i1, i2, e1, e2,
      List.Forall₂.imp (fun a b hab => entryFrame_mono S S2 n n2 hS hn a b hab) hf⟩
  · exact Or.inr h

theorem instFrame_mapPhi (S : Nat → Prop) (n : Nat)
    (g : List (Value × Nat) → List (Value × Nat))
    (hg : ∀ inc, List.Forall₂ (EntryFrame S n) inc (g inc)) (I : Inst) :
    InstFrame S n I (mapPhi g I) := by
  by_cases h : ∃ inc, I = Inst.phi inc
  · obtain ⟨inc, rfl⟩ := h
    exact Or.inl ⟨inc, g inc, rfl, rfl, hg inc⟩
  · refine Or.inr ⟨fun inc e => h ⟨inc, e⟩, ?_⟩
    cases I <;> first | rfl | exact absurd ⟨_, rfl⟩ h

theorem instFrame_map (S : Nat → Prop) (n : Nat)
    (g : List (Value × Nat) → List (Value × Nat))
    (hg : ∀ inc, List.Forall₂ (EntryFrame S n) inc (g inc)) (insts : List Inst) :
    List.Forall₂ (InstFrame S n) insts (insts.map (mapPhi g)) := by
  rw [List.forall₂_map_right_iff, List.forall₂_same]
  intro I _
  exact instFrame_mapPhi S n g hg I


theorem pending_getLast? (M : Module) (SI : SwitchInst) (hM : M.WF) (hP : Pending M SI)
    (b : BasicBlock) (hb : b ∈ M.allBlocks) (he : b.id = SI.parent) :
    b.insts.getLast? = some (Inst.switch SI.cond SI.defaultDest SI.cases) := by
  obtain ⟨_, _, bO, hbO, hidO, hlast⟩ := hP
  have : b = bO := eq_of_mem_of_id_eq _ hM.1 b bO hb hbO (he.trans hidO.symm)
  rw [this]; exact hlast

theorem chainIncoming_of_not_mem (O : Nat) (rc : List CaseExpr) (n id : Nat)
    (inc : List (Value × Nat)) (h : id ∉ rc.map (fun c => c.BB)) :
    chainIncoming O n rc id inc = inc := by
  induction rc generalizing n with
  | nil => rfl
  | cons c rc ih =>
    simp only [List.map_cons, List.mem_cons, not_or] at h
    simp only [chainIncoming, if_neg h.1]
    exact ih (n + 1) h.2

theorem rewriteIncoming_of_not_target (SI : SwitchInst) (n id : Nat)
    (inc : List (Value × Nat)) (hD : id ≠ SI.defaultDest)
    (hc : id ∉ SI.cases.map (fun c => c.BB)) : rewriteIncoming SI n id inc = inc := by
  unfold rewriteIncoming
  simp only [if_neg hD]
  exact chainIncoming_of_not_mem _ _ _ _ _
    (by rw [List.map_reverse, List.mem_reverse]; exact hc)

/-- The block of the module after one rewrite that has the identity of a
pre-existing block is the rewritten block. -/
theorem findBlock_splitSwitch (M : Module) (SI : SwitchInst) (hM : M.WF) (hP : Pending M SI)
    (b : BasicBlock) (hb : b ∈ M.allBlocks) :
    (splitSwitch M SI).findBlock b.id = some (rewriteBlock SI M.nextBlock b) := by
  have hO := pending_lt M SI hM hP
  have hM1 := splitSwitch_WF M SI hP.2.1 hO hP.1 hM
  exact findBlock_of_mem _ hM1 _ (mem_splitSwitch_old M SI hP.2.1 hO hP.1 b hb)

/-- The blocks of the module after one rewrite. -/
theorem mem_splitSwitch_cases (M : Module) (SI : SwitchInst) (hM : M.WF) (hP : Pending M SI)
    (b2 : BasicBlock) (hb2 : b2 ∈ (splitSwitch M SI).allBlocks) :
    b2 = ⟨M.nextBlock, [Inst.br SI.defaultDest]⟩ ∨
    b2 ∈ chainBlocks SI.cond (M.nextBlock + 1) M.nextBlock SI.cases.reverse ∨
    ∃ b ∈ M.allBlocks, b2 = rewriteBlock SI M.nextBlock b := by
  have hO := pending_lt M SI hM hP
  rw [(allBlocks_splitSwitch_perm M SI hP.2.1 hO hP.1).mem_iff, List.mem_append,
    List.mem_cons, List.mem_map] at hb2
  rcases hb2 with (h | h) | ⟨b, hb, h⟩
  · exact Or.inl h
  · exact Or.inr (Or.inl h)
  · exact Or.inr (Or.inr ⟨b, hb, h.symm⟩)


/-! ## Properties of all blocks across the pass -/

theorem forall_mapInsts (P : BasicBlock → Prop) (BB : Nat) (g : List Inst → List Inst)
    (hg : ∀ b, P b → P ⟨b.id, g b.insts⟩) (M : Module) (h : ∀ b ∈ M.allBlocks, P b) :
    ∀ b ∈ (M.mapInsts BB g).allBlocks, P b := by
  intro b hb
  rw [allBlocks_mapInsts, List.mem_map] at hb
  obtain ⟨b1, hb1, rfl⟩ := hb
  unfold BasicBlock.mapIf
  split
  · exact hg b1 (h b1 hb1)
  · exact h b1 hb1

theorem forall_chainLoop (P : BasicBlock → Prop)
    (hupd : ∀ b O X, P b → P ⟨b.id, updatePhis O X b.insts⟩)
    (hlink : ∀ id Val c t nx, P ⟨id, [Inst.icmp Val c, Inst.condBr t nx (Value.icmpEq Val c)]⟩)
    (F O : Nat) (Val : Value) (rc : List CaseExpr) (next : Nat) (M : Module)
    (h : ∀ b ∈ M.allBlocks, P b) :
    ∀ b ∈ (rc.foldl (switchConvertStep F O Val) (next, M)).2.allBlocks, P b := by
  induction rc generalizing next M with
  | nil => exact h
  | cons c rc ih =>
    rw [List.foldl_cons]
    apply ih
    apply forall_mapInsts P _ _ (fun b hb => hupd b _ _ hb)
    intro b hb
    rcases mem_allBlocks_appendBlock M F _ b hb with h1 | h1
    · exact h b h1
    · rw [h1]; exact hlink _ _ _ _ _

/-- A property of blocks that the primitive operations of a rewrite keep, and
that the created blocks have, holds of all blocks after the rewrite. -/
theorem forall_splitSwitch (P : BasicBlock → Prop)
    (hupd : ∀ b O X, P b → P ⟨b.id, updatePhis O X b.insts⟩)
    (hspl : ∀ b hd, P b → P ⟨b.id, spliceIn hd b.insts⟩)
    (hnew : ∀ id D, P ⟨id, [Inst.br D]⟩)
    (hlink : ∀ id Val c t nx, P ⟨id, [Inst.icmp Val c, Inst.condBr t nx (Value.icmpEq Val c)]⟩)
    (M : Module) (SI : SwitchInst) (h : ∀ b ∈ M.allBlocks, P b) :
    ∀ b ∈ (splitSwitch M SI).allBlocks, P b := by
  unfold splitSwitch
  split
  · exact h
  · simp only
    apply forall_mapInsts P _ _ (fun b hb => hupd b _ _ hb)
    apply forall_mapInsts P _ _ (fun b hb => hspl b _ hb)
    apply forall_chainLoop P hupd hlink
    intro b hb
    rcases mem_allBlocks_insertInto M _ _ _ b hb with h1 | h1
    · exact h b h1
    · rw [h1]; exact hnew _ _

theorem forall_foldl_splitSwitch (P : BasicBlock → Prop)
    (hupd : ∀ b O X, P b → P ⟨b.id, updatePhis O X b.insts⟩)
    (hspl : ∀ b hd, P b → P ⟨b.id, spliceIn hd b.insts⟩)
    (hnew : ∀ id D, P ⟨id, [Inst.br D]⟩)
    (hlink : ∀ id Val c t nx, P ⟨id, [Inst.icmp Val c, Inst.condBr t nx (Value.icmpEq Val c)]⟩)
    (sw : List SwitchInst) (M : Module) (h : ∀ b ∈ M.allBlocks, P b) :
    ∀ b ∈ (sw.foldl splitSwitch M).allBlocks, P b := by
  induction sw generalizing M with
  | nil => exact h
  | cons s sw ih =>
    rw [List.foldl_cons]
    exact ih _ (forall_splitSwitch P hupd hspl hnew hlink M s h)

theorem isTerminator_mapPhi (g : List (Value × Nat) → List (Value × Nat)) (I : Inst) :
    (mapPhi g I).isTerminator = I.isTerminator := by
  cases I <;> rfl

theorem wellTerminated_updatePhis (b : BasicBlock) (O X : Nat)
    (h : b.wellTerminated = true) :
    (⟨b.id, updatePhis O X b.insts⟩ : BasicBlock).wellTerminated = true := by
  unfold BasicBlock.wellTerminated at h ⊢
  simp only [updatePhis_eq_map, List.getLast?_map, ← List.map_dropLast, List.all_map]
  cases hl : b.insts.getLast? with
  | none => rw [hl] at h; simp at h
  | some I =>
    rw [hl] at h
    have hc : ((fun J : Inst => !J.isTerminator) ∘ mapPhi (setFirstIncoming O X))
        = (fun J : Inst => !J.isTerminator) := by
      funext J
      simp only [Function.comp, isTerminator_mapPhi]
    simp only [Option.map_some', isTerminator_mapPhi, hc] at h ⊢
    exact h

theorem wellTerminated_spliceIn (b : BasicBlock) (hd : Nat) (h : b.wellTerminated = true) :
    (⟨b.id, spliceIn hd b.insts⟩ : BasicBlock).wellTerminated = true := by
  unfold BasicBlock.wellTerminated at h ⊢
  have hne : b.insts ≠ [] := by
    intro e; rw [e] at h; simp at h
  cases hl : b.insts.getLast? with
  | none => rw [hl] at h; simp at h
  | some I =>
    rw [hl] at h
    simp only [Bool.and_eq_true] at h
    simp only [spliceIn_eq hd b.insts hne, List.getLast?_concat, List.dropLast_concat,
      Inst.isTerminator, Bool.true_and]
    exact h.2

theorem wellTerminated_foldl (sw : List SwitchInst) (M : Module)
    (h : ∀ b ∈ M.allBlocks, b.wellTerminated = true) :
    ∀ b ∈ (sw.foldl splitSwitch M).allBlocks, b.wellTerminated = true :=
  forall_foldl_splitSwitch (fun b => b.wellTerminated = true)
    (fun b O X hb => wellTerminated_updatePhis b O X hb)
    (fun b hd hb => wellTerminated_spliceIn b hd hb)
    (fun _ _ => rfl) (fun _ _ _ _ _ => rfl) sw M h

/-! ## Instructions of a block across the pass -/

theorem forall₂_append_of {α : Type} (R : α → α → Prop) (l1 l2 m1 m2 : List α)
    (h1 : List.Forall₂ R l1 l2) (h2 : List.Forall₂ R m1 m2) :
    List.Forall₂ R (l1 ++ m1) (l2 ++ m2) := by
  induction h1 with
  | nil => exact h2
  | cons hab _ ih => exact List.Forall₂.cons hab ih

/-- Across one rewrite, the instructions of a block other than the rewritten
one are the same up to the incoming blocks of phi entries that named the
rewritten block. -/
theorem splitSwitch_insts_frame (M : Module) (SI : SwitchInst) (hM : M.WF) (hP : Pending M SI)
    (S : Nat → Prop) (bound : Nat) (hS : S SI.parent) (hb : bound ≤ M.nextBlock)
    (b : BasicBlock) (hbm : b ∈ M.allBlocks) (hne : b.id ≠ SI.parent) :
    ∃ b2 ∈ (splitSwitch M SI).allBlocks, b2.id = b.id ∧
      List.Forall₂ (InstFrame S bound) b.insts b2.insts := by
  have hO := pending_lt M SI hM hP
  refine ⟨rewriteBlock SI M.nextBlock b, mem_splitSwitch_old M SI hP.2.1 hO hP.1 b hbm, rfl, ?_⟩
  simp only [rewriteBlock]
  rw [rewriteInsts_of_ne SI _ _ _ hne]
  apply instFrame_map
  intro inc
  exact List.Forall₂.imp
    (fun a c hac => entryFrame_mono (fun x => x = SI.parent) S _ bound
      (fun x (hx : x = SI.parent) => hx ▸ hS) hb a c hac)
    (frame_rewriteIncoming SI M.nextBlock b.id inc)

theorem foldl_insts_frame (sw : List SwitchInst) (M : Module) (hM : M.WF)
    (hP : ∀ t ∈ sw, Pending M t) (hnd : (sw.map (fun t => t.parent)).Nodup)
    (S : Nat → Prop) (bound : Nat) (hS : ∀ t ∈ sw, S t.parent) (hb : bound ≤ M.nextBlock)
    (b : BasicBlock) (hbm : b ∈ M.allBlocks) (hne : b.id ∉ sw.map (fun t => t.parent)) :
    ∃ b2 ∈ (sw.foldl splitSwitch M).allBlocks, b2.id = b.id ∧
      List.Forall₂ (InstFrame S bound) b.insts b2.insts := by
  induction sw generalizing M b with
  | nil => exact ⟨b, hbm, rfl, List.forall₂_same.mpr fun I _ => instFrame_refl S bound I⟩
  | cons s sw ih =>
    rw [List.foldl_cons]
    obtain ⟨hM1, hP1, hnd1⟩ := foldl_state_step M s sw hM hP hnd
    simp only [List.map_cons, List.mem_cons, not_or] at hne
    obtain ⟨b1, hb1, hid1, hf1⟩ := splitSwitch_insts_frame M s hM (hP s (by simp)) S bound
      (hS s (by simp)) hb b hbm hne.1
    obtain ⟨b2, hb2, hid2, hf2⟩ := ih _ hM1 hP1 hnd1 (fun t ht => hS t (by simp [ht]))
      (Nat.le_trans hb (splitSwitch_nextBlock_le M s)) b1 hb1 (by rw [hid1]; exact hne.2)
    exact ⟨b2, hb2, hid2.trans hid1,
      forall₂_trans_of _ (instFrame_trans S bound) _ _ _ hf1 hf2⟩

/-- The rewritten block right after its rewrite: its former instructions
without the switch, up to phi entries that named it, followed by a branch to
the comparison block of the first case. -/
theorem splitSwitch_origBlock (M : Module) (SI : SwitchInst) (hM : M.WF) (hP : Pending M SI)
    (S : Nat → Prop) (bound : Nat) (hS : S SI.parent) (hb : bound ≤ M.nextBlock)
    (bO : BasicBlock) (hbO : bO ∈ M.allBlocks) (hid : bO.id = SI.parent) :
    ∃ b2 ∈ (splitSwitch M SI).allBlocks, ∃ hd c0 nx, b2.id = SI.parent ∧
      List.Forall₂ (InstFrame S bound) (bO.insts.dropLast ++ [Inst.br hd]) b2.insts ∧
      bound ≤ hd ∧ SI.cases.head? = some c0 ∧
      (⟨hd, [Inst.icmp SI.cond c0.Val, Inst.condBr c0.BB nx (Value.icmpEq SI.cond c0.Val)]⟩
        : BasicBlock) ∈ (splitSwitch M SI).allBlocks := by
  have hO := pending_lt M SI hM hP
  have hlast := pending_getLast? M SI hM hP bO hbO hid
  have hne : bO.insts ≠ [] := by
    intro e; rw [e] at hlast; simp at hlast
  obtain ⟨c0, hc0⟩ : ∃ c0, SI.cases.head? = some c0 := by
    cases hcs : SI.cases with
    | nil => exact absurd hcs hP.2.1
    | cons c _ => exact ⟨c, rfl⟩
  have hk : 1 ≤ SI.cases.length := by
    cases hcs : SI.cases with
    | nil => exact absurd hcs hP.2.1
    | cons _ _ => simp
  have hget : SI.cases.reverse[SI.cases.length - 1]? = some c0 := by
    rw [List.getElem?_reverse (by omega)]
    have : SI.cases.length - 1 - (SI.cases.length - 1) = 0 := by omega
    rw [this]
    cases hcs : SI.cases with
    | nil => exact absurd hcs hP.2.1
    | cons c cs => rw [hcs] at hc0; simpa using hc0
  have hg := chainBlocks_getElem? SI.cond SI.cases.reverse (M.nextBlock + 1) M.nextBlock
    (SI.cases.length - 1)
  rw [hget] at hg
  simp only [Option.map_some'] at hg
  have hhd : chainHead (M.nextBlock + 1) M.nextBlock SI.cases.reverse
      = M.nextBlock + 1 + (SI.cases.length - 1) := by
    rw [chainHead_eq _ _ _ (by simpa using hP.2.1), List.length_reverse]
  refine ⟨rewriteBlock SI M.nextBlock bO, mem_splitSwitch_old M SI hP.2.1 hO hP.1 bO hbO,
    M.nextBlock + 1 + (SI.cases.length - 1), c0, _, hid, ?_, by omega, hc0,
    mem_splitSwitch_chain M SI hP.2.1 hO hP.1 _ (List.mem_iff_getElem?.mpr ⟨_, hg⟩)⟩
  simp only [rewriteBlock]
  rw [rewriteInsts_parent SI _ _ _ hid hne, hhd]
  apply forall₂_append_of
  · apply instFrame_map
    intro inc
    exact List.Forall₂.imp
      (fun a c hac => entryFrame_mono (fun x => x = SI.parent) S _ bound
      (fun x (hx : x = SI.parent) => hx ▸ hS) hb a c hac)
      (frame_rewriteIncoming SI M.nextBlock bO.id inc)
  · exact List.forall₂_same.mpr fun I _ => instFrame_refl S bound I


theorem forall₂_dropLast_of {α : Type} (R : α → α → Prop) (l1 l2 : List α)
    (h : List.Forall₂ R l1 l2) : List.Forall₂ R l1.dropLast l2.dropLast := by
  rw [List.dropLast_eq_take, List.dropLast_eq_take, h.length_eq]
  exact List.forall₂_take _ h

theorem eq_of_instFrame_noPhi (S : Nat → Prop) (n : Nat) (l1 l2 : List Inst)
    (hno : ∀ I ∈ l1, ∀ inc, I ≠ Inst.phi inc) (h : List.Forall₂ (InstFrame S n) l1 l2) :
    l2 = l1 := by
  induction h with
  | nil => rfl
  | cons hab _ ih =>
    rename_i a b l1 l2 _
    have htl : l2 = l1 := ih (fun I hI => hno I (by simp [hI]))
    rcases hab with ⟨i1, _, e, _, _⟩ | ⟨_, e⟩
    · exact absurd e (hno a (by simp) i1)
    · rw [e, htl]

/-- The rewritten block of a worklist entry after the whole loop. -/
theorem foldl_origBlock (sw : List SwitchInst) (M : Module) (hM : M.WF)
    (hP : ∀ t ∈ sw, Pending M t) (hnd : (sw.map (fun t => t.parent)).Nodup)
    (S : Nat → Prop) (bound : Nat) (hS : ∀ t ∈ sw, S t.parent) (hb : bound ≤ M.nextBlock)
    (hlt : ∀ t ∈ sw, t.parent < bound)
    (s : SwitchInst) (hs : s ∈ sw) (bO : BasicBlock) (hbO : bO ∈ M.allBlocks)
    (hid : bO.id = s.parent) :
    ∃ b2 ∈ (sw.foldl splitSwitch M).allBlocks, ∃ hd c0 nx, b2.id = s.parent ∧
      List.Forall₂ (InstFrame S bound) (bO.insts.dropLast ++ [Inst.br hd]) b2.insts ∧
      bound ≤ hd ∧ s.cases.head? = some c0 ∧
      (⟨hd, [Inst.icmp s.cond c0.Val, Inst.condBr c0.BB nx (Value.icmpEq s.cond c0.Val)]⟩
        : BasicBlock) ∈ (sw.foldl splitSwitch M).allBlocks := by
  induction sw generalizing M bO with
  | nil => simp at hs
  | cons s0 sw ih =>
    rw [List.foldl_cons]
    obtain ⟨hM1, hP1, hnd1⟩ := foldl_state_step M s0 sw hM hP hnd
    have hS1 : ∀ t ∈ sw, S t.parent := fun t ht => hS t (by simp [ht])
    have hlt1 : ∀ t ∈ sw, t.parent < bound := fun t ht => hlt t (by simp [ht])
    have hb1 : bound ≤ (splitSwitch M s0).nextBlock :=
      Nat.le_trans hb (splitSwitch_nextBlock_le M s0)
    simp only [List.map_cons, List.nodup_cons] at hnd
    by_cases he : s = s0
    · subst he
      obtain ⟨b1, hb1m, hd, c0, nx, hid1, hf1, hhd, hc0, hL⟩ :=
        splitSwitch_origBlock M s hM (hP s (by simp)) S bound (hS s (by simp)) hb bO hbO hid
      obtain ⟨b2, hb2, hid2, hf2⟩ := foldl_insts_frame sw _ hM1 hP1 hnd1 S bound hS1 hb1
        b1 hb1m (by rw [hid1]; exact hnd.1)
      have hLn : hd ∉ sw.map (fun t => t.parent) := by
        intro h
        rw [List.mem_map] at h
        obtain ⟨t, ht, e⟩ := h
        have := hlt1 t ht
        omega
      obtain ⟨L2, hL2, hidL, hfL⟩ := foldl_insts_frame sw _ hM1 hP1 hnd1 S bound hS1 hb1
        _ hL hLn
      have hinsts := eq_of_instFrame_noPhi S bound _ _
        (by intro I hI inc; simp at hI; rcases hI with rfl | rfl <;> simp) hfL
      have hLeq : L2 = ⟨hd, [Inst.icmp s.cond c0.Val,
          Inst.condBr c0.BB nx (Value.icmpEq s.cond c0.Val)]⟩ := by
        obtain ⟨i, l⟩ := L2
        simp only at hidL hinsts
        rw [hidL, hinsts]
      rw [hLeq] at hL2
      exact ⟨b2, hb2, hd, c0, nx, hid2.trans hid1,
        forall₂_trans_of _ (instFrame_trans S bound) _ _ _ hf1 hf2, hhd, hc0, hL2⟩
    · have hs1 : s ∈ sw := by
        simp only [List.mem_cons] at hs
        rcases hs with h | h
        · exact absurd h he
        · exact h
      have hne : bO.id ≠ s0.parent := by
        rw [hid]
        intro e
        exact hnd.1 (e ▸ List.mem_map_of_mem (fun t => t.parent) hs1)
      obtain ⟨b1, hb1m, hid1, hf1⟩ := splitSwitch_insts_frame M s0 hM (hP s0 (by simp)) S bound
        (hS s0 (by simp)) hb bO hbO hne
      obtain ⟨b2, hb2, hd, c0, nx, hid2, hf2, hhd, hc0, hL⟩ :=
        ih _ hM1 hP1 hnd1 hS1 hb1 hlt1 hs1 b1 hb1m (hid1.trans hid)
      refine ⟨b2, hb2, hd, c0, nx, hid2, ?_, hhd, hc0, hL⟩
      refine forall₂_trans_of _ (instFrame_trans S bound) _ _ _ ?_ hf2
      exact forall₂_append_of _ _ _ _ _ (forall₂_dropLast_of _ _ _ hf1)
        (List.forall₂_same.mpr fun I _ => instFrame_refl S bound I)


/-! ## Keys of a phi after one rewrite -/

theorem count_linksTo (n : Nat) (rc : List CaseExpr) (T P : Nat) :
    (linksTo n rc T).count P = cntNew n rc T P := by
  induction rc generalizing n with
  | nil => rfl
  | cons c rc ih =>
    simp only [linksTo, cntNew, List.count_append, ih]
    congr 1
    by_cases hc : c.BB = T
    · by_cases hn : n = P
      · rw [if_pos hc, if_pos ⟨hc, hn⟩, hn, count_cons_if, if_pos rfl]
        rfl
      · have hn2 : ¬ P = n := fun e => hn e.symm
        rw [if_pos hc, if_neg (fun e => hn e.2), count_cons_if, if_neg hn2]
        rfl
    · rw [if_neg hc, if_neg (fun e => hc e.1)]
      rfl

theorem length_linksTo (n : Nat) (rc : List CaseExpr) (T : Nat) :
    (linksTo n rc T).length = (rc.map (fun c => c.BB)).count T := by
  induction rc generalizing n with
  | nil => rfl
  | cons c rc ih =>
    simp only [linksTo, List.length_append, ih, List.map_cons, count_cons_if]
    by_cases hc : c.BB = T
    · have hc2 : T = c.BB := hc.symm
      rw [if_pos hc, if_pos hc2, Nat.add_comm]
      rfl
    · have hc2 : ¬ T = c.BB := fun e => hc e.symm
      rw [if_neg hc, if_neg hc2]
      exact Nat.zero_add _

theorem count_newPredsOf (SI : SwitchInst) (n T P : Nat) :
    (newPredsOf SI n T).count P
      = cntNew (n + 1) SI.cases.reverse T P
        + (if n = P then (if T = SI.defaultDest then 1 else 0) else 0) := by
  unfold newPredsOf
  rw [List.count_append, count_linksTo, Nat.add_comm]
  congr 1
  by_cases hD : T = SI.defaultDest
  · by_cases hn : n = P
    · rw [if_pos hD, if_pos hn, if_pos hD, hn, count_cons_if, if_pos rfl]
      rfl
    · have hn2 : ¬ P = n := fun e => hn e.symm
      rw [if_pos hD, if_neg hn, count_cons_if, if_neg hn2]
      rfl
  · rw [if_neg hD, if_neg hD, ite_self]
    rfl

theorem count_newPredsOf_le_one (SI : SwitchInst) (n T P : Nat) :
    (newPredsOf SI n T).count P ≤ 1 := by
  rw [count_newPredsOf]
  by_cases hn : n = P
  · rw [cntNew_of_lt _ _ _ _ (by omega)]
    simp only [hn, if_true]
    split <;> omega
  · simp only [hn, if_false, Nat.add_zero]
    exact cntNew_le_one _ _ _ _

theorem nodup_newPredsOf (SI : SwitchInst) (n T : Nat) : (newPredsOf SI n T).Nodup :=
  List.nodup_iff_count_le_one.mpr fun P => count_newPredsOf_le_one SI n T P

theorem length_newPredsOf (SI : SwitchInst) (n T : Nat) :
    (newPredsOf SI n T).length = (SI.defaultDest :: SI.cases.map (fun c => c.BB)).count T := by
  unfold newPredsOf
  rw [List.length_append, length_linksTo, List.map_reverse, List.count_reverse, count_cons_if,
    Nat.add_comm]
  congr 1
  split <;> rfl

theorem le_of_mem_newPredsOf (SI : SwitchInst) (n T P : Nat) (h : P ∈ newPredsOf SI n T) :
    n ≤ P := by
  have hc := List.count_pos_iff.mpr h
  rw [count_newPredsOf] at hc
  by_cases hlt : P < n
  · rw [cntNew_of_lt _ _ _ _ (by omega), if_neg (by omega)] at hc
    omega
  · omega

theorem rewrite_count_arith2 (P O n : Nat) (hOn : O < n) (goalL c1 cN kP mc md : Nat)
    (hkey : goalL + (if P = O then md else 0) = c1 + (if n = P then md else 0))
    (hk1P : c1 + (if P = O then mc else 0) = kP + cN) :
    goalL + (if P = O then mc + md else 0) = kP + (cN + (if n = P then md else 0)) := by
  by_cases hPO : P = O
  · have hn : ¬ n = P := by omega
    simp only [hPO, if_true] at hk1P hkey
    rw [if_neg (by omega)] at hkey
    rw [if_neg hn, if_pos hPO]
    omega
  · simp only [hPO, if_false] at hk1P hkey
    rw [if_neg hPO]
    by_cases hPn : n = P
    · simp only [hPn, if_true] at hkey ⊢
      omega
    · simp only [hPn, if_false] at hkey ⊢
      omega

/-- The keys of a phi of block `T` after one rewrite, when the phi names the
rewritten block at least once per edge of the switch into `T`. -/
theorem count_rewriteKeys (SI : SwitchInst) (n T : Nat) (ks : List Nat)
    (hO : SI.parent < n)
    (hm : (SI.defaultDest :: SI.cases.map (fun c => c.BB)).count T ≤ ks.count SI.parent)
    (P : Nat) :
    (rewriteKeys SI n T ks).count P
        + (if P = SI.parent then (SI.defaultDest :: SI.cases.map (fun c => c.BB)).count T else 0)
      = ks.count P + (newPredsOf SI n T).count P := by
  rw [count_newPredsOf]
  have hrev : (SI.cases.reverse.map (fun c => c.BB)).count T
      = (SI.cases.map (fun c => c.BB)).count T := by
    rw [List.map_reverse, List.count_reverse]
  have hcons : (SI.defaultDest :: SI.cases.map (fun c => c.BB)).count T
      = (SI.cases.map (fun c => c.BB)).count T
        + (if T = SI.defaultDest then 1 else 0) := count_cons_if _ _ _
  rw [hcons] at hm ⊢
  have hk1 := count_chainKeys SI.parent SI.cases.reverse (n + 1) T ks (by omega)
    (by rw [hrev]; omega)
  have hk1P := hk1 P
  have hk1O := hk1 SI.parent
  rw [hrev] at hk1P hk1O
  rw [if_pos rfl, cntNew_of_lt _ _ _ _ (by omega)] at hk1O
  have hkey : (rewriteKeys SI n T ks).count P
      + (if P = SI.parent then (if T = SI.defaultDest then 1 else 0) else 0)
      = (chainKeys SI.parent (n + 1) SI.cases.reverse T ks).count P
        + (if n = P then (if T = SI.defaultDest then 1 else 0) else 0) := by
    unfold rewriteKeys
    simp only
    by_cases hD : T = SI.defaultDest
    · rw [if_pos hD] at hm
      simp only [if_pos hD]
      have hmem : SI.parent ∈ chainKeys SI.parent (n + 1) SI.cases.reverse T ks :=
        List.count_pos_iff.mp (by omega)
      have hk2 := count_setFirstKey SI.parent n _ hmem P
      by_cases hPn : P = n
      · have hPn2 : n = P := hPn.symm
        rw [if_pos hPn] at hk2
        rw [if_pos hPn2]
        exact hk2
      · have hPn2 : ¬ n = P := fun e => hPn e.symm
        rw [if_neg hPn] at hk2
        rw [if_neg hPn2]
        exact hk2
    · simp only [if_neg hD, ite_self]
  exact rewrite_count_arith2 P SI.parent n hO _ _ _ _ _ _ hkey hk1P

/-! ### The number of new keys of a phi -/

theorem newKeys_setFirstKey (O X n : Nat) (hO : O < n) (hX : n ≤ X) (ks : List Nat) :
    ((setFirstKey O X ks).filter (fun x => decide (n ≤ x))).length + (setFirstKey O X ks).count O
      = (ks.filter (fun x => decide (n ≤ x))).length + ks.count O := by
  induction ks with
  | nil => rfl
  | cons k ks ih =>
    simp only [setFirstKey]
    by_cases hk : k = O
    · have hXO : ¬ O = X := by omega
      have hnO : ¬ n ≤ O := by omega
      rw [if_pos hk, hk, List.filter_cons, List.filter_cons, count_cons_if, count_cons_if,
        if_pos rfl, if_neg hXO]
      simp only [hX, hnO, decide_True, decide_False, if_true, List.length_cons]
      simp
      omega
    · have hk2 : ¬ O = k := fun e => hk e.symm
      rw [if_neg hk, List.filter_cons, List.filter_cons, count_cons_if, count_cons_if, if_neg hk2]
      by_cases hn : n ≤ k
      · simp only [hn, decide_True, if_true, List.length_cons]
        omega
      · simp only [hn, decide_False, List.length_cons]
        simp
        omega

theorem newKeys_chainKeys (O : Nat) (rc : List CaseExpr) (n0 n T : Nat) (hO : O < n0)
    (hn : n0 ≤ n) (ks : List Nat) :
    ((chainKeys O n rc T ks).filter (fun x => decide (n0 ≤ x))).length
        + (chainKeys O n rc T ks).count O
      = (ks.filter (fun x => decide (n0 ≤ x))).length + ks.count O := by
  induction rc generalizing n ks with
  | nil => rfl
  | cons c rc ih =>
    simp only [chainKeys]
    split
    · rw [ih (n + 1) (by omega), newKeys_setFirstKey O n n0 hO hn]
    · exact ih (n + 1) (by omega) ks

theorem newKeys_rewriteKeys (SI : SwitchInst) (n T : Nat) (hO : SI.parent < n)
    (ks : List Nat) :
    ((rewriteKeys SI n T ks).filter (fun x => decide (n ≤ x))).length
        + (rewriteKeys SI n T ks).count SI.parent
      = (ks.filter (fun x => decide (n ≤ x))).length + ks.count SI.parent := by
  unfold rewriteKeys
  simp only
  split
  · rw [newKeys_setFirstKey SI.parent n n hO (Nat.le_refl _),
      newKeys_chainKeys SI.parent _ n (n + 1) T hO (by omega)]
  · exact newKeys_chainKeys SI.parent _ n (n + 1) T hO (by omega) ks

theorem cntNew_pos (n : Nat) (rc : List CaseExpr) (T P : Nat) (h : 0 < cntNew n rc T P) :
    ∃ j c, rc[j]? = some c ∧ c.BB = T ∧ P = n + j := by
  induction rc generalizing n with
  | nil => simp [cntNew] at h
  | cons a rc ih =>
    simp only [cntNew] at h
    by_cases ha : a.BB = T ∧ n = P
    · exact ⟨0, a, by simp, ha.1, by omega⟩
    · rw [if_neg ha, Nat.zero_add] at h
      obtain ⟨j, c, hj, hc, hp⟩ := ih (n + 1) h
      exact ⟨j + 1, c, by simpa using hj, hc, by omega⟩


/-! ## New predecessors of a block after one rewrite -/

theorem count_predecessors_new (M : Module) (SI : SwitchInst) (hM : M.WF) (hP : Pending M SI)
    (P T : Nat) (hT : T < M.nextBlock) (hn : M.nextBlock ≤ P) :
    ((splitSwitch M SI).predecessors T).count P = (newPredsOf SI M.nextBlock T).count P := by
  have hO := pending_lt M SI hM hP
  have h := predCount_splitSwitch M SI hM hP P T hT
  have h0 : predCount M.allBlocks P T = 0 := by
    apply predCount_of_not_mem
    intro hmem
    obtain ⟨b, hb, hid⟩ := List.mem_map.mp hmem
    have := hM.2 b hb
    omega
  rw [if_neg (by omega), h0] at h
  rw [count_predecessors, count_newPredsOf]
  omega

theorem mem_predecessors_new (M : Module) (SI : SwitchInst) (hM : M.WF) (hP : Pending M SI)
    (P T : Nat) (hT : T < M.nextBlock) (hn : M.nextBlock ≤ P) :
    P ∈ (splitSwitch M SI).predecessors T ↔ P ∈ newPredsOf SI M.nextBlock T := by
  rw [← List.count_pos_iff, ← List.count_pos_iff, count_predecessors_new M SI hM hP P T hT hn]

theorem mem_linksTo_iff (n : Nat) (rc : List CaseExpr) (T P : Nat) :
    P ∈ linksTo n rc T ↔ ∃ j c, rc[j]? = some c ∧ c.BB = T ∧ P = n + j := by
  rw [← List.count_pos_iff, count_linksTo]
  constructor
  · exact cntNew_pos n rc T P
  · rintro ⟨j, c, hj, hc, rfl⟩
    rw [cntNew_of_getElem? n rc T j c hj hc]
    exact Nat.one_pos

/-- The chain blocks whose case targets `T`, as blocks of the module after
the rewrite. -/
theorem mem_linksTo_iff_block (M : Module) (SI : SwitchInst) (hM : M.WF) (hP : Pending M SI)
    (P T : Nat) (hn : M.nextBlock ≤ P) :
    P ∈ linksTo (M.nextBlock + 1) SI.cases.reverse T ↔
      ∃ c ∈ SI.cases, ∃ nx, c.BB = T ∧
        (⟨P, [Inst.icmp SI.cond c.Val,
          Inst.condBr c.BB nx (Value.icmpEq SI.cond c.Val)]⟩ : BasicBlock)
          ∈ (splitSwitch M SI).allBlocks := by
  have hO := pending_lt M SI hM hP
  rw [mem_linksTo_iff]
  constructor
  · rintro ⟨j, c, hj, hc, rfl⟩
    refine ⟨c, List.mem_reverse.mp (List.mem_iff_getElem?.mpr ⟨j, hj⟩),
      (if j = 0 then M.nextBlock else M.nextBlock + 1 + j - 1), hc, ?_⟩
    apply mem_splitSwitch_chain M SI hP.2.1 hO hP.1
    apply List.mem_iff_getElem?.mpr
    refine ⟨j, ?_⟩
    rw [chainBlocks_getElem?, hj]
    rfl
  · rintro ⟨c, _, nx, hc, hb⟩
    rcases mem_splitSwitch_cases M SI hM hP _ hb with h | h | ⟨b, hb2, h⟩
    · have := congrArg (fun b => b.insts.length) h
      simp at this
    · obtain ⟨j, hj⟩ := List.mem_iff_getElem?.mp h
      rw [chainBlocks_getElem?] at hj
      cases hr : SI.cases.reverse[j]? with
      | none => rw [hr] at hj; simp at hj
      | some c2 =>
        rw [hr] at hj
        simp only [Option.map_some', Option.some.injEq, BasicBlock.mk.injEq, List.cons.injEq,
          Inst.icmp.injEq, Inst.condBr.injEq] at hj
        exact ⟨j, c2, hr, by rw [← hc]; exact hj.2.2.1.1, hj.1.symm⟩
    · have h1 := congrArg (fun b => b.id) h
      simp only [rewriteBlock_id] at h1
      have := hM.2 b hb2
      omega


/-! ## The value a phi selects -/

theorem selectIncoming_cons (e : Value × Nat) (l : List (Value × Nat)) (P : Nat) :
    selectIncoming (e :: l) P = if e.2 = P then some e.1 else selectIncoming l P := by
  unfold selectIncoming
  rw [List.find?_cons]
  by_cases h : e.2 = P
  · simp [h]
  · simp [h]

theorem select_of_mem (inc : List (Value × Nat)) (P : Nat)
    (h : P ∈ inc.map (fun e => e.2)) :
    ∃ e ∈ inc, e.2 = P ∧ selectIncoming inc P = some e.1 := by
  induction inc with
  | nil => simp at h
  | cons a inc ih =>
    rw [selectIncoming_cons]
    by_cases ha : a.2 = P
    · exact ⟨a, by simp, ha, by rw [if_pos ha]⟩
    · simp only [List.map_cons, List.mem_cons] at h
      rcases h with h | h
      · exact absurd h.symm ha
      · obtain ⟨e, he, hk, hs⟩ := ih h
        exact ⟨e, by simp [he], hk, by rw [if_neg ha]; exact hs⟩

theorem forall₂_mem_right {α : Type} (R : α → α → Prop) (l1 l2 : List α)
    (h : List.Forall₂ R l1 l2) (b : α) (hb : b ∈ l2) : ∃ a ∈ l1, R a b := by
  induction h with
  | nil => simp at hb
  | cons hab _ ih =>
    simp only [List.mem_cons] at hb
    rcases hb with rfl | hb
    · exact ⟨_, by simp, hab⟩
    · obtain ⟨a, ha, hr⟩ := ih hb
      exact ⟨a, by simp [ha], hr⟩

theorem entryFrame_key_iff (S : Nat → Prop) (n : Nat) (a b : Value × Nat)
    (h : EntryFrame S n a b) (P : Nat) (hS : ¬ S P) (hP : P < n) : b.2 = P ↔ a.2 = P := by
  by_cases hab : b.2 = a.2
  · rw [hab]
  · obtain ⟨hs, hn⟩ := h.2 hab
    constructor
    · intro e; omega
    · intro e; rw [e] at hs; exact absurd hs hS

/-- Selection by a block that the frame does not touch. -/
theorem select_frame (S : Nat → Prop) (n : Nat) (l1 l2 : List (Value × Nat))
    (h : List.Forall₂ (EntryFrame S n) l1 l2) (P : Nat) (hS : ¬ S P) (hP : P < n) :
    selectIncoming l2 P = selectIncoming l1 P := by
  induction h with
  | nil => rfl
  | @cons a b _ _ hab _ ih =>
    rw [selectIncoming_cons, selectIncoming_cons, ih, hab.1]
    have := entryFrame_key_iff S n _ _ hab P hS hP
    by_cases hk : b.2 = P
    · rw [if_pos hk, if_pos (this.mp hk)]
    · rw [if_neg hk, if_neg (fun e => hk (this.mpr e))]

theorem count_frame (S : Nat → Prop) (n : Nat) (l1 l2 : List (Value × Nat))
    (h : List.Forall₂ (EntryFrame S n) l1 l2) (P : Nat) (hS : ¬ S P) (hP : P < n) :
    (l2.map (fun e => e.2)).count P = (l1.map (fun e => e.2)).count P := by
  induction h with
  | nil => rfl
  | @cons a b _ _ hab _ ih =>
    simp only [List.map_cons]
    rw [count_cons_if, count_cons_if, ih]
    congr 1
    have := entryFrame_key_iff S n _ _ hab P hS hP
    by_cases hk : P = b.2
    · rw [if_pos hk, if_pos (this.mp hk.symm).symm]
    · rw [if_neg hk, if_neg (fun e => hk (this.mpr e.symm).symm)]

theorem values_frame (S : Nat → Prop) (n : Nat) (l1 l2 : List (Value × Nat))
    (h : List.Forall₂ (EntryFrame S n) l1 l2) (P : Nat) (hS : ¬ S P) (hP : P < n)
    (hv : ∀ e ∈ l1, ∀ e2 ∈ l1, e.2 = P → e2.2 = P → e.1 = e2.1) :
    ∀ e ∈ l2, ∀ e2 ∈ l2, e.2 = P → e2.2 = P → e.1 = e2.1 := by
  intro e he e2 he2 hk hk2
  obtain ⟨a, ha, hr⟩ := forall₂_mem_right _ _ _ h e he
  obtain ⟨a2, ha2, hr2⟩ := forall₂_mem_right _ _ _ h e2 he2
  rw [hr.1, hr2.1]
  exact hv a ha a2 ha2 ((entryFrame_key_iff S n _ _ hr P hS hP).mp hk)
    ((entryFrame_key_iff S n _ _ hr2 P hS hP).mp hk2)

/-! ### An upper bound for the keys after one rewrite -/

theorem lt_setFirstIncoming (O X N : Nat) (hX : X < N) (inc : List (Value × Nat))
    (h : ∀ e ∈ inc, e.2 < N) : ∀ e ∈ setFirstIncoming O X inc, e.2 < N := by
  induction inc with
  | nil => intro e he; simp [setFirstIncoming] at he
  | cons a inc ih =>
    obtain ⟨v, b⟩ := a
    simp only [setFirstIncoming]
    split
    · intro e he
      simp only [List.mem_cons] at he
      rcases he with rfl | he
      · exact hX
      · exact h e (by simp [he])
    · intro e he
      simp only [List.mem_cons] at he
      rcases he with rfl | he
      · exact h _ (by simp)
      · exact ih (fun e he => h e (by simp [he])) e he

theorem lt_chainIncoming (O : Nat) (rc : List CaseExpr) (n id N : Nat) (hN : n + rc.length ≤ N)
    (inc : List (Value × Nat)) (h : ∀ e ∈ inc, e.2 < N) :
    ∀ e ∈ chainIncoming O n rc id inc, e.2 < N := by
  induction rc generalizing n inc with
  | nil => exact h
  | cons c rc ih =>
    simp only [chainIncoming]
    simp only [List.length_cons] at hN
    split
    · exact ih (n + 1) (by omega) _ (lt_setFirstIncoming O n N (by omega) inc h)
    · exact ih (n + 1) (by omega) _ h

theorem lt_rewriteIncoming (SI : SwitchInst) (n id N : Nat) (hN : n + 1 + SI.cases.length ≤ N)
    (inc : List (Value × Nat)) (h : ∀ e ∈ inc, e.2 < N) :
    ∀ e ∈ rewriteIncoming SI n id inc, e.2 < N := by
  unfold rewriteIncoming
  simp only
  have h1 := lt_chainIncoming SI.parent SI.cases.reverse (n + 1) id N
    (by rw [List.length_reverse]; exact hN) inc h
  split
  · exact lt_setFirstIncoming SI.parent n N (by omega) _ h1
  · exact h1

/-- The value a phi of block `T` selects for a new predecessor of `T` is the
value it selected for the rewritten block. -/
theorem select_rewriteIncoming (SI : SwitchInst) (n T : Nat) (inc : List (Value × Nat))
    (hO : SI.parent < n) (hks : ∀ e ∈ inc, e.2 < n)
    (hm : (SI.defaultDest :: SI.cases.map (fun c => c.BB)).count T
      ≤ (inc.map (fun e => e.2)).count SI.parent)
    (hv : ∀ e ∈ inc, ∀ e2 ∈ inc, e.2 = SI.parent → e2.2 = SI.parent → e.1 = e2.1)
    (P : Nat) (hPm : P ∈ newPredsOf SI n T) :
    ∃ v, selectIncoming inc SI.parent = some v ∧
      selectIncoming (rewriteIncoming SI n T inc) P = some v := by
  have hn := le_of_mem_newPredsOf SI n T P hPm
  have hc := count_rewriteKeys SI n T (inc.map (fun e => e.2)) hO hm P
  have hpos := List.count_pos_iff.mpr hPm
  have hmem : P ∈ (rewriteIncoming SI n T inc).map (fun e => e.2) := by
    rw [keys_rewriteIncoming]
    apply List.count_pos_iff.mp
    rw [if_neg (by omega)] at hc
    omega
  obtain ⟨e2, he2, hk2, hs2⟩ := select_of_mem _ P hmem
  obtain ⟨e, he, hr⟩ := forall₂_mem_right _ _ _ (frame_rewriteIncoming SI n T inc) e2 he2
  have hlt := hks e he
  have heO : e.2 = SI.parent := (hr.2 (by omega)).1
  obtain ⟨e3, he3, hk3, hs3⟩ := select_of_mem inc SI.parent
    (List.mem_map.mpr ⟨e, he, heO⟩)
  refine ⟨e3.1, hs3, ?_⟩
  rw [hs2, hr.1, hv e he e3 he3 heO hk3]


/-! ## The edge over which the selected successor is entered -/

theorem runToOld_eq_map (M : Module) (env : Nat → Int) (bound fuel x : Nat) :
    M.runToOld env bound fuel x = (M.runEdgeToOld env bound fuel x).map (fun p => p.2) := by
  induction fuel generalizing x with
  | zero => rfl
  | succ fuel ih =>
    simp only [Module.runToOld, Module.runEdgeToOld]
    cases M.step env x with
    | none => rfl
    | some next =>
      simp only
      split
      · rfl
      · exact ih next

/-- Walking down the chain from the block created for `rc[j]`, with the block
that branches out of the chain. -/
theorem runEdgeToOld_chain (M1 : Module) (env : Nat → Int) (sel : Int) (bound n D : Nat)
    (rc : List CaseExpr) (hbn : bound ≤ n) (hD : D < bound) (hT : ∀ c ∈ rc, c.BB < bound)
    (h0 : M1.step env n = some D)
    (hstep : ∀ j c, rc[j]? = some c → M1.step env (n + 1 + j)
      = some (if c.Val.value = sel then c.BB else if j = 0 then n else n + j))
    (j : Nat) (hj : j < rc.length) :
    ∃ P T, M1.runEdgeToOld env bound (j + 2) (n + 1 + j) = some (P, T) ∧
      M1.step env P = some T ∧
      ((P = n ∧ T = D) ∨ ∃ i c, rc[i]? = some c ∧ c.BB = T ∧ P = n + 1 + i) := by
  induction j with
  | zero =>
    have hc : rc[0]? = some rc[0] := List.getElem?_eq_getElem hj
    have hs := hstep 0 rc[0] hc
    simp only [if_true] at hs
    simp only [Module.runEdgeToOld, Nat.add_zero] at hs ⊢
    rw [hs]
    by_cases hm : rc[0].Val.value = sel
    · have := hT rc[0] (List.getElem_mem hj)
      refine ⟨n + 1, rc[0].BB, by simp [hm, this], by rw [hs, if_pos hm],
        Or.inr ⟨0, rc[0], hc, rfl, rfl⟩⟩
    · have hnb : ¬ n < bound := by omega
      exact ⟨n, D, by simp [hm, hnb, h0, hD], h0, Or.inl ⟨rfl, rfl⟩⟩
  | succ j ih =>
    have hj2 : j < rc.length := by omega
    have hc : rc[j + 1]? = some rc[j + 1] := List.getElem?_eq_getElem hj
    have hs := hstep (j + 1) rc[j + 1] hc
    simp only [Nat.add_one_ne_zero, if_false] at hs
    have e : j + 1 + 2 = (j + 2) + 1 := by omega
    rw [e, Module.runEdgeToOld, hs]
    by_cases hm : rc[j + 1].Val.value = sel
    · have := hT rc[j + 1] (List.getElem_mem hj)
      refine ⟨n + 1 + (j + 1), rc[j + 1].BB, by simp [hm, this], by rw [hs, if_pos hm],
        Or.inr ⟨j + 1, rc[j + 1], hc, rfl, rfl⟩⟩
    · have hnb : ¬ n + (j + 1) < bound := by omega
      have e2 : n + (j + 1) = n + 1 + j := by omega
      simp only [hm, if_false, hnb]
      rw [e2]
      exact ih hj2

/-- From the rewritten block, control enters the selected successor from a
block created by the rewrite: `NewDefault` or the comparison block of a case
that targets it. -/
theorem splitSwitch_routesEdge (M : Module) (SI : SwitchInst) (hM : M.WF) (hP : Pending M SI)
    (env : Nat → Int) (bound : Nat) (hb : bound ≤ M.nextBlock) (hD : SI.defaultDest < bound)
    (hT : ∀ c ∈ SI.cases, c.BB < bound) :
    ∃ P T, (splitSwitch M SI).runEdgeToOld env bound (SI.cases.length + 2) SI.parent
        = some (P, T) ∧
      (splitSwitch M SI).step env P = some T ∧ P ∈ newPredsOf SI M.nextBlock T := by
  have hk : 1 ≤ SI.cases.length := by
    cases hcs : SI.cases with
    | nil => exact absurd hcs hP.2.1
    | cons _ _ => simp
  have e : SI.cases.length + 2 = (SI.cases.length + 1) + 1 := by omega
  rw [e, Module.runEdgeToOld, step_splitSwitch_parent M SI hM hP env]
  have hnb : ¬ M.nextBlock + SI.cases.length < bound := by omega
  simp only [hnb, if_false]
  obtain ⟨P, T, hrun, hstep, hcase⟩ := runEdgeToOld_chain (splitSwitch M SI) env
    (SI.cond.eval env) bound M.nextBlock
    SI.defaultDest SI.cases.reverse hb hD (fun c hc => hT c (List.mem_reverse.mp hc))
    (step_splitSwitch_newDefault M SI hM hP env)
    (fun j c hj => step_splitSwitch_chain M SI hM hP env j c hj)
    (SI.cases.length - 1) (by simp; omega)
  have e1 : SI.cases.length - 1 + 2 = SI.cases.length + 1 := by omega
  have e2 : M.nextBlock + 1 + (SI.cases.length - 1) = M.nextBlock + SI.cases.length := by omega
  rw [e1, e2] at hrun
  refine ⟨P, T, hrun, hstep, ?_⟩
  unfold newPredsOf
  rw [List.mem_append]
  rcases hcase with ⟨hPn, hTD⟩ | ⟨i, c, hi, hc, hPi⟩
  · left
    rw [if_pos hTD, hPn]
    exact List.mem_singleton.mpr rfl
  · right
    exact (mem_linksTo_iff _ _ _ _).mpr ⟨i, c, hi, hc, hPi⟩

theorem runEdgeToOld_frame (M M1 : Module) (env : Nat → Int) (bound O : Nat) (hO : O < bound)
    (hstep : ∀ x y, x ≠ O → M.step env x = some y → M1.step env x = some y)
    (fuel : Nat) (x : Nat) (r : Nat × Nat) (hx : x ≠ O)
    (h : M.runEdgeToOld env bound fuel x = some r) :
    M1.runEdgeToOld env bound fuel x = some r := by
  induction fuel generalizing x with
  | zero => simp [Module.runEdgeToOld] at h
  | succ fuel ih =>
    simp only [Module.runEdgeToOld] at h ⊢
    cases hs : M.step env x with
    | none => rw [hs] at h; cases h
    | some next =>
      rw [hs] at h
      rw [hstep x next hx hs]
      simp only at h ⊢
      by_cases hb : next < bound
      · simpa [hb] using h
      · simp only [hb, if_false] at h ⊢
        exact ih next (by omega) h

theorem foldl_routesEdge_frame (sw : List SwitchInst) (M : Module) (hM : M.WF)
    (hP : ∀ t ∈ sw, Pending M t) (hnd : (sw.map (fun t => t.parent)).Nodup)
    (env : Nat → Int) (bound : Nat) (hb : ∀ t ∈ sw, t.parent < bound)
    (fuel x : Nat) (r : Nat × Nat) (hx : x ∉ sw.map (fun t => t.parent))
    (h : M.runEdgeToOld env bound fuel x = some r) :
    (sw.foldl splitSwitch M).runEdgeToOld env bound fuel x = some r := by
  induction sw generalizing M with
  | nil => exact h
  | cons s sw ih =>
    rw [List.foldl_cons]
    obtain ⟨hM1, hP1, hnd1⟩ := foldl_state_step M s sw hM hP hnd
    simp only [List.map_cons, List.mem_cons, not_or] at hx
    apply ih _ hM1 hP1 hnd1 (fun t ht => hb t (by simp [ht])) hx.2
    exact runEdgeToOld_frame M _ env bound s.parent (hb s (by simp))
      (fun x y hne hs => step_splitSwitch_frame M s hM (hP s (by simp)) env x y hne hs)
      fuel x r hx.1 h

theorem foldl_step_frame (sw : List SwitchInst) (M : Module) (hM : M.WF)
    (hP : ∀ t ∈ sw, Pending M t) (hnd : (sw.map (fun t => t.parent)).Nodup)
    (env : Nat → Int) (x y : Nat) (hx : x ∉ sw.map (fun t => t.parent))
    (h : M.step env x = some y) :
    (sw.foldl splitSwitch M).step env x = some y := by
  induction sw generalizing M with
  | nil => exact h
  | cons s sw ih =>
    rw [List.foldl_cons]
    obtain ⟨hM1, hP1, hnd1⟩ := foldl_state_step M s sw hM hP hnd
    simp only [List.map_cons, List.mem_cons, not_or] at hx
    exact ih _ hM1 hP1 hnd1 hx.2
      (step_splitSwitch_frame M s hM (hP s (by simp)) env x y hx.1 h)


/-! ## Phi selection through the rewriting loop -/

theorem lt_of_mem_newPredsOf (SI : SwitchInst) (n T P : Nat) (h : P ∈ newPredsOf SI n T) :
    P < n + 1 + SI.cases.length := by
  unfold newPredsOf at h
  rw [List.mem_append] at h
  rcases h with h | h
  · split at h
    · rw [List.mem_singleton] at h
      omega
    · exact absurd h (List.not_mem_nil _)
  · obtain ⟨j, c, hj, _, hp⟩ := (mem_linksTo_iff _ _ _ _).mp h
    have := (List.getElem?_eq_some.mp hj).1
    rw [List.length_reverse] at this
    omega

theorem phiIncoming_rewriteBlock (M : Module) (SI : SwitchInst) (hM : M.WF) (hP : Pending M SI)
    (b : BasicBlock) (hb : b ∈ M.allBlocks) :
    phiIncoming (rewriteBlock SI M.nextBlock b).insts
      = (phiIncoming b.insts).map (rewriteIncoming SI M.nextBlock b.id) :=
  phiIncoming_rewriteInsts SI M.nextBlock b.id b.insts (pending_getLast? M SI hM hP b hb)

/-- Through the loop, the phis of a pre-existing block keep their entries
and values; only entries naming a rewritten block are re-keyed, to new blocks. -/
theorem foldl_phiIncoming_frame (sw : List SwitchInst) (M : Module) (hM : M.WF)
    (hP : ∀ t ∈ sw, Pending M t) (hnd : (sw.map (fun t => t.parent)).Nodup)
    (S : Nat → Prop) (bound : Nat) (hS : ∀ t ∈ sw, S t.parent) (hb : bound ≤ M.nextBlock)
    (b : BasicBlock) (hbm : b ∈ M.allBlocks) :
    ∃ b2, (sw.foldl splitSwitch M).findBlock b.id = some b2 ∧
      List.Forall₂ (List.Forall₂ (EntryFrame S bound))
        (phiIncoming b.insts) (phiIncoming b2.insts) := by
  induction sw generalizing M b with
  | nil =>
    exact ⟨b, findBlock_of_mem M hM b hbm,
      List.forall₂_same.mpr fun inc _ => List.forall₂_same.mpr fun e _ => entryFrame_refl S bound e⟩
  | cons s sw ih =>
    rw [List.foldl_cons]
    obtain ⟨hM1, hP1, hnd1⟩ := foldl_state_step M s sw hM hP hnd
    have hPs := hP s (by simp)
    have hO := pending_lt M s hM hPs
    have hb1 := mem_splitSwitch_old M s hPs.2.1 hO hPs.1 b hbm
    obtain ⟨b2, hf2, hfr2⟩ := ih _ hM1 hP1 hnd1 (fun t ht => hS t (by simp [ht]))
      (Nat.le_trans hb (splitSwitch_nextBlock_le M s)) _ hb1
    rw [rewriteBlock_id] at hf2
    refine ⟨b2, hf2, ?_⟩
    refine forall₂_trans_of _ (fun a b c => forall₂_trans_of _ (entryFrame_trans S bound) a b c)
      _ _ _ ?_ hfr2
    rw [phiIncoming_rewriteBlock M s hM hPs b hbm, List.forall₂_map_right_iff, List.forall₂_same]
    intro inc _
    exact List.Forall₂.imp
      (fun a c hac => entryFrame_mono (fun x => x = s.parent) S _ bound
        (fun x (hx : x = s.parent) => hx ▸ hS s (by simp)) hb a c hac)
      (frame_rewriteIncoming s M.nextBlock b.id inc)

/-- Through the whole loop: control leaves the chain of a rewritten switch
over an edge from a new block `P` into the selected successor, and every phi
of that successor which named the rewritten block once per edge, with one
value, selects for `P` the value it selected for the rewritten block. -/
theorem foldl_select (sw : List SwitchInst) (M : Module) (hM : M.WF)
    (hP : ∀ t ∈ sw, Pending M t) (hnd : (sw.map (fun t => t.parent)).Nodup)
    (env : Nat → Int) (bound : Nat) (hbound : bound ≤ M.nextBlock)
    (hb : ∀ t ∈ sw, t.parent < bound)
    (s : SwitchInst) (hs : s ∈ sw) (hD : s.defaultDest < bound)
    (hT : ∀ c ∈ s.cases, c.BB < bound) :
    ∃ P T, (sw.foldl splitSwitch M).runEdgeToOld env bound (s.cases.length + 2) s.parent
        = some (P, T) ∧
      (sw.foldl splitSwitch M).step env P = some T ∧ bound ≤ P ∧
      ∀ bT ∈ M.allBlocks, bT.id = T →
        ∃ bT2, (sw.foldl splitSwitch M).findBlock T = some bT2 ∧
          List.Forall₂ (fun inc inc2 =>
            (∀ e ∈ inc, e.2 < M.nextBlock) →
            (s.defaultDest :: s.cases.map (fun c => c.BB)).count T
              ≤ (inc.map (fun e => e.2)).count s.parent →
            (∀ e ∈ inc, ∀ e2 ∈ inc, e.2 = s.parent → e2.2 = s.parent → e.1 = e2.1) →
            ∃ v, selectIncoming inc s.parent = some v ∧ selectIncoming inc2 P = some v)
            (phiIncoming bT.insts) (phiIncoming bT2.insts) := by
  induction sw generalizing M with
  | nil => simp at hs
  | cons s0 sw ih =>
    rw [List.foldl_cons]
    obtain ⟨hM1, hP1, hnd1⟩ := foldl_state_step M s0 sw hM hP hnd
    have hb1 : ∀ t ∈ sw, t.parent < bound := fun t ht => hb t (by simp [ht])
    have hPs0 := hP s0 (by simp)
    have hO0 := pending_lt M s0 hM hPs0
    have hnext := splitSwitch_nextBlock M s0 hPs0.2.1
    simp only [List.map_cons, List.nodup_cons] at hnd
    by_cases he : s = s0
    · subst he
      obtain ⟨P, T, hrun, hstep, hPm⟩ :=
        splitSwitch_routesEdge M s hM hPs0 env bound hbound hD hT
      have hPn := le_of_mem_newPredsOf s _ _ _ hPm
      have hPlt := lt_of_mem_newPredsOf s _ _ _ hPm
      have hPnot : P ∉ sw.map (fun t => t.parent) := by
        intro hmem
        obtain ⟨t, ht, hid⟩ := List.mem_map.mp hmem
        have := hb1 t ht
        omega
      refine ⟨P, T, foldl_routesEdge_frame sw _ hM1 hP1 hnd1 env bound hb1 _ _ _ hnd.1 hrun,
        foldl_step_frame sw _ hM1 hP1 hnd1 env P T hPnot hstep, by omega, ?_⟩
      intro bT hbT hid
      have hbT1 := mem_splitSwitch_old M s hPs0.2.1 hO0 hPs0.1 bT hbT
      obtain ⟨bT2, hf2, hfr2⟩ := foldl_phiIncoming_frame sw _ hM1 hP1 hnd1
        (fun x => x ∈ sw.map (fun t => t.parent)) (splitSwitch M s).nextBlock
        (fun t ht => List.mem_map_of_mem _ ht) (Nat.le_refl _) _ hbT1
      rw [rewriteBlock_id, hid] at hf2
      refine ⟨bT2, hf2, ?_⟩
      rw [phiIncoming_rewriteBlock M s hM hPs0 bT hbT, List.forall₂_map_left_iff] at hfr2
      refine List.Forall₂.imp ?_ hfr2
      intro inc inc2 hfr hks hm hv
      rw [hid] at hfr
      obtain ⟨v, hv1, hv2⟩ := select_rewriteIncoming s M.nextBlock T inc hO0 hks hm hv P hPm
      exact ⟨v, hv1, by rw [select_frame _ _ _ _ hfr P hPnot (by omega)]; exact hv2⟩
    · have hs1 : s ∈ sw := by
        simp only [List.mem_cons] at hs
        rcases hs with h | h
        · exact absurd h he
        · exact h
      have hne : s.parent ≠ s0.parent := by
        intro e
        exact hnd.1 (e ▸ List.mem_map_of_mem _ hs1)
      obtain ⟨P, T, hrun, hstep, hPb, hphi⟩ := ih _ hM1 hP1 hnd1
        (Nat.le_trans hbound (splitSwitch_nextBlock_le M s0)) hb1 hs1
      refine ⟨P, T, hrun, hstep, hPb, ?_⟩
      intro bT hbT hid
      have hbT1 := mem_splitSwitch_old M s0 hPs0.2.1 hO0 hPs0.1 bT hbT
      obtain ⟨bT2, hf2, hfr2⟩ := hphi _ hbT1 (by rw [rewriteBlock_id]; exact hid)
      refine ⟨bT2, hf2, ?_⟩
      rw [phiIncoming_rewriteBlock M s0 hM hPs0 bT hbT, List.forall₂_map_left_iff] at hfr2
      refine List.Forall₂.imp ?_ hfr2
      intro inc inc2 hR hks hm hv
      have hfr := frame_rewriteIncoming s0 M.nextBlock bT.id inc
      have hsP : s.parent < M.nextBlock := by
        have := hb s (by simp [hs1])
        omega
      obtain ⟨v, hv1, hv2⟩ := hR
        (lt_rewriteIncoming s0 M.nextBlock bT.id _ (by rw [hnext]) inc
          (fun e he => by have := hks e he; omega))
        (by rw [count_frame _ _ _ _ hfr s.parent hne hsP]; exact hm)
        (values_frame _ _ _ _ hfr s.parent hne hsP hv)
      exact ⟨v, by rw [← select_frame _ _ _ _ hfr s.parent hne hsP]; exact hv1, hv2⟩


/-! ## Claims, continued -/

/-- C11: one run of the rewriting loop body, on a well-formed module and a
pending worklist entry whose default target is a block of the owning function,
creates the block `NewDefault` (identity: the allocation counter) whose only
instruction is an unconditional branch to the switch's default target, and
places it in the block order of the function immediately before that default
target; no other block of the function has its identity, and the pre-existing
blocks keep their relative order. -/
theorem C11_new_default_block (M : Module) (SI : SwitchInst) (hM : M.WF) (hP : Pending M SI)
    (f : Function) (hF : M.functions[SI.parentFn]? = some f)
    (hD : SI.defaultDest ∈ f.blocks.map (fun b => b.id)) :
    ∃ f2 pre bD post, (splitSwitch M SI).functions[SI.parentFn]? = some f2 ∧
      f2.blocks = pre ++ ⟨M.nextBlock, [Inst.br SI.defaultDest]⟩ :: bD :: post ∧
      bD.id = SI.defaultDest ∧
      (∀ b ∈ pre ++ bD :: post, b.id ≠ M.nextBlock) ∧
      (f2.blocks.map (fun b => b.id)).filter (fun x => x < M.nextBlock)
        = f.blocks.map (fun b => b.id) := by
  have hO := pending_lt M SI hM hP
  have hfmem : ∀ b ∈ f.blocks, b.id < M.nextBlock := by
    intro b hb
    exact hM.2 b ((mem_allBlocks_iff M b).mpr ⟨_, f, hF, hb⟩)
  have hD2 : SI.defaultDest ∈ (f.blocks.map (rewriteBlock SI M.nextBlock)).map (fun b => b.id) := by
    rw [rewriteBlock_ids]; exact hD
  obtain ⟨pre, bD, post, hl, hbD, _, hins⟩ := insertBefore_split _ _ hD2
  have hold : ∀ b ∈ pre ++ bD :: post, b.id < M.nextBlock := by
    intro b hb
    rw [← hl, List.mem_map] at hb
    obtain ⟨b0, hb0, rfl⟩ := hb
    exact hfmem b0 hb0
  refine ⟨_, pre, bD,
    post ++ chainBlocks SI.cond (M.nextBlock + 1) M.nextBlock SI.cases.reverse,
    by rw [splitSwitch_getElem? M SI hP.2.1 hO, hF]; simp; rfl, ?_, hbD, ?_, ?_⟩
  · simp only
    rw [hins]
    simp
  · intro b hb
    rw [← List.cons_append, ← List.append_assoc, List.mem_append] at hb
    rcases hb with hb | hb
    · have := hold b hb
      omega
    · have := (mem_chainBlocks _ _ _ _ _ hb).1
      omega
  · simp only [List.map_append, List.filter_append, chainBlocks_ids]
    have h2 : (List.range' (M.nextBlock + 1) SI.cases.reverse.length).filter
        (fun x => x < M.nextBlock) = [] := by
      rw [List.filter_eq_nil_iff]
      intro x hx
      simp only [List.mem_range'_1] at hx
      simp only [decide_eq_true_eq]
      omega
    rw [h2, List.append_nil, insertBefore_ids_filter, rewriteBlock_ids]
    intro b hb
    rw [List.mem_map] at hb
    obtain ⟨b2, hb2, rfl⟩ := hb
    exact hfmem b2 hb2

/-- C11 at the scenario module and its switch. -/
theorem C11_new_default_block_witness :
    (scenarioModule.WF ∧ Pending scenarioModule scenarioSwitch) ∧
    ∃ f2 pre bD post, (splitSwitch scenarioModule scenarioSwitch).functions[0]? = some f2 ∧
      f2.blocks = pre ++ ⟨5, [Inst.br 4]⟩ :: bD :: post ∧ bD.id = 4 ∧
      (∀ b ∈ pre ++ bD :: post, b.id ≠ 5) ∧
      (f2.blocks.map (fun b => b.id)).filter (fun x => x < 5) = [0, 1, 2, 3, 4] :=
  have hP : Pending scenarioModule scenarioSwitch :=
    collectSwitches_pending scenarioModule scenarioSwitch (by decide)
  ⟨⟨by decide, hP⟩,
    C11_new_default_block scenarioModule scenarioSwitch (by decide) hP
      ⟨[⟨0, [Inst.other 0, Inst.switch (Value.reg 0) 4 [⟨i32 1, 1⟩, ⟨i32 2, 2⟩, ⟨i32 3, 3⟩]]⟩,
        ⟨1, [Inst.phi [(Value.reg 1, 0)], Inst.ret]⟩,
        ⟨2, [Inst.phi [(Value.reg 2, 0)], Inst.ret]⟩,
        ⟨3, [Inst.phi [(Value.reg 3, 0)], Inst.ret]⟩,
        ⟨4, [Inst.phi [(Value.reg 4, 0)], Inst.ret]⟩]⟩
      rfl (by decide)⟩


theorem forall₂_head?_of {α : Type} (R : α → α → Prop) (l1 l2 : List α)
    (h : List.Forall₂ R l1 l2) (a : α) (ha : l1.head? = some a) :
    ∃ a2, l2.head? = some a2 ∧ R a a2 := by
  cases h with
  | nil => simp at ha
  | cons hab _ =>
    simp only [List.head?_cons, Option.some.injEq] at ha ⊢
    subst ha
    exact ⟨_, rfl, hab⟩

theorem forall₂_getLast?_of {α : Type} (R : α → α → Prop) (l1 l2 : List α)
    (h : List.Forall₂ R l1 l2) (a : α) (ha : l1.getLast? = some a) :
    ∃ a2, l2.getLast? = some a2 ∧ R a a2 := by
  rw [List.getLast?_eq_head?_reverse] at ha
  rw [List.getLast?_eq_head?_reverse]
  exact forall₂_head?_of R _ _ (List.forall₂_reverse_iff.mpr h) a ha

/-- C12 (as stated, refuted): `selfLoopModule` is well formed and each of its
blocks has exactly one terminator, its last instruction; block 1 holds the
collected switch and a phi that names block 1; after `splitSwitches` the phi
of block 1, a non-terminator instruction of the rewritten `OrigBlock`, has the
comparison block 4 as incoming block of its second entry. -/
theorem C12_origBlock_phi_counterexample :
    selfLoopModule.WF ∧ (∀ b ∈ selfLoopModule.allBlocks, b.wellTerminated = true) ∧
    (collectSwitches selfLoopModule).map (fun s => s.parent) = [1] ∧
    selfLoopModule.findBlock 1
      = some ⟨1, [Inst.phi [(Value.reg 0, 0), (Value.reg 1, 1)],
                  Inst.switch (Value.reg 5) 2 [⟨i32 7, 1⟩]]⟩ ∧
    (splitSwitches (fun _ => false) selfLoopModule).M.findBlock 1
      = some ⟨1, [Inst.phi [(Value.reg 0, 0), (Value.reg 1, 4)], Inst.br 4]⟩ ∧
    [Inst.phi [(Value.reg 0, 0), (Value.reg 1, 4)]]
      ≠ [Inst.phi [(Value.reg 0, 0), (Value.reg 1, 1)]] := by
  decide

/-- C12 (amended): if every block of the input has exactly one terminator as
its last instruction, then after `splitSwitches` every block, pre-existing or
created, again has exactly one terminator as its last instruction. If moreover
the module is well formed, then for each collected switch the block with the
identity of `OrigBlock` ends in an unconditional branch to a created block,
the comparison block of the first case; it contains no switch instruction; and
its instructions before the terminator are those of the original block, in
the same order, where every instruction other than a phi is unchanged and a
phi keeps its entries and incoming values and can differ only in incoming
blocks that named a rewritten block and now name a created block. -/
theorem C12_terminators_well_formed (v : Module → Bool) (M : Module)
    (hwt : ∀ b ∈ M.allBlocks, b.wellTerminated = true) :
    (∀ b ∈ (splitSwitches v M).M.allBlocks, b.wellTerminated = true) ∧
    (M.WF → ∀ s ∈ collectSwitches M, ∀ bO ∈ M.allBlocks, bO.id = s.parent →
      ∃ b2 hd c0 nx, (splitSwitches v M).M.findBlock s.parent = some b2 ∧
        b2.getTerminator = some (Inst.br hd) ∧
        (∀ I ∈ b2.insts, ∀ c d cs, I ≠ Inst.switch c d cs) ∧
        List.Forall₂
          (InstFrame (fun x => x ∈ (collectSwitches M).map (fun t => t.parent)) M.nextBlock)
          bO.insts.dropLast b2.insts.dropLast ∧
        M.nextBlock ≤ hd ∧ s.cases.head? = some c0 ∧
        (splitSwitches v M).M.findBlock hd
          = some ⟨hd, [Inst.icmp s.cond c0.Val,
              Inst.condBr c0.BB nx (Value.icmpEq s.cond c0.Val)]⟩) := by
  have hall : ∀ b ∈ (splitSwitches v M).M.allBlocks, b.wellTerminated = true := by
    rw [splitSwitches_M]
    exact wellTerminated_foldl _ M hwt
  refine ⟨hall, ?_⟩
  intro hM s hs bO hbO hid
  have hWF := splitSwitches_WF v M hM
  have hfold := foldl_origBlock (collectSwitches M) M hM (collectSwitches_pending M)
    (collectSwitches_nodup M hM)
    (fun x => x ∈ (collectSwitches M).map (fun t => t.parent)) M.nextBlock
    (fun t ht => List.mem_map_of_mem (fun t => t.parent) ht) (Nat.le_refl _)
    (fun t ht => pending_lt M t hM (collectSwitches_pending M t ht)) s hs bO hbO hid
  rw [← splitSwitches_M v M] at hfold
  obtain ⟨b2, hb2, hd, c0, nx, hid2, hf, hhd, hc0, hL⟩ := hfold
  have hfind := findBlock_of_mem _ hWF b2 hb2
  rw [hid2] at hfind
  have hfindL := findBlock_of_mem _ hWF _ hL
  obtain ⟨I2, hlast2, hI2⟩ := forall₂_getLast?_of _ _ _ hf (Inst.br hd) (by simp)
  have hI2eq : I2 = Inst.br hd := by
    rcases hI2 with ⟨_, _, e, _, _⟩ | ⟨_, e⟩
    · cases e
    · exact e
  subst hI2eq
  have hterm : b2.getTerminator = some (Inst.br hd) :=
    getTerminator_of_getLast? b2 _ hlast2 rfl
  have hdrop := forall₂_dropLast_of _ _ _ hf
  rw [List.dropLast_concat] at hdrop
  refine ⟨b2, hd, c0, nx, hfind, hterm, ?_, hdrop, hhd, hc0, hfindL⟩
  intro I hI c d cs e
  have hw := hall b2 hb2
  unfold BasicBlock.wellTerminated at hw
  rw [hlast2] at hw
  simp only [Bool.and_eq_true, List.all_eq_true] at hw
  rw [eq_dropLast_append_of_getLast? b2.insts _ hlast2, List.mem_append] at hI
  rcases hI with hI | hI
  · have := hw.2 I hI
    rw [e] at this
    simp [Inst.isTerminator] at this
  · simp only [List.mem_singleton] at hI
    rw [e] at hI
    cases hI

/-- C12 (amended) at the scenario module. -/
theorem C12_terminators_well_formed_witness :
    (∀ b ∈ scenarioModule.allBlocks, b.wellTerminated = true) ∧
    (∀ b ∈ (splitSwitches (fun _ => false) scenarioModule).M.allBlocks,
      b.wellTerminated = true) :=
  ⟨by decide,
    (C12_terminators_well_formed (fun _ => false) scenarioModule (by decide)).1⟩


/-- C13: one rewrite of a pending switch in a well-formed module changes, in
the phi nodes of the module, only the incoming block of entries that named
`OrigBlock` (which then names a block created by the rewrite): every
pre-existing block is still in the module with the same phis, each with the
same number of entries in the same positions and the same incoming values, and
every entry keyed by a block other than `OrigBlock` is as before; the phis of a
block that is neither a case target nor the default target of the switch are
exactly as before; the created blocks hold no phi, and every other block of
the result is a pre-existing one. -/
theorem C13_phi_fixup_frame (M : Module) (SI : SwitchInst) (hM : M.WF) (hP : Pending M SI) :
    (∀ b ∈ M.allBlocks, ∃ b2, (splitSwitch M SI).findBlock b.id = some b2 ∧
      List.Forall₂ (List.Forall₂ (EntryFrame (fun x => x = SI.parent) M.nextBlock))
        (phiIncoming b.insts) (phiIncoming b2.insts) ∧
      (b.id ≠ SI.defaultDest → b.id ∉ SI.cases.map (fun c => c.BB) →
        phiIncoming b2.insts = phiIncoming b.insts)) ∧
    (∀ b2 ∈ (splitSwitch M SI).allBlocks, M.nextBlock ≤ b2.id → phiIncoming b2.insts = []) ∧
    (∀ b2 ∈ (splitSwitch M SI).allBlocks, b2.id < M.nextBlock →
      ∃ b ∈ M.allBlocks, b.id = b2.id) := by
  refine ⟨?_, ?_, ?_⟩
  · intro b hb
    have hphi := phiIncoming_rewriteInsts SI M.nextBlock b.id b.insts
      (pending_getLast? M SI hM hP b hb)
    refine ⟨rewriteBlock SI M.nextBlock b, findBlock_splitSwitch M SI hM hP b hb, ?_, ?_⟩
    · simp only [rewriteBlock]
      rw [hphi, List.forall₂_map_right_iff, List.forall₂_same]
      intro inc _
      exact frame_rewriteIncoming SI M.nextBlock b.id inc
    · intro hD hc
      simp only [rewriteBlock]
      rw [hphi]
      apply map_eq_self
      intro inc _
      exact rewriteIncoming_of_not_target SI _ _ inc hD hc
  · intro b2 hb2 hn
    rcases mem_splitSwitch_cases M SI hM hP b2 hb2 with rfl | h | ⟨b, hb, rfl⟩
    · rfl
    · obtain ⟨_, _, c, nx, _, hi⟩ := mem_chainBlocks _ _ _ _ _ h
      rw [hi]
      rfl
    · have := hM.2 b hb
      rw [rewriteBlock_id] at hn
      omega
  · intro b2 hb2 hn
    rcases mem_splitSwitch_cases M SI hM hP b2 hb2 with rfl | h | ⟨b, hb, rfl⟩
    · simp at hn
    · have := (mem_chainBlocks _ _ _ _ _ h).1
      omega
    · exact ⟨b, hb, rfl⟩

/-- C13 at the scenario module and its switch. -/
theorem C13_phi_fixup_frame_witness :
    (scenarioModule.WF ∧ Pending scenarioModule scenarioSwitch) ∧
    (∀ b2 ∈ (splitSwitch scenarioModule scenarioSwitch).allBlocks,
      scenarioModule.nextBlock ≤ b2.id → phiIncoming b2.insts = []) :=
  have hP : Pending scenarioModule scenarioSwitch :=
    collectSwitches_pending scenarioModule scenarioSwitch (by decide)
  ⟨⟨by decide, hP⟩, (C13_phi_fixup_frame scenarioModule scenarioSwitch (by decide) hP).2.1⟩


/-- C14: for every case list, `OrigBlock`, `NewDefault` and selector, and for
any two `bytesChecked` vectors and any two `level` values, `switchConvert`
returns the same chain head and the same module; the result is a flat linear
chain, one comparison block per case appended to the function, each with the
previously created block (or `NewDefault`) as false successor; the function is
a loop over the cases and makes no recursive call. -/
theorem C14_unused_parameters (Cases : List CaseExpr) (bytesChecked1 bytesChecked2 : List Bool)
    (F OrigBlock NewDefault : Nat) (Val : Value) (level1 level2 : Nat) (M : Module) :
    switchConvert Cases bytesChecked1 F OrigBlock NewDefault Val level1 M
      = switchConvert Cases bytesChecked2 F OrigBlock NewDefault Val level2 M ∧
    switchConvert Cases bytesChecked1 F OrigBlock NewDefault Val level1 M
      = Cases.reverse.foldl (switchConvertStep F OrigBlock Val) (NewDefault, M) ∧
    (switchConvert Cases bytesChecked1 F OrigBlock NewDefault Val level1 M).2.functions
      = (M.functions.map (Function.mapBlocks (fun b =>
            { b with insts := chainPhis OrigBlock M.nextBlock Cases.reverse b.id b.insts }))).modify
          (fun f => { blocks := f.blocks ++ chainBlocks Val M.nextBlock NewDefault Cases.reverse })
          F := by
  refine ⟨rfl, rfl, ?_⟩
  rw [switchConvert_closed]


/-- C15 (as stated, refuted): on a module without any switch the pass writes
only its banner line; no line reporting a number of rewritten switches, not
even zero, is written by `runOnModule` or by `splitSwitches`. -/
theorem C15_no_report_of_zero :
    (runOnModule (fun _ => false) emptyModule).errs = [Msg.banner] ∧
    (¬ ∃ n, Msg.rewriting n ∈ (runOnModule (fun _ => false) emptyModule).errs) ∧
    (splitSwitches (fun _ => false) emptyModule).errs = [] := by
  refine ⟨rfl, ?_, rfl⟩
  rintro ⟨n, hn⟩
  have h : (runOnModule (fun _ => false) emptyModule).errs = [Msg.banner] := rfl
  rw [h] at hn
  simp at hn

/-- C15 (amended): for every module, `splitSwitches` writes one line reporting
the number of collected switch sites, which is the number of sites it
rewrites, exactly when that number is at least one, and writes nothing when
the worklist is empty; `runOnModule` writes its banner line followed by what
`splitSwitches` writes. -/
theorem C15_diagnostic_count (v : Module → Bool) (M : Module) :
    (splitSwitches v M).errs
      = (if (collectSwitches M).length = 0 then []
         else [Msg.rewriting (collectSwitches M).length]) ∧
    (runOnModule v M).errs = Msg.banner :: (splitSwitches v M).errs ∧
    (∀ n, Msg.rewriting n ∈ (runOnModule v M).errs ↔
      n = (collectSwitches M).length ∧ 1 ≤ n) := by
  have h1 : (splitSwitches v M).errs
      = (if (collectSwitches M).length = 0 then []
         else [Msg.rewriting (collectSwitches M).length]) := by
    unfold splitSwitches
    simp only
    split <;> rfl
  refine ⟨h1, rfl, ?_⟩
  intro n
  have h2 : (runOnModule v M).errs = Msg.banner :: (splitSwitches v M).errs := rfl
  rw [h2, h1]
  by_cases h0 : (collectSwitches M).length = 0
  · simp only [h0, if_true, List.mem_cons, List.mem_nil_iff, or_false]
    constructor
    · intro h; cases h
    · rintro ⟨rfl, h⟩; omega
  · simp only [h0, if_false, List.mem_cons, List.mem_nil_iff, or_false]
    constructor
    · rintro (h | h)
      · cases h
      · simp only [Msg.rewriting.injEq] at h
        exact ⟨h, by omega⟩
    · rintro ⟨rfl, _⟩
      exact Or.inr rfl


/-- C16: one rewrite of a pending switch of a well-formed module, for a
pre-existing block `T` that is the target of `m` edges of the switch (the
default destination and the case targets counted with multiplicity). The new
predecessors of `T` are exactly `NewDefault` when `T` is the default
destination and the comparison blocks of the cases that target `T`. For every
phi of `T` whose keys name blocks of the module: if it names `OrigBlock`
exactly `m` times, then afterwards no entry names `OrigBlock`, the entries keep
their positions and values and only entries that named `OrigBlock` are re-keyed
(to new blocks), every new predecessor of `T` keys exactly one entry, and the
number of entries keyed by new blocks is `m`; if it names `OrigBlock` fewer
than `m` times, then some new predecessor of `T` has no entry in the phi. -/
theorem C16_shared_targets (M : Module) (SI : SwitchInst) (hM : M.WF) (hP : Pending M SI)
    (bT : BasicBlock) (hbT : bT ∈ M.allBlocks) :
    (∀ P, M.nextBlock ≤ P → (P ∈ (splitSwitch M SI).predecessors bT.id ↔
      ((P = M.nextBlock ∧ bT.id = SI.defaultDest) ∨
        ∃ c ∈ SI.cases, ∃ nx, c.BB = bT.id ∧
          (⟨P, [Inst.icmp SI.cond c.Val,
            Inst.condBr c.BB nx (Value.icmpEq SI.cond c.Val)]⟩ : BasicBlock)
            ∈ (splitSwitch M SI).allBlocks))) ∧
    ∃ bT2, (splitSwitch M SI).findBlock bT.id = some bT2 ∧
      List.Forall₂ (fun inc inc2 =>
        (∀ e ∈ inc, e.2 < M.nextBlock) →
        ((inc.map (fun e => e.2)).count SI.parent
            = (SI.defaultDest :: SI.cases.map (fun c => c.BB)).count bT.id →
          SI.parent ∉ inc2.map (fun e => e.2) ∧
          List.Forall₂ (EntryFrame (fun x => x = SI.parent) M.nextBlock) inc inc2 ∧
          (∀ P, M.nextBlock ≤ P →
            (inc2.map (fun e => e.2)).count P = ((splitSwitch M SI).predecessors bT.id).count P ∧
            (inc2.map (fun e => e.2)).count P ≤ 1) ∧
          ((inc2.map (fun e => e.2)).filter (fun x => decide (M.nextBlock ≤ x))).length
            = (SI.defaultDest :: SI.cases.map (fun c => c.BB)).count bT.id) ∧
        ((inc.map (fun e => e.2)).count SI.parent
            < (SI.defaultDest :: SI.cases.map (fun c => c.BB)).count bT.id →
          ∃ P, M.nextBlock ≤ P ∧ P ∈ (splitSwitch M SI).predecessors bT.id ∧
            P ∉ inc2.map (fun e => e.2)))
        (phiIncoming bT.insts) (phiIncoming bT2.insts) := by
  have hO := pending_lt M SI hM hP
  have hT := hM.2 bT hbT
  refine ⟨?_, rewriteBlock SI M.nextBlock bT, findBlock_splitSwitch M SI hM hP bT hbT, ?_⟩
  · intro P hn
    rw [mem_predecessors_new M SI hM hP P bT.id hT hn, newPredsOf, List.mem_append,
      mem_linksTo_iff_block M SI hM hP P bT.id hn]
    apply or_congr_left
    by_cases hD : bT.id = SI.defaultDest
    · rw [if_pos hD, List.mem_singleton]
      exact ⟨fun h => ⟨h, hD⟩, fun h => h.1⟩
    · rw [if_neg hD]
      exact ⟨fun h => absurd h (List.not_mem_nil _), fun h => absurd h.2 hD⟩
  · have hphi := phiIncoming_rewriteInsts SI M.nextBlock bT.id bT.insts
      (pending_getLast? M SI hM hP bT hbT)
    simp only [rewriteBlock]
    rw [hphi, List.forall₂_map_right_iff, List.forall₂_same]
    intro inc _ hks
    have hks0 : ∀ P, M.nextBlock ≤ P → (inc.map (fun e => e.2)).count P = 0 := by
      intro P hn
      apply List.count_eq_zero_of_not_mem
      intro hmem
      obtain ⟨e, he, rfl⟩ := List.mem_map.mp hmem
      have := hks e he
      omega
    have hN0 : ((inc.map (fun e => e.2)).filter (fun x => decide (M.nextBlock ≤ x))).length = 0 := by
      rw [List.length_eq_zero, List.filter_eq_nil_iff]
      intro x hx
      obtain ⟨e, he, rfl⟩ := List.mem_map.mp hx
      have := hks e he
      simp only [decide_eq_true_eq]
      omega
    have hN := newKeys_rewriteKeys SI M.nextBlock bT.id hO (inc.map (fun e => e.2))
    rw [hN0, Nat.zero_add] at hN
    rw [keys_rewriteIncoming]
    refine ⟨fun hcnt => ?_, fun hcnt => ?_⟩
    · have hc := count_rewriteKeys SI M.nextBlock bT.id (inc.map (fun e => e.2)) hO
        (Nat.le_of_eq hcnt.symm)
      have hcO := hc SI.parent
      rw [if_pos rfl, List.count_eq_zero_of_not_mem
        (fun h => absurd (le_of_mem_newPredsOf SI _ _ _ h) (by omega))] at hcO
      have hzero : (rewriteKeys SI M.nextBlock bT.id (inc.map (fun e => e.2))).count SI.parent
          = 0 := by omega
      refine ⟨List.count_eq_zero.mp hzero, frame_rewriteIncoming SI M.nextBlock bT.id inc,
        fun P hn => ?_, by omega⟩
      have hcP := hc P
      rw [if_neg (by omega), hks0 P hn, Nat.zero_add, Nat.add_zero] at hcP
      rw [count_predecessors_new M SI hM hP P bT.id hT hn, hcP]
      exact ⟨rfl, count_newPredsOf_le_one SI _ _ P⟩
    · by_contra hall
      have hsub : newPredsOf SI M.nextBlock bT.id
          ⊆ (rewriteKeys SI M.nextBlock bT.id (inc.map (fun e => e.2))).filter
              (fun x => decide (M.nextBlock ≤ x)) := by
        intro P hPm
        have hn := le_of_mem_newPredsOf SI _ _ _ hPm
        rw [List.mem_filter]
        refine ⟨?_, by simpa using hn⟩
        by_contra hnot
        exact hall ⟨P, hn, (mem_predecessors_new M SI hM hP P bT.id hT hn).mpr hPm, hnot⟩
      have hlen := (List.subperm_of_subset (nodup_newPredsOf SI M.nextBlock bT.id) hsub).length_le
      rw [length_newPredsOf] at hlen
      omega

/-- C16 at `doubleKeyModule`: block 1 is the target of two edges of the switch
of block 0; after the rewrite its first phi, which named block 0 twice, is
keyed by the two comparison blocks 4 and 5, and its second phi, which named
block 0 once, has no entry for the new predecessor 5. -/
theorem C16_shared_targets_witness :
    (doubleKeyModule.WF ∧ Pending doubleKeyModule doubleKeySwitch) ∧
    (∀ P, doubleKeyModule.nextBlock ≤ P →
      (P ∈ (splitSwitch doubleKeyModule doubleKeySwitch).predecessors 1 ↔
        ((P = doubleKeyModule.nextBlock ∧ 1 = doubleKeySwitch.defaultDest) ∨
          ∃ c ∈ doubleKeySwitch.cases, ∃ nx, c.BB = 1 ∧
            (⟨P, [Inst.icmp doubleKeySwitch.cond c.Val,
              Inst.condBr c.BB nx (Value.icmpEq doubleKeySwitch.cond c.Val)]⟩ : BasicBlock)
              ∈ (splitSwitch doubleKeyModule doubleKeySwitch).allBlocks))) ∧
    (splitSwitch doubleKeyModule doubleKeySwitch).findBlock 1
      = some ⟨1, [Inst.phi [(Value.reg 1, 4), (Value.reg 1, 5)], Inst.phi [(Value.reg 3, 4)],
          Inst.ret]⟩ ∧
    (splitSwitch doubleKeyModule doubleKeySwitch).predecessors 1 = [4, 5] :=
  have hP : Pending doubleKeyModule doubleKeySwitch :=
    collectSwitches_pending doubleKeyModule doubleKeySwitch (by decide)
  ⟨⟨by decide, hP⟩,
    (C16_shared_targets doubleKeyModule doubleKeySwitch (by decide) hP
      ⟨1, [Inst.phi [(Value.reg 1, 0), (Value.reg 1, 0)], Inst.phi [(Value.reg 3, 0)],
        Inst.ret]⟩ (by decide)).1, by decide, by decide⟩


/-- C17: in a well-formed module, for every collected switch whose targets
are blocks of the module and every value of the selector, let `T` be the
successor the switch selects. In the module produced by `splitSwitches`,
control from `OrigBlock` passes through created blocks only and enters `T`
over the edge from a created block `P` (a comparison block or `NewDefault`,
which branches into `T`). For every phi of `T` whose keys name blocks of the
module, which lists `OrigBlock` at least once per edge of the switch into `T`
(in particular exactly once per edge) and carries one value on all its
`OrigBlock` entries: the value the phi selects in the result when `T` is
entered from `P` is the value it selected in the original module when `T` was
entered from `OrigBlock`. -/
theorem C17_phi_values_preserved (v : Module → Bool) (M : Module) (hM : M.WF)
    (s : SwitchInst) (hs : s ∈ collectSwitches M)
    (hD : s.defaultDest ∈ M.allBlocks.map (fun b => b.id))
    (hT : ∀ c ∈ s.cases, c.BB ∈ M.allBlocks.map (fun b => b.id))
    (env : Nat → Int) :
    ∃ P T bT bT2,
      M.step env s.parent = some T ∧
      T = switchTarget (s.cond.eval env) s.defaultDest s.cases ∧
      (splitSwitches v M).M.runEdgeToOld env M.nextBlock (s.cases.length + 2) s.parent
        = some (P, T) ∧
      (splitSwitches v M).M.runToOld env M.nextBlock (s.cases.length + 2) s.parent = some T ∧
      (splitSwitches v M).M.step env P = some T ∧ M.nextBlock ≤ P ∧
      M.findBlock T = some bT ∧ (splitSwitches v M).M.findBlock T = some bT2 ∧
      List.Forall₂ (fun inc inc2 =>
        (∀ e ∈ inc, e.2 < M.nextBlock) →
        (s.defaultDest :: s.cases.map (fun c => c.BB)).count T
          ≤ (inc.map (fun e => e.2)).count s.parent →
        (∀ e ∈ inc, ∀ e2 ∈ inc, e.2 = s.parent → e2.2 = s.parent → e.1 = e2.1) →
        ∃ val, selectIncoming inc s.parent = some val ∧ selectIncoming inc2 P = some val)
        (phiIncoming bT.insts) (phiIncoming bT2.insts) := by
  have hlt : ∀ x ∈ M.allBlocks.map (fun b => b.id), x < M.nextBlock := by
    intro x hx
    rw [List.mem_map] at hx
    obtain ⟨b, hb, rfl⟩ := hx
    exact hM.2 b hb
  rw [splitSwitches_M]
  obtain ⟨P, T, hrun, hstep, hPb, hphi⟩ := foldl_select (collectSwitches M) M hM
    (collectSwitches_pending M) (collectSwitches_nodup M hM) env M.nextBlock (Nat.le_refl _)
    (fun t ht => pending_lt M t hM (collectSwitches_pending M t ht)) s hs
    (hlt _ hD) (fun c hc => hlt _ (hT c hc))
  have hroute := foldl_routes (collectSwitches M) M hM (collectSwitches_pending M)
    (collectSwitches_nodup M hM) env M.nextBlock (Nat.le_refl _)
    (fun t ht => pending_lt M t hM (collectSwitches_pending M t ht)) s hs
    (hlt _ hD) (fun c hc => hlt _ (hT c hc))
  have hTeq : T = switchTarget (s.cond.eval env) s.defaultDest s.cases := by
    have h2 := hroute
    rw [runToOld_eq_map, hrun] at h2
    simpa using h2
  have hstepM : M.step env s.parent = some T := by
    obtain ⟨F, hF, b, hb, h⟩ := (mem_collectSwitches M s).mp hs
    obtain ⟨_, hid, _, ht⟩ := switchEntry_some _ _ _ h
    have := step_of_mem M hM env b ((mem_allBlocks_iff M b).mpr ⟨_, F, hF, hb⟩) _ ht
    rw [hid, this, hTeq]
    rfl
  have hTmem : T ∈ M.allBlocks.map (fun b => b.id) := by
    rw [hTeq]
    unfold switchTarget
    split
    · rename_i cs hf
      exact hT cs (List.mem_of_find?_eq_some hf)
    · exact hD
  obtain ⟨bT, hbT, hid⟩ := List.mem_map.mp hTmem
  obtain ⟨bT2, hf2, hfr⟩ := hphi bT hbT hid
  refine ⟨P, T, bT, bT2, hstepM, hTeq, hrun, ?_, hstep, hPb, ?_, hf2, hfr⟩
  · rw [hTeq]
    exact hroute
  · rw [← hid]
    exact findBlock_of_mem M hM bT hbT

/-- C17 at the scenario module, its switch and the selector value 2. -/
theorem C17_phi_values_preserved_witness :
    (scenarioModule.WF ∧ scenarioSwitch ∈ collectSwitches scenarioModule) ∧
    ∃ P T bT bT2,
      scenarioModule.step (fun _ => 2) scenarioSwitch.parent = some T ∧
      T = switchTarget (scenarioSwitch.cond.eval (fun _ => 2)) scenarioSwitch.defaultDest
        scenarioSwitch.cases ∧
      (splitSwitches (fun _ => false) scenarioModule).M.runEdgeToOld (fun _ => 2)
        scenarioModule.nextBlock (scenarioSwitch.cases.length + 2) scenarioSwitch.parent
        = some (P, T) ∧
      (splitSwitches (fun _ => false) scenarioModule).M.runToOld (fun _ => 2)
        scenarioModule.nextBlock (scenarioSwitch.cases.length + 2) scenarioSwitch.parent
        = some T ∧
      (splitSwitches (fun _ => false) scenarioModule).M.step (fun _ => 2) P = some T ∧
      scenarioModule.nextBlock ≤ P ∧
      scenarioModule.findBlock T = some bT ∧
      (splitSwitches (fun _ => false) scenarioModule).M.findBlock T = some bT2 ∧
      List.Forall₂ (fun inc inc2 =>
        (∀ e ∈ inc, e.2 < scenarioModule.nextBlock) →
        (scenarioSwitch.defaultDest :: scenarioSwitch.cases.map (fun c => c.BB)).count T
          ≤ (inc.map (fun e => e.2)).count scenarioSwitch.parent →
        (∀ e ∈ inc, ∀ e2 ∈ inc, e.2 = scenarioSwitch.parent → e2.2 = scenarioSwitch.parent →
          e.1 = e2.1) →
        ∃ val, selectIncoming inc scenarioSwitch.parent = some val ∧
          selectIncoming inc2 P = some val)
        (phiIncoming bT.insts) (phiIncoming bT2.insts) :=
  ⟨⟨by decide, by decide⟩,
    C17_phi_values_preserved (fun _ => false) scenarioModule (by decide) scenarioSwitch
      (by decide) (by decide) (by decide) (fun _ => 2)⟩


/-- C18: in a well-formed module, if the first block of a function has no
predecessors, then after `splitSwitches` the first block of that function is
still the block with the same identity and it still has no predecessors.
Without that precondition the first block can change: when the first block of
the owning function is the default target of a pending switch, one rewrite
makes `NewDefault` the first block of the function. -/
theorem C18_entry_block_preserved (v : Module → Bool) (M : Module) (hM : M.WF) (fi : Nat)
    (e : BasicBlock) (rest : List BasicBlock) (hF : M.functions[fi]? = some ⟨e :: rest⟩)
    (hpred : M.predecessors e.id = []) :
    (∃ e2 rest2, (splitSwitches v M).M.functions[fi]? = some ⟨e2 :: rest2⟩ ∧ e2.id = e.id) ∧
    (splitSwitches v M).M.predecessors e.id = [] ∧
    (∀ (M2 : Module) (SI : SwitchInst) (d : BasicBlock) (rest2 : List BasicBlock),
      M2.WF → Pending M2 SI → M2.functions[SI.parentFn]? = some ⟨d :: rest2⟩ →
      d.id = SI.defaultDest →
      ∃ rest3, (splitSwitch M2 SI).functions[SI.parentFn]?
        = some ⟨⟨M2.nextBlock, [Inst.br SI.defaultDest]⟩ :: rest3⟩) := by
  have h := foldl_entry (collectSwitches M) M hM (collectSwitches_pending M)
    (collectSwitches_nodup M hM) fi e rest hF ((predecessors_eq_nil_iff M e.id).mp hpred)
  rw [← splitSwitches_M v M] at h
  refine ⟨h.1, (predecessors_eq_nil_iff _ e.id).mpr h.2, ?_⟩
  intro M2 SI d rest2 hM2 hP2 hF2 hd
  have hO := pending_lt M2 SI hM2 hP2
  rw [splitSwitch_getElem? M2 SI hP2.2.1 hO, hF2]
  simp only [Option.map_some', if_true, List.map_cons, insertBefore, rewriteBlock_id]
  rw [if_pos hd]
  exact ⟨_, rfl⟩

/-- C18 at the scenario module, whose block 0 has no predecessors, and at
`defaultFirstModule`, whose first block is the default destination of its
switch: there the rewrite puts `NewDefault` (block 3) first. -/
theorem C18_entry_block_preserved_witness :
    (scenarioModule.WF ∧ scenarioModule.predecessors 0 = []) ∧
    (∃ e2 rest2, (splitSwitches (fun _ => false) scenarioModule).M.functions[0]?
        = some ⟨e2 :: rest2⟩ ∧ e2.id = 0) ∧
    (splitSwitches (fun _ => false) scenarioModule).M.predecessors 0 = [] ∧
    (defaultFirstModule.WF ∧ Pending defaultFirstModule defaultFirstSwitch) ∧
    ∃ rest3, (splitSwitch defaultFirstModule defaultFirstSwitch).functions[0]?
      = some ⟨⟨3, [Inst.br 0]⟩ :: rest3⟩ :=
  have h := C18_entry_block_preserved (fun _ => false) scenarioModule (by decide) 0
    ⟨0, [Inst.other 0, Inst.switch (Value.reg 0) 4 [⟨i32 1, 1⟩, ⟨i32 2, 2⟩, ⟨i32 3, 3⟩]]⟩
    [⟨1, [Inst.phi [(Value.reg 1, 0)], Inst.ret]⟩,
     ⟨2, [Inst.phi [(Value.reg 2, 0)], Inst.ret]⟩,
     ⟨3, [Inst.phi [(Value.reg 3, 0)], Inst.ret]⟩,
     ⟨4, [Inst.phi [(Value.reg 4, 0)], Inst.ret]⟩] rfl (by decide)
  have hP : Pending defaultFirstModule defaultFirstSwitch :=
    collectSwitches_pending defaultFirstModule defaultFirstSwitch (by decide)
  ⟨⟨by decide, by decide⟩, h.1, h.2.1, ⟨by decide, hP⟩,
    h.2.2 defaultFirstModule defaultFirstSwitch
      ⟨0, [Inst.phi [(Value.reg 0, 1)], Inst.br 1]⟩
      [⟨1, [Inst.switch (Value.reg 1) 0 [⟨i32 7, 2⟩]]⟩,
       ⟨2, [Inst.phi [(Value.reg 2, 1)], Inst.ret]⟩] (by decide) hP rfl rfl⟩


end SplitSwitches
